import Mathlib

/-! # 2K_Simple: joint-degree-matrix realizer, checker and mutator

A shallow embedding of `src/ibrido.c` (feasibility checker, neighbour switch,
realizer), of the edge-list reader, the JDM recomputation and the JDM
comparison of `src/compare_jdm.c` and of the swap loop of `src/jdm_mutate.c`, together with
theorems about them.

Modelling conventions.

* A `GHashTable` keyed by `int` is an association list `Table α` whose order is
  the order in which `g_hash_table_iter_next` visits the entries.  Inserting a
  fresh key puts it after the existing ones, inserting an existing key replaces
  the value in place.  A JDM is therefore an arbitrary list of rows, so every
  iteration order of `nkk` is covered; well-formed tables have pairwise distinct
  keys (`Table.WF`).  The tables `nk` and `h_degree_nodelist` that the realizer
  fills itself are visited in the order in which their keys were inserted, and
  so is the edge set of `build_igraph_from_edgelist`.
* Degrees and counts of the realizer are the non-negative integers of the JDM
  file format, hence `Nat`; residual stubs are `Int` because the code can drive
  them below zero.  Sums, quotients and counters of C `int`s and `long`s are
  exact.  The products of two `int`s that the programs form, the caps
  `nk_k * nk_l` and `nk_k * (nk_k - 1)` of the checker and the cell count `n * n`
  of `fastgraph_init`, are reduced to the 32 bits of an `int` (`int_mul`); an
  index `u * total_nodes + v` stays below `n * n`.
* `rand()` is a list of draws consumed from the front.  A loop that needs a draw
  when none is left ends `Run.starved` in the state it had reached; `rand() % 0`
  ends `Run.fault`.
* A `NULL` array is the empty list.  The host grants every allocation of a
  size that fits an `int`, so the `malloc` of the residual array succeeds and
  the return of lines 302-308 is not taken; `calloc` with a negative `int`
  count, which converts to a size beyond the address space, returns `NULL`
  (lines 41-45), and `joint_degree_model` then returns at line 298.
-/

namespace TwoK

/-! ## Hash tables -/

/-- GHashTable with integer keys, in iteration order. -/
abbrev Table (α : Type) := List (Nat × α)

/-- Lookup in a table, `g_hash_table_lookup`: `none` is the NULL result. -/
def ht_lookup {α : Type} : Table α → Nat → Option α
  | [], _ => none
  | (k', v) :: rest, k => if k' = k then some v else ht_lookup rest k

/-- Insertion, `g_hash_table_insert`: replaces the value of an existing key. -/
def ht_insert {α : Type} : Table α → Nat → α → Table α
  | [], k, v => [(k, v)]
  | (k', v') :: rest, k, v =>
    if k' = k then (k', v) :: rest else (k', v') :: ht_insert rest k v

/-- Reading an integer value, `GPOINTER_TO_INT(g_hash_table_lookup(t, k))`:
a missing key reads as 0. -/
def lookup_int (t : Table Nat) (k : Nat) : Nat := (ht_lookup t k).getD 0

/-- The keys of a table are pairwise distinct. -/
def Table.WF {α : Type} (t : Table α) : Prop := (t.map Prod.fst).Nodup

instance {α : Type} (t : Table α) : Decidable (Table.WF t) := by
  unfold Table.WF; infer_instance

/-- Inner table of a JDM row: `l ↦ nkk[k][l]`. -/
abbrev Row := Table Nat

/-- Joint degree matrix `nkk`: `k ↦ (l ↦ count)`. -/
abbrev JDM := Table Row

/-- Cell of a JDM, an absent row or entry counting as zero. -/
def jdm_cell (nkk : JDM) (k l : Nat) : Nat :=
  match ht_lookup nkk k with
  | none => 0
  | some inner => lookup_int inner l

/-- Outer and inner tables all have distinct keys. -/
def JDM.WF (nkk : JDM) : Prop := Table.WF nkk ∧ ∀ r ∈ nkk, Table.WF r.2

instance (nkk : JDM) : Decidable (JDM.WF nkk) := by
  unfold JDM.WF; infer_instance

/-! ## Products of `int`s -/

/-- The C product `a * b` of two `int`s: the exact product reduced to 32 bits,
two's complement.  The low 32 bits `r` of the product stand for `r` below
`2^31` and for `r - 2^32` from there on. -/
def int_mul (a b : Int) : Int :=
  let r := ((a * b) % 4294967296).toNat
  if r < 2147483648 then (r : Int) else (r : Int) - 4294967296

/-! ## Feasibility checker (`is_valid_joint_degree`, ibrido.c 107-174) -/

/-- Sum of a row, the loop `s += GPOINTER_TO_INT(ivalue)`. -/
def row_total (inner : Row) : Nat := inner.foldl (fun s c => s + c.2) 0

/-- First loop of the checker (lines 110-134): fills `nk`, `none` when a row
violates condition 2. -/
def check_rows : List (Nat × Row) → Table Nat → Option (Table Nat)
  | [], nk => some nk
  | (k, inner) :: rest, nk =>
    let s := row_total inner
    if k ≠ 0 then
      if s % k ≠ 0 then none
      else check_rows rest (ht_insert nk k (s / k))
    else check_rows rest (ht_insert nk k s)

/-- Inner loop of the second pass (lines 146-169) over the cells of row `k`:
the number of the first violated condition, if any.  The caps `nk_k * nk_l`
(line 152) and `nk_k * (nk_k - 1)` (line 158) are `int` products. -/
def check_cells (nk : Table Nat) (k : Nat) : List (Nat × Nat) → Option Nat
  | [] => none
  | (l, nkk_val) :: rest =>
    let nk_k : Int := (lookup_int nk k : Nat)
    let nk_l : Int := (lookup_int nk l : Nat)
    if k ≠ l then
      if (nkk_val : Int) > int_mul nk_k nk_l then some 3 else check_cells nk k rest
    else
      if (nkk_val : Int) > int_mul nk_k (nk_k - 1) then some 4
      else if nkk_val % 2 ≠ 0 then some 5
      else check_cells nk k rest

/-- Outer loop of the second pass (lines 137-170). -/
def check_table (nk : Table Nat) : List (Nat × Row) → Option Nat
  | [] => none
  | (k, inner) :: rest =>
    match check_cells nk k inner with
    | some c => some c
    | none => check_table nk rest

/-- What a call of the checker yields: the `int` returned and the number in the
message "Violazione della condizione c" when one is printed. -/
structure CheckResult where
  ret : Nat
  printed : Option Nat
deriving DecidableEq, Repr

/-- The checker `is_valid_joint_degree`. -/
def is_valid_joint_degree (nkk : JDM) : CheckResult :=
  match check_rows nkk [] with
  | none => ⟨0, some 2⟩
  | some nk =>
    match check_table nk nkk with
    | some c => ⟨0, some c⟩
    | none => ⟨1, none⟩

/-! ## Graph store (`FastGraph`, ibrido.c 24-98) -/

/-- The struct `FastGraph`: `adj_matrix` is the flat `total_nodes * total_nodes`
array of chars, `node_residual` the array of free stubs. -/
structure FastGraph where
  total_nodes : Nat
  adj_matrix : List Nat
  node_residual : List Int
deriving DecidableEq, Repr

/-- The count `n * n` that `fastgraph_init` hands to `calloc` (line 41), an
`int` product. -/
def matrix_cells (n : Nat) : Int := int_mul n n

/-- Initialisation `fastgraph_init(g, n)` (lines 39-48): the graph it leaves and
the `int` it returns.  With a negative count `calloc` returns NULL and the
function returns 1, `total_nodes` set and `node_residual` as it was (lines
42-45); otherwise the matrix has `matrix_cells n` zeroed cells, the residual
pointer is NULL and the function returns 0. -/
def fastgraph_init (g : FastGraph) (n : Nat) : FastGraph × Nat :=
  if matrix_cells n < 0 then ({ g with total_nodes := n, adj_matrix := [] }, 1)
  else
    ({ total_nodes := n, adj_matrix := List.replicate (matrix_cells n).toNat 0,
       node_residual := [] }, 0)

/-- Edge test `fastgraph_has_edge`: the char at `u * total_nodes + v`. -/
def fastgraph_has_edge (g : FastGraph) (u v : Nat) : Nat :=
  g.adj_matrix.getD (u * g.total_nodes + v) 0

/-- Edge insertion `fastgraph_add_edge`: writes 1 at both positions. -/
def fastgraph_add_edge (g : FastGraph) (u v : Nat) : FastGraph :=
  { g with adj_matrix :=
      (g.adj_matrix.set (u * g.total_nodes + v) 1).set (v * g.total_nodes + u) 1 }

/-- Edge deletion `fastgraph_remove_edge`: writes 0 at both positions. -/
def fastgraph_remove_edge (g : FastGraph) (u v : Nat) : FastGraph :=
  { g with adj_matrix :=
      (g.adj_matrix.set (u * g.total_nodes + v) 0).set (v * g.total_nodes + u) 0 }

/-- Neighbour listing `fastgraph_neighbors`: the `v ≠ u` with an edge `(u,v)`,
in increasing order. -/
def fastgraph_neighbors (g : FastGraph) (u : Nat) : List Nat :=
  (List.range g.total_nodes).filter
    (fun v => decide (fastgraph_has_edge g u v ≠ 0 ∧ v ≠ u))

/-! ## Neighbour switch (`neighbor_switch`, ibrido.c 184-236) -/

/-- Step 1 of `neighbor_switch` (lines 186-204): the first candidate of
`node_list` with a free stub; `avoid_node_id = none` is `NO_AVOID`.  The
parameter `node_residual` of the C function aliases `g->node_residual`. -/
def switch_w_prime (g : FastGraph) (node_list : List Nat)
    (avoid_node_id : Option Nat) : Option Nat :=
  match avoid_node_id with
  | none => node_list.find? (fun cand => decide (g.node_residual.getD cand 0 > 0))
  | some a =>
    if g.node_residual.getD a 0 > 1 then
      node_list.find? (fun cand => decide (g.node_residual.getD cand 0 > 0))
    else
      node_list.find?
        (fun cand => decide (cand ≠ a ∧ g.node_residual.getD cand 0 > 0))

/-- Step 2 of `neighbor_switch` (lines 210-224): the first neighbour of `w`
other than `w_prime` and not adjacent to `w_prime`. -/
def switch_t (g : FastGraph) (w w_prime : Nat) : Option Nat :=
  (fastgraph_neighbors g w).find?
    (fun cand => decide (cand ≠ w_prime ∧ fastgraph_has_edge g w_prime cand = 0))

/-- Steps 3 and 4 of `neighbor_switch` (lines 231-235). -/
def switch_apply (g : FastGraph) (w w_prime t : Nat) : FastGraph :=
  let g1 := fastgraph_add_edge (fastgraph_remove_edge g w t) w_prime t
  let r1 := g1.node_residual.set w (g1.node_residual.getD w 0 + 1)
  let r2 := r1.set w_prime (r1.getD w_prime 0 - 1)
  { g1 with node_residual := r2 }

/-- The repairer `neighbor_switch`: on failure (no `w_prime`, or no `t`) it
returns with the graph untouched. -/
def neighbor_switch (g : FastGraph) (w : Nat) (node_list : List Nat)
    (avoid_node_id : Option Nat) : FastGraph :=
  match switch_w_prime g node_list avoid_node_id with
  | none => g
  | some w_prime =>
    match switch_t g w w_prime with
    | none => g
    | some t => switch_apply g w w_prime t

/-! ## Realizer (`joint_degree_model`, ibrido.c 248-399) -/

/-- Class sizes `nk` (lines 255-274). -/
def build_nk : List (Nat × Row) → Table Nat → Table Nat
  | [], nk => nk
  | (k, inner) :: rest, nk =>
    let s := row_total inner
    build_nk rest (ht_insert nk k (if k ≠ 0 then s / k else s))

/-- Vertex lists per degree and the vertex total (lines 276-292): the class of
`degree` gets the ids `total_nodes, ..., total_nodes + count - 1`. -/
def build_nodelists :
    List (Nat × Nat) → Table (List Nat) → Nat → Table (List Nat) × Nat
  | [], h, total_nodes => (h, total_nodes)
  | (degree, count) :: rest, h, total_nodes =>
    build_nodelists rest (ht_insert h degree (List.range' total_nodes count))
      (total_nodes + count)

/-- Initial residuals (lines 310-322): `node_residual[node] = degree`. -/
def init_residual : List (Nat × List Nat) → List Int → List Int
  | [], r => r
  | (degree, arr) :: rest, r =>
    init_residual rest (arr.foldl (fun r node => r.set node (degree : Int)) r)

/-- The locals of `joint_degree_model` during edge placement. -/
structure Build where
  g : FastGraph
  edge_list : List Nat
  E : Nat
  n_switches : Nat
deriving DecidableEq, Repr

/-- Outcome of a loop that consumes random draws: `done` with the draws left,
`starved` for want of a draw, `fault` for an operation without defined result. -/
inductive Run (α : Type) where
  | done (a : α) (rest : List Nat)
  | starved (a : α)
  | fault
deriving DecidableEq, Repr

/-- First repair of the loop body (lines 356-359). -/
def repair_v (k_nodes : List Nat) (v : Nat) (b : Build) : Build :=
  if b.g.node_residual.getD v 0 = 0 then
    { b with g := neighbor_switch b.g v k_nodes none, n_switches := b.n_switches + 1 }
  else b

/-- Second repair of the loop body (lines 360-366). -/
def repair_w (k l : Nat) (k_nodes l_nodes : List Nat) (v w : Nat) (b : Build) : Build :=
  if b.g.node_residual.getD w 0 = 0 then
    { b with
      g := if k ≠ l then neighbor_switch b.g w l_nodes none
           else neighbor_switch b.g w k_nodes (some v),
      n_switches := b.n_switches + 1 }
  else b

/-- Edge insertion of the loop body (lines 367-373). -/
def commit_edge (v w : Nat) (b : Build) : Build :=
  let g1 := fastgraph_add_edge b.g v w
  let r1 := g1.node_residual.set v (g1.node_residual.getD v 0 - 1)
  let r2 := r1.set w (r1.getD w 0 - 1)
  { g := { g1 with node_residual := r2 },
    edge_list := b.edge_list ++ [v, w],
    E := b.E + 1,
    n_switches := b.n_switches }

/-- The body of the placement loop for an accepted draw (lines 356-374). -/
def place_edge (k l : Nat) (k_nodes l_nodes : List Nat) (v w : Nat) (b : Build) : Build :=
  commit_edge v w (repair_w k l k_nodes l_nodes v w (repair_v k_nodes v b))

/-- The loop `while (n_edges_add > 0)` (lines 351-376). -/
def edge_loop (k l : Nat) (k_nodes l_nodes : List Nat) :
    List Nat → Nat → Build → Run Build
  | rs, 0, b => .done b rs
  | r1 :: r2 :: rs, n_edges_add + 1, b =>
    if k_nodes.length = 0 ∨ l_nodes.length = 0 then .fault
    else
      let v := k_nodes.getD (r1 % k_nodes.length) 0
      let w := l_nodes.getD (r2 % l_nodes.length) 0
      if v = w then edge_loop k l k_nodes l_nodes rs (n_edges_add + 1) b
      else if fastgraph_has_edge b.g v w = 0 then
        edge_loop k l k_nodes l_nodes rs n_edges_add (place_edge k l k_nodes l_nodes v w b)
      else edge_loop k l k_nodes l_nodes rs (n_edges_add + 1) b
  | [_], _ + 1, b => .starved b
  | [], _ + 1, b => .starved b

/-- One cell `(k,l) ↦ n_edges_add` of the double loop (lines 341-377). -/
def place_cell (h_degree_nodelist : Table (List Nat)) (k l n_edges_add : Nat)
    (b : Build) (rs : List Nat) : Run Build :=
  if n_edges_add > 0 ∧ k ≥ l then
    match ht_lookup h_degree_nodelist k, ht_lookup h_degree_nodelist l with
    | some k_nodes, some l_nodes =>
      edge_loop k l k_nodes l_nodes rs (if k = l then n_edges_add / 2 else n_edges_add) b
    | _, _ => .done b rs
  else .done b rs

/-- The inner iteration over the cells of row `k` (lines 340-378). -/
def place_row (h_degree_nodelist : Table (List Nat)) (k : Nat) :
    List (Nat × Nat) → Build → List Nat → Run Build
  | [], b, rs => .done b rs
  | (l, n_edges_add) :: rest, b, rs =>
    match place_cell h_degree_nodelist k l n_edges_add b rs with
    | .done b1 rs1 => place_row h_degree_nodelist k rest b1 rs1
    | .starved b1 => .starved b1
    | .fault => .fault

/-- The outer iteration over the rows of `nkk` (lines 334-379). -/
def place_rows (h_degree_nodelist : Table (List Nat)) :
    List (Nat × Row) → Build → List Nat → Run Build
  | [], b, rs => .done b rs
  | (k, inner) :: rest, b, rs =>
    match place_row h_degree_nodelist k inner b rs with
    | .done b1 rs1 => place_rows h_degree_nodelist rest b1 rs1
    | .starved b1 => .starved b1
    | .fault => .fault

/-- The vertex lists `h_degree_nodelist` of a JDM. -/
def degree_nodelist (nkk : JDM) : Table (List Nat) :=
  (build_nodelists (build_nk nkk []) [] 0).1

/-- The vertex total `total_nodes` of a JDM. -/
def node_total (nkk : JDM) : Nat :=
  (build_nodelists (build_nk nkk []) [] 0).2

/-- State at line 326, before any edge is placed, of a run in which
`fastgraph_init` returned 0 with a matrix of `total_nodes * total_nodes` cells
and the residual array was allocated (lines 293-325); `realize` tells which
runs get here. -/
def initial_build (nkk : JDM) (edge_list : List Nat) : Build :=
  let total_nodes := node_total nkk
  { g := { total_nodes := total_nodes,
           adj_matrix := List.replicate (total_nodes * total_nodes) 0,
           node_residual :=
             init_residual (degree_nodelist nkk) (List.replicate total_nodes 0) },
    edge_list := edge_list, E := 0, n_switches := 0 }

/-- Lines 300-380 of `joint_degree_model`, the residual array and the placement
loops, on the graph that `fastgraph_init` left with return value 0.  When the
matrix has fewer than `total_nodes * total_nodes` cells the placement indexes
outside it: `fault`.  Otherwise the residual array of `total_nodes` ints is
allocated (lines 301-308, a size that fits an `int`) and the result is the state
when the placement loops end (line 381), with the residual array still
attached. -/
def realize (nkk : JDM) (edge_list : List Nat) (rs : List Nat) : Run Build :=
  let total_nodes := node_total nkk
  if matrix_cells total_nodes ≠ ((total_nodes * total_nodes : Nat) : Int) then .fault
  else place_rows (degree_nodelist nkk) nkk (initial_build nkk edge_list) rs

/-- The realizer `joint_degree_model(nkk, g, edge_list)`: the FastGraph and the
edge list it leaves behind.  When `fastgraph_init` returns 1 the function prints
an error and returns (lines 294-299): the graph is as `fastgraph_init` left it,
without a matrix, and the edge list and the draws are untouched.  After the
loops the residual array is freed and `g->node_residual` reset to NULL (lines
386-387). -/
def joint_degree_model (nkk : JDM) (g : FastGraph) (edge_list : List Nat)
    (rs : List Nat) : Run (FastGraph × List Nat) :=
  if (is_valid_joint_degree nkk).ret = 0 then .done (g, edge_list) rs
  else if (fastgraph_init g (node_total nkk)).2 ≠ 0 then
    .done ((fastgraph_init g (node_total nkk)).1, edge_list) rs
  else
    match realize nkk edge_list rs with
    | .done b rest => .done ({ b.g with node_residual := [] }, b.edge_list) rest
    | .starved b => .starved (b.g, b.edge_list)
    | .fault => .fault

/-! ## Recomputing the JDM of a graph (compare_jdm.c 175-224, random_jdm.c 24-70,
ibrido.c 439-458) -/

/-- Inner loop of `write_graph` (lines 449-454): the records `u,v` with `u < v`. -/
def write_graph_row (g : FastGraph) (u : Nat) : List (Nat × Nat) :=
  ((List.range' (u + 1) (g.total_nodes - (u + 1))).filter
    (fun v => decide (fastgraph_has_edge g u v ≠ 0))).map (fun v => (u, v))

/-- The records written by `write_graph` (lines 448-455). -/
def write_graph (g : FastGraph) : List (Nat × Nat) :=
  (List.range g.total_nodes).flatMap (write_graph_row g)

/-- Library call `igraph_degree(g, &deg, all, IGRAPH_ALL, IGRAPH_NO_LOOPS)` on a
graph given by its edge list: the edges incident to `u`, loops not counted. -/
def igraph_degree (edges : List (Nat × Nat)) (u : Nat) : Nat :=
  edges.countP (fun e => decide (e.1 ≠ e.2 ∧ (e.1 = u ∨ e.2 = u)))

/-- The update `nkk[k][l]++` of `compute_jdm_from_igraph` (lines 201-207): the
row is created when missing. -/
def jdm_increment (result : JDM) (k l : Nat) : JDM :=
  let mapKL := (ht_lookup result k).getD []
  ht_insert result k (ht_insert mapKL l (lookup_int mapKL l + 1))

/-- The edge loop of `compute_jdm_from_igraph` (lines 191-219). -/
def jdm_accumulate (deg : Nat → Nat) : List (Nat × Nat) → JDM → JDM
  | [], result => result
  | (u, v) :: rest, result =>
    let k := deg u
    let l := deg v
    jdm_accumulate deg rest (jdm_increment (jdm_increment result k l) l k)

/-- The function `compute_jdm_from_igraph` on a graph given by its edge list; the
function of the same name in `random_jdm.c` has the same body. -/
def compute_jdm_from_igraph (edges : List (Nat × Nat)) : JDM :=
  jdm_accumulate (igraph_degree edges) edges []

/-! ## Comparing two JDMs (`compare_jdms`, compare_jdm.c 233-309) -/

/-- Inner loop of the first pass (lines 252-268): one difference for every entry
of `map_in` whose value is not the value read in `map_out`, where a missing
entry reads as 0 (`val_out = 0; if (tmp) val_out = ...`). -/
def compare_in_row (map_in map_out : Row) : Nat :=
  map_in.countP (fun c => decide (c.2 ≠ lookup_int map_out c.1))

/-- First pass (lines 237-269) over the rows of `nkk_in`: a row with no row in
`nkk_out` is one difference and its entries are skipped (`continue`). -/
def compare_in (nkk_out : JDM) : List (Nat × Row) → Nat
  | [] => 0
  | (k, map_in) :: rest =>
    (match ht_lookup nkk_out k with
      | none => 1
      | some map_out => compare_in_row map_in map_out) + compare_in nkk_out rest

/-- Inner loop of the second pass (lines 294-305): one difference for every
entry of `map_out` whose key reads as NULL in `map_in` (`if (!tmp)`), which is
the case for a missing key and for a stored count 0. -/
def compare_out_row (map_in map_out : Row) : Nat :=
  map_out.countP (fun c => decide (lookup_int map_in c.1 = 0))

/-- Second pass (lines 272-306) over the rows of `nkk_out`: a row with no row in
`nkk_in` gives one difference per entry. -/
def compare_out (nkk_in : JDM) : List (Nat × Row) → Nat
  | [] => 0
  | (k, map_out) :: rest =>
    (match ht_lookup nkk_in k with
      | none => map_out.length
      | some map_in => compare_out_row map_in map_out) + compare_out nkk_in rest

/-- The function `compare_jdms`: the number of differences counted by the two
passes. -/
def compare_jdms (nkk_in nkk_out : JDM) : Nat :=
  compare_in nkk_out nkk_in + compare_out nkk_in nkk_out

/-! ## Mutator (`jdm_mutate.c`) -/

/-- The struct `Entry`: one input line `d1,d2,count`. -/
structure Entry where
  d1 : Nat
  d2 : Nat
  count : Int
deriving DecidableEq, Repr

/-- The matrix `long **J`: a list of rows. -/
abbrev Matrix := List (List Int)

/-- Reading `J[i][j]`. -/
def J_get (J : Matrix) (i j : Nat) : Int := (J.getD i []).getD j 0

/-- Writing `J[i][j] = x`. -/
def J_set (J : Matrix) (i j : Nat) (x : Int) : Matrix :=
  J.set i ((J.getD i []).set j x)

/-- The update `J[i][j] += k`. -/
def J_add (J : Matrix) (i j : Nat) (k : Int) : Matrix := J_set J i j (J_get J i j + k)

/-- The function `row_sum(J, n, r)` (lines 10-14). -/
def row_sum (J : Matrix) (n r : Nat) : Int :=
  (List.range n).foldl (fun s c => s + J_get J r c) 0

/-- The largest degree `maxd` seen while reading (lines 29, 45-46). -/
def max_degree : List Entry → Nat
  | [] => 0
  | e :: rest => max (max e.d1 e.d2) (max_degree rest)

/-- The loop that fills `J` from the entries (lines 60-64). -/
def fill_matrix : List Entry → Matrix → Matrix
  | [], J => J
  | e :: rest, J => fill_matrix rest (J_set (J_set J e.d1 e.d2 e.count) e.d2 e.d1 e.count)

/-- The matrix built from the input entries (lines 51-64): `n = maxd + 1`, all
cells zero, then one symmetric pair of writes per entry. -/
def load_matrix (entries : List Entry) : Matrix :=
  let n := max_degree entries + 1
  fill_matrix entries (List.replicate n (List.replicate n 0))

/-- The output lines (lines 125-129): the entries in input order with the
current value of their cell. -/
def write_entries (entries : List Entry) (J : Matrix) : List Entry :=
  entries.map (fun e => { d1 := e.d1, d2 := e.d2, count := J_get J e.d1 e.d2 })

/-- Result of a sampling loop that consumes random draws. -/
inductive Drawn (α : Type) where
  | got (a : α) (rest : List Nat)
  | out
  | fault
deriving DecidableEq, Repr

/-- A swap chosen by the sampling loop: the two pairs and `max_k`. -/
structure Swap where
  i1 : Nat
  j1 : Nat
  i2 : Nat
  j2 : Nat
  max_k : Int
deriving DecidableEq, Repr

/-- The bound `max_k` computed at lines 95-110 for the pairs `(i1,j1)`, `(i2,j2)`;
the four divisors are non-zero. -/
def swap_bound (J : Matrix) (n i1 j1 i2 j2 : Nat) : Int :=
  let x1 := J_get J i1 j1
  let x2 := J_get J i2 j2
  let nk_i1 := (row_sum J n i1).tdiv i1
  let nk_j1 := (row_sum J n j1).tdiv j1
  let nk_i2 := (row_sum J n i2).tdiv i2
  let nk_j2 := (row_sum J n j2).tdiv j2
  let cap12 := if i1 ≠ j2 then nk_i1 * nk_j2 else nk_i1 * (nk_i1 - 1)
  let cap21 := if i2 ≠ j1 then nk_i2 * nk_j1 else nk_i2 * (nk_i2 - 1)
  let avail12 := cap12 - J_get J i1 j2
  let avail21 := cap21 - J_get J i2 j1
  let m0 := if x1 < x2 then x1 else x2
  let m1 := if avail12 < m0 then avail12 else m0
  if avail21 < m1 then avail21 else m1

/-- The sampling `do ... while (max_k < 1)` (lines 77-112) as a machine over the
draws: `first = none` while the first pair is being drawn (lines 79-83),
`first = some (i1, j1)` while the second is (lines 85-93).  `rand() % (n - 1)`
with `n = 1` and a division by a zero degree end in `fault`. -/
def sample (J : Matrix) (n : Nat) : List Nat → Option (Nat × Nat) → Drawn Swap
  | r1 :: r2 :: rs, none =>
    if n - 1 = 0 then .fault
    else
      let i1 := r1 % (n - 1)
      let j1 := i1 + 1 + r2 % (n - i1 - 1)
      if J_get J i1 j1 < 2 then sample J n rs none
      else sample J n rs (some (i1, j1))
  | r1 :: r2 :: rs, some (i1, j1) =>
    if n - 1 = 0 then .fault
    else
      let i2 := r1 % (n - 1)
      let j2 := i2 + 1 + r2 % (n - i2 - 1)
      if J_get J i2 j2 < 2 ∨ (i2 = i1 ∧ j2 = j1) ∨ i2 = i1 ∨ i2 = j1 ∨ j2 = i1 ∨ j2 = j1 then
        sample J n rs (some (i1, j1))
      else if i1 = 0 ∨ j1 = 0 ∨ i2 = 0 ∨ j2 = 0 then .fault
      else
        let max_k := swap_bound J n i1 j1 i2 j2
        if max_k < 1 then sample J n rs none
        else .got { i1 := i1, j1 := j1, i2 := i2, j2 := j2, max_k := max_k } rs
  | [_], _ => .out
  | [], _ => .out

/-- The swap of magnitude `k` (lines 116-119). -/
def apply_swap (J : Matrix) (s : Swap) (k : Int) : Matrix :=
  let J := J_add J s.i1 s.j1 (-k)
  let J := J_add J s.j1 s.i1 (-k)
  let J := J_add J s.i2 s.j2 (-k)
  let J := J_add J s.j2 s.i2 (-k)
  let J := J_add J s.i1 s.j2 k
  let J := J_add J s.j2 s.i1 k
  let J := J_add J s.i2 s.j1 k
  J_add J s.j1 s.i2 k

/-- The magnitude `k = 1 + rand() % max_k` (line 115). -/
def swap_size (r : Nat) (max_k : Int) : Int := 1 + (r : Int).tmod max_k

/-- The mutation loop `for (step = 0; step < num_steps; step++)` (lines 73-120). -/
def mutate (n : Nat) : Nat → Matrix → List Nat → Run Matrix
  | 0, J, rs => .done J rs
  | num_steps + 1, J, rs =>
    match sample J n rs none with
    | .got s (r :: rest) => mutate n num_steps (apply_swap J s (swap_size r s.max_k)) rest
    | .got _ [] => .starved J
    | .out => .starved J
    | .fault => .fault

/-- The program `jdm_mutate`: the lines written for the given input entries. -/
def jdm_mutate (entries : List Entry) (num_steps : Nat) (rs : List Nat) : Run (List Entry) :=
  match mutate (max_degree entries + 1) num_steps (load_matrix entries) rs with
  | .done J rest => .done (write_entries entries J) rest
  | .starved J => .starved (write_entries entries J)
  | .fault => .fault

/-! ## Predicates, measures and example inputs used in the statements -/

/-- Size recorded for a row by both `is_valid_joint_degree` and
`joint_degree_model`: the row sum divided by the degree, the row sum itself for
degree 0. -/
def row_size (k : Nat) (inner : Row) : Nat :=
  if k ≠ 0 then row_total inner / k else row_total inner

/-- Class size `n_k` as the specification words it: (sum of row k)/k for
`k ≠ 0`, the raw row sum for `k = 0`, and 0 for a degree that has no row. -/
def class_size (nkk : JDM) (k : Nat) : Nat :=
  match ht_lookup nkk k with
  | none => 0
  | some inner => if k = 0 then row_total inner else row_total inner / k

/-- Condition 2: every row of non-zero degree has a sum divisible by the degree. -/
def Cond2 (nkk : JDM) : Prop := ∀ r ∈ nkk, r.1 ≠ 0 → row_total r.2 % r.1 = 0

/-- Condition 3: every stored off-diagonal cell is at most `n_k * n_l`. -/
def Cond3 (nkk : JDM) : Prop :=
  ∀ r ∈ nkk, ∀ c ∈ r.2, r.1 ≠ c.1 → c.2 ≤ class_size nkk r.1 * class_size nkk c.1

/-- Condition 4: every stored diagonal cell is at most `n_k * (n_k - 1)`. -/
def Cond4 (nkk : JDM) : Prop :=
  ∀ r ∈ nkk, ∀ c ∈ r.2, r.1 = c.1 →
    (c.2 : Int) ≤ (class_size nkk r.1 : Int) * ((class_size nkk r.1 : Int) - 1)

/-- Condition 5: every stored diagonal cell is even. -/
def Cond5 (nkk : JDM) : Prop := ∀ r ∈ nkk, ∀ c ∈ r.2, r.1 = c.1 → c.2 % 2 = 0

instance (nkk : JDM) : Decidable (Cond2 nkk) := by unfold Cond2; infer_instance

instance (nkk : JDM) : Decidable (Cond3 nkk) := by unfold Cond3; infer_instance

instance (nkk : JDM) : Decidable (Cond4 nkk) := by unfold Cond4; infer_instance

instance (nkk : JDM) : Decidable (Cond5 nkk) := by unfold Cond5; infer_instance

/-- Every product of class sizes that the checker forms for a stored cell,
`n_k * n_l` off the diagonal and `n_k * (n_k - 1)` on it, fits the 32 bits of an
`int`. -/
def ProductsFit (nkk : JDM) : Prop :=
  ∀ r ∈ nkk, ∀ c ∈ r.2,
    (class_size nkk r.1 : Int) *
      (if r.1 = c.1 then (class_size nkk r.1 : Int) - 1 else (class_size nkk c.1 : Int))
      < 2147483648

instance (nkk : JDM) : Decidable (ProductsFit nkk) := by unfold ProductsFit; infer_instance

/-- The adjacency array has `total_nodes * total_nodes` cells. -/
def Sized (g : FastGraph) : Prop :=
  g.adj_matrix.length = g.total_nodes * g.total_nodes

instance (g : FastGraph) : Decidable (Sized g) := by
  unfold Sized; infer_instance

/-- The adjacency matrix is a simple graph: it is symmetric and has a zero
diagonal. -/
structure Simple (g : FastGraph) : Prop where
  sized : Sized g
  symm : ∀ u v, u < g.total_nodes → v < g.total_nodes →
    fastgraph_has_edge g u v = fastgraph_has_edge g v u
  irrefl : ∀ u, u < g.total_nodes → fastgraph_has_edge g u u = 0

/-- Indicator of the edge `(x,y)`. -/
def ind (g : FastGraph) (x y : Nat) : Int :=
  if fastgraph_has_edge g x y = 0 then 0 else 1

/-- Sum of a weight over the ordered pairs of adjacent vertices. -/
def wsum (g : FastGraph) (F : Nat → Nat → Int) : Int :=
  ∑ x ∈ Finset.range g.total_nodes, ∑ y ∈ Finset.range g.total_nodes, ind g x y * F x y

/-- Current degree of a vertex in the adjacency matrix. -/
def deg (g : FastGraph) (u : Nat) : Int :=
  ∑ y ∈ Finset.range g.total_nodes, ind g u y

/-- Free stubs of a vertex, `node_residual[x]`. -/
def res (g : FastGraph) (x : Nat) : Int := g.node_residual.getD x 0

/-- The residual array covers the vertices. -/
def ResSized (g : FastGraph) : Prop := g.node_residual.length = g.total_nodes

/-- Premises under which steps 3 and 4 run on the pair `(w', t)`. -/
structure SwitchOk (g : FastGraph) (w w' t : Nat) : Prop where
  hw : w < g.total_nodes
  hw' : w' < g.total_nodes
  ht : t < g.total_nodes
  hww' : w ≠ w'
  htw : t ≠ w
  htw' : t ≠ w'
  hadj : fastgraph_has_edge g w t ≠ 0
  hno : fastgraph_has_edge g w' t = 0

/-- Invariant of the edge placement, relative to an assignment `cls` of vertices
to degree classes: the graph is simple, the residual array covers the vertices,
and current degree plus residual is the degree of the class. -/
structure Inv (cls : Nat → Option Nat) (g : FastGraph) : Prop where
  simple : Simple g
  res_sized : ResSized g
  target : ∀ x, x < g.total_nodes → ∀ d, cls x = some d → deg g x + res g x = (d : Int)

/-- Total of the residuals over the class of degree `d`. -/
def resSum (cls : Nat → Option Nat) (g : FastGraph) (d : Nat) : Int :=
  ∑ x ∈ Finset.range g.total_nodes, if cls x = some d then res g x else 0

/-- A weight that only looks at the classes of the two endpoints. -/
def clsW (cls : Nat → Option Nat) (f : Option Nat → Option Nat → Int) : Nat → Nat → Int :=
  fun x y => f (cls x) (cls y)

/-- No residual is negative. -/
def ResNonneg (g : FastGraph) : Prop := ∀ x, x < g.total_nodes → 0 ≤ res g x

/-- The vertex list of class `k`: exactly the vertices assigned to `k`. -/
def ClassList (cls : Nat → Option Nat) (n k : Nat) (nl : List Nat) : Prop :=
  ∀ u, u ∈ nl ↔ (u < n ∧ cls u = some k)

/-- Facts that hold for a repair step whether or not the switch succeeds. -/
structure Kept (cls : Nat → Option Nat) (g g' : FastGraph) (w y : Nat) : Prop where
  inv : Inv cls g'
  total : g'.total_nodes = g.total_nodes
  wsum_eq : ∀ f, wsum g' (clsW cls f) = wsum g (clsW cls f)
  resSum_eq : ∀ d, resSum cls g' d = resSum cls g d
  no_edge : fastgraph_has_edge g' w y = 0

/-- Stubs that `m` edges between the classes `k` and `l` take from class `d`. -/
def cellV (k l m : Nat) (d : Nat) : Int :=
  (m : Int) * ((if k = d then 1 else 0) + (if l = d then 1 else 0))

/-- Weight that `m` edges between the classes `k` and `l` add to a class-level
edge count. -/
def cellW (k l m : Nat) (f : Option Nat → Option Nat → Int) : Int :=
  (m : Int) * (f (some k) (some l) + f (some l) (some k))

/-- Number of edges the realizer places for the cell `(k,l) ↦ v`: none unless
`v > 0` and `k ≥ l`, half the count on the diagonal. -/
def cell_edges (k l v : Nat) : Nat :=
  if v > 0 ∧ k ≥ l then (if k = l then v / 2 else v) else 0

/-- Stub demand of the cells of row `k`. -/
def rowV (k : Nat) : List (Nat × Nat) → Nat → Int
  | [], _ => 0
  | (l, v) :: rest, d => cellV k l (cell_edges k l v) d + rowV k rest d

/-- Edge weight of the cells of row `k`. -/
def rowW (k : Nat) : List (Nat × Nat) → (Option Nat → Option Nat → Int) → Int
  | [], _ => 0
  | (l, v) :: rest, f => cellW k l (cell_edges k l v) f + rowW k rest f

/-- Stub demand of a list of rows. -/
def tableV : List (Nat × Row) → Nat → Int
  | [], _ => 0
  | (k, inner) :: rest, d => rowV k inner d + tableV rest d

/-- Edge weight of a list of rows. -/
def tableW : List (Nat × Row) → (Option Nat → Option Nat → Int) → Int
  | [], _ => 0
  | (k, inner) :: rest, f => rowW k inner f + tableW rest f

/-- A finished stretch of the placement: the invariant holds again, the class
level counts moved by `W`, the class residual totals by `V`, and no residual is
negative provided the classes held the stubs demanded. -/
structure Step (cls : Nat → Option Nat) (V : Nat → Int)
    (W : (Option Nat → Option Nat → Int) → Int) (b b' : Build) : Prop where
  inv : Inv cls b'.g
  total : b'.g.total_nodes = b.g.total_nodes
  wsum_eq : ∀ f, wsum b'.g (clsW cls f) = wsum b.g (clsW cls f) + W f
  resSum_eq : ∀ d, resSum cls b'.g d = resSum cls b.g d - V d
  nonneg : ResNonneg b.g → (∀ d, V d ≤ resSum cls b.g d) → ResNonneg b'.g

/-- A stretch of the placement that ran out of draws. -/
structure Mid (cls : Nat → Option Nat) (V : Nat → Int) (b b' : Build) : Prop where
  inv : Inv cls b'.g
  total : b'.g.total_nodes = b.g.total_nodes
  nonneg : ResNonneg b.g → (∀ d, V d ≤ resSum cls b.g d) → ResNonneg b'.g

/-- What is known of the outcome of a placement loop started in `b`. -/
def RunOk (cls : Nat → Option Nat) (V : Nat → Int)
    (W : (Option Nat → Option Nat → Int) → Int) (b : Build) : Run Build → Prop
  | .done b' _ => Step cls V W b b'
  | .starved b' => Mid cls V b b'
  | .fault => True

/-- Every list in the table `h_degree_nodelist` is the vertex list of its key. -/
def Lists (cls : Nat → Option Nat) (n : Nat) (h : Table (List Nat)) : Prop :=
  ∀ k nl, ht_lookup h k = some nl → ClassList cls n k nl

/-- Class sizes as a list: one entry per row, in row order. -/
def sizes (nkk : List (Nat × Row)) : List (Nat × Nat) :=
  nkk.map (fun r => (r.1, row_size r.1 r.2))

/-- Consecutive blocks of vertex ids, one per entry of `nk`, starting at `s`. -/
def blocks : List (Nat × Nat) → Nat → List (Nat × List Nat)
  | [], _ => []
  | (d, c) :: rest, s => (d, List.range' s c) :: blocks rest (s + c)

/-- End of the last block. -/
def blocks_end : List (Nat × Nat) → Nat → Nat
  | [], s => s
  | (_, c) :: rest, s => blocks_end rest (s + c)

/-- Degree class of a vertex: the key of the vertex list that holds it. -/
def class_of (h : Table (List Nat)) (u : Nat) : Option Nat :=
  (h.find? (fun b => decide (u ∈ b.2))).map Prod.fst

/-- The class function of a JDM. -/
def jdm_class (nkk : JDM) : Nat → Option Nat := class_of (degree_nodelist nkk)

/-- Strict upper bound of the keys of a row. -/
def bound_row : Row → Nat
  | [] => 0
  | (l, _) :: rest => max (l + 1) (bound_row rest)

/-- Strict upper bound of all degrees that occur in a JDM. -/
def bound_jdm : JDM → Nat
  | [] => 0
  | (k, inner) :: rest => max (max (k + 1) (bound_row inner)) (bound_jdm rest)

/-- Row of a degree, the empty row when the degree has none. -/
def row_of (nkk : JDM) (k : Nat) : Row := (ht_lookup nkk k).getD []

/-- Edges the realizer places for the pair `(k,l)`, read off the cell. -/
def edges_of (nkk : JDM) (k l : Nat) : Nat := cell_edges k l (jdm_cell nkk k l)

/-- Indicator weight of the class pair `(a,b)`. -/
def pairW (a b : Nat) : Option Nat → Option Nat → Int :=
  fun x y => if x = some a ∧ y = some b then 1 else 0

/-- A JDM the realizer reproduces exactly: well-formed tables, symmetric, no
count in a cell of degree 0. -/
structure Realizable (nkk : JDM) : Prop where
  wf : JDM.WF nkk
  symm : ∀ k l, jdm_cell nkk k l = jdm_cell nkk l k
  zero : ∀ l, jdm_cell nkk 0 l = 0

/-- The matrix has `n` rows of `n` cells. -/
def Square (J : Matrix) (n : Nat) : Prop := J.length = n ∧ ∀ row ∈ J, row.length = n

instance (J : Matrix) (n : Nat) : Decidable (Square J n) := by
  unfold Square; infer_instance

/-- The four indices of a swap are matrix indices. -/
def Swap.InRange (s : Swap) (n : Nat) : Prop := s.i1 < n ∧ s.j1 < n ∧ s.i2 < n ∧ s.j2 < n

/-- Example: the JDM with the lines `0,1,2`, `1,1,0`, `1,0,2`. -/
def jdm_zero_row : JDM := [(0, [(1, 2)]), (1, [(1, 0), (0, 2)])]

/-- Example: the JDM of the path on four vertices, lines `2,1,2`, `2,2,2`, `1,2,2`. -/
def jdm_path : JDM := [(2, [(1, 2), (2, 2)]), (1, [(2, 2)])]

/-- Example: the JDM with the single line `1,1,2`. -/
def jdm_single_edge : JDM := [(1, [(1, 2)])]

/-- Example: the JDM with the single line `2,2,2`. -/
def jdm_two_two : JDM := [(2, [(2, 2)])]

/-- Example input of the mutator. -/
def mutator_entries : List Entry :=
  [⟨1, 2, 4⟩, ⟨3, 4, 4⟩, ⟨1, 4, 0⟩, ⟨2, 3, 0⟩, ⟨1, 1, 4⟩, ⟨2, 2, 8⟩, ⟨3, 3, 8⟩, ⟨4, 4, 12⟩]

/-- The FastGraph as `main` of ibrido.c initialises it before the call. -/
def fresh_graph : FastGraph := { total_nodes := 0, adj_matrix := [], node_residual := [] }

/-- The call `neighbor_switch(g, w, node_list, ..., avoid)` finds no eligible
`w'` (step 1) or no eligible `t` (step 2). -/
def SwitchFails (g : FastGraph) (w : Nat) (nl : List Nat) (avoid : Option Nat) : Prop :=
  switch_w_prime g nl avoid = none ∨
    ∃ w', switch_w_prime g nl avoid = some w' ∧ switch_t g w w' = none

/-- State before the first edge for the single line `1,1,2`. -/
def single_start (el : List Nat) : Build :=
  { g := { total_nodes := 2, adj_matrix := [0, 0, 0, 0], node_residual := [1, 1] },
    edge_list := el, E := 0, n_switches := 0 }

/-- First loop of `fastgraph_neighbors` (lines 82-85): the counter `count`. -/
def neighbors_count (g : FastGraph) (u : Nat) : Nat :=
  (List.range g.total_nodes).foldl
    (fun count v => if fastgraph_has_edge g u v ≠ 0 ∧ v ≠ u then count + 1 else count) 0

/-- Second loop of `fastgraph_neighbors` (lines 92-95): the array filled by
`neighbors[idx++] = v`. -/
def neighbors_fill (g : FastGraph) (u : Nat) : List Nat :=
  (List.range g.total_nodes).foldl
    (fun neighbors v =>
      if fastgraph_has_edge g u v ≠ 0 ∧ v ≠ u then neighbors ++ [v] else neighbors) []

/-- The call `fastgraph_neighbors(g, u, &n_neighbors)`: the array returned and
the value stored in `*n_neighbors`. -/
def fastgraph_neighbors_call (g : FastGraph) (u : Nat) : List Nat × Nat :=
  (neighbors_fill g u, neighbors_count g u)

/-- An igraph graph as the programs use it: the vertex count `igraph_vcount` and
the edges in edge-id order. -/
structure IGraph where
  vcount : Nat
  edges : List (Nat × Nat)
deriving DecidableEq, Repr

/-- The call `g_hash_table_replace(edge_set, e, ...)` on the set keyed by
`edge_equal`: an edge that is already in the set keeps its place. -/
def edge_set_replace (edge_set : List (Nat × Nat)) (e : Nat × Nat) : List (Nat × Nat) :=
  if e ∈ edge_set then edge_set else edge_set ++ [e]

/-- One record `u,v` of the reading loop (lines 106-132): `max_node_id` is
raised to `u` and `v`, the pair is ordered so that `u ≤ v` and put into the set. -/
def read_record (st : Int × List (Nat × Nat)) (r : Nat × Nat) : Int × List (Nat × Nat) :=
  let max_node_id := if (r.1 : Int) > st.1 then (r.1 : Int) else st.1
  let max_node_id := if (r.2 : Int) > max_node_id then (r.2 : Int) else max_node_id
  let e := if r.2 < r.1 then (r.2, r.1) else (r.1, r.2)
  (max_node_id, edge_set_replace st.2 e)

/-- The function `build_igraph_from_edgelist` on the records of the file:
`max_node_id` starts at -1, the graph gets `max_node_id + 1` vertices
(`igraph_empty`, line 136) and the edges of the set in the order in which they
were inserted (`igraph_add_edges`, line 157). -/
def build_igraph_from_edgelist (records : List (Nat × Nat)) : IGraph :=
  let st := records.foldl read_record (-1, [])
  { vcount := (st.1 + 1).toNat, edges := st.2 }

/-- The matrix is symmetric. -/
def MSymm (J : Matrix) (n : Nat) : Prop :=
  ∀ a b, a < n → b < n → J_get J a b = J_get J b a

/-- No cell of the matrix is negative. -/
def MNonneg (J : Matrix) (n : Nat) : Prop :=
  ∀ a b, a < n → b < n → 0 ≤ J_get J a b

/-- Row `k` of the matrix as a JDM row with every cell stored. -/
def matrix_row (J : Matrix) (n k : Nat) : Row :=
  (List.range n).map (fun l => (l, (J_get J k l).toNat))

/-- The matrix as a JDM table with every cell stored: the lines `k,l,J[k][l]`
for all `k, l < n`. -/
def matrix_jdm (J : Matrix) (n : Nat) : JDM :=
  (List.range n).map (fun k => (k, matrix_row J n k))

/-- Class size `n_k` of the matrix: the row sum over `k`, the raw row sum for
`k = 0`. -/
def mat_size (J : Matrix) (n k : Nat) : Int :=
  if k = 0 then row_sum J n k else row_sum J n k / (k : Int)

/-- Conditions 2 to 5 of the checker, read on the cells of the matrix. -/
structure MValid (J : Matrix) (n : Nat) : Prop where
  c2 : ∀ k, k < n → k ≠ 0 → row_sum J n k % (k : Int) = 0
  c3 : ∀ k l, k < n → l < n → k ≠ l → J_get J k l ≤ mat_size J n k * mat_size J n l
  c4 : ∀ k, k < n → J_get J k k ≤ mat_size J n k * (mat_size J n k - 1)
  c5 : ∀ k, k < n → J_get J k k % 2 = 0

/-- What the sampling loop guarantees of the swap it returns. -/
structure Swap.Sampled (J : Matrix) (n : Nat) (s : Swap) : Prop where
  lt1 : s.i1 < s.j1
  lt2 : s.i2 < s.j2
  j1_lt : s.j1 < n
  j2_lt : s.j2 < n
  ne_ii : s.i2 ≠ s.i1
  ne_ij : s.i2 ≠ s.j1
  ne_ji : s.j2 ≠ s.i1
  ne_jj : s.j2 ≠ s.j1
  pos1 : s.i1 ≠ 0
  pos2 : s.i2 ≠ 0
  bound : s.max_k = swap_bound J n s.i1 s.j1 s.i2 s.j2
  max_pos : 1 ≤ s.max_k

/-- Number of edges of the graph, as `write_graph` lists them, with one endpoint
in class `A` and the other in class `B`. -/
def class_edges (cls : Nat → Option Nat) (g : FastGraph) (A B : Nat) : Nat :=
  ((write_graph g).filter (fun e =>
    decide ((cls e.1 = some A ∧ cls e.2 = some B) ∨ (cls e.1 = some B ∧ cls e.2 = some A)))).length

/-- Row 0 of the matrix holds no entry of 2 or more. -/
def RowZeroLow (J : Matrix) (n : Nat) : Prop := ∀ c, c < n → J_get J 0 c < 2

instance (J : Matrix) (n : Nat) : Decidable (RowZeroLow J n) := by
  unfold RowZeroLow; infer_instance

/-- Example: three vertices, the edge `{0,2}`, one free stub at vertex 1. -/
def switch_graph : FastGraph :=
  { total_nodes := 3, adj_matrix := [0, 0, 1, 0, 0, 0, 1, 0, 0], node_residual := [0, 1, 0] }

/-- Example: two vertices without an edge, two free stubs at vertex 0 and one at
vertex 1. -/
def avoid_graph : FastGraph :=
  { total_nodes := 2, adj_matrix := [0, 0, 0, 0], node_residual := [2, 1] }

/-- Example: the JDM with the lines `1,1,2`, `0,1,2`. -/
def jdm_tail : JDM := [(1, [(1, 2)]), (0, [(1, 2)])]

/-- Example: four vertices and the edge `{0,1}`, the graph a run on `jdm_tail`
leaves behind. -/
def tail_graph : FastGraph :=
  { total_nodes := 4, adj_matrix := [0, 1, 0, 0, 1, 0, 0, 0, 0, 0, 0, 0, 0, 0, 0, 0],
    node_residual := [] }

/-- Example input of the mutator that lists the non-zero cells only, both
orientations of each, the way `random_jdm` writes a JDM. -/
def mutator_sparse : List Entry :=
  [⟨1, 2, 4⟩, ⟨2, 1, 4⟩, ⟨3, 4, 4⟩, ⟨4, 3, 4⟩, ⟨1, 1, 4⟩, ⟨2, 2, 8⟩, ⟨3, 3, 8⟩, ⟨4, 4, 12⟩]

/-- Example: three vertices, the edge `{0,2}`, two free stubs at vertex 1. -/
def avoid_switch_graph : FastGraph :=
  { total_nodes := 3, adj_matrix := [0, 0, 1, 0, 0, 0, 1, 0, 0], node_residual := [0, 2, 0] }

/-- Example: the JDM file `1,1,2 / 2,2,0`, one edge between two vertices of
degree 1 and a stored count 0 for degree 2. -/
def jdm_stored_zero : JDM := [(1, [(1, 2)]), (2, [(2, 0)])]

/-- The vertex pairs of a flat edge vector, as `igraph_create` reads the vector
it is given by `convert_to_igraph` (ibrido.c 463-473). -/
def edge_pairs : List Nat → List (Nat × Nat)
  | u :: v :: rest => (u, v) :: edge_pairs rest
  | _ => []

/-- The four iteration orders of the tables of the JDM file
`2,1,2 / 2,2,2 / 1,2,2`. -/
def jdm_path_orders : List JDM :=
  [jdm_path, [(2, [(2, 2), (1, 2)]), (1, [(2, 2)])],
    [(1, [(2, 2)]), (2, [(1, 2), (2, 2)])], [(1, [(2, 2)]), (2, [(2, 2), (1, 2)])]]

/-- Example: the path 3 - 0 - 1 - 2 on four vertices, residual array detached. -/
def path_result : FastGraph :=
  { total_nodes := 4, adj_matrix := [0, 1, 0, 1, 1, 0, 1, 0, 0, 1, 0, 0, 1, 0, 0, 0],
    node_residual := [] }

/-- Example: the state of the run on `jdm_path` after the draws 0,1,0,0, with
the edges `{0,3}` and `{0,2}` placed. -/
def path_mid : Build :=
  { g := { total_nodes := 4, adj_matrix := [0, 0, 1, 1, 0, 0, 0, 0, 1, 0, 0, 0, 1, 0, 0, 0],
           node_residual := [0, 2, 0, 0] },
    edge_list := [0, 3, 0, 2], E := 2, n_switches := 0 }

/-! # Theorems -/

/-! ## Facts about tables -/

theorem ht_lookup_insert {α : Type} (t : Table α) (k : Nat) (v : α) (k' : Nat) :
    ht_lookup (ht_insert t k v) k' = if k = k' then some v else ht_lookup t k' := by
  induction t with
  | nil => simp [ht_insert, ht_lookup]
  | cons p rest ih =>
    obtain ⟨k0, v0⟩ := p
    by_cases h0 : k0 = k
    · subst h0
      by_cases h1 : k0 = k' <;> simp [ht_insert, ht_lookup, h1]
    · by_cases h1 : k0 = k'
      · subst h1
        have : ¬ k = k0 := fun h => h0 h.symm
        simp [ht_insert, ht_lookup, h0, this]
      · simp [ht_insert, ht_lookup, h0, h1, ih]

theorem ht_lookup_eq_none {α : Type} (t : Table α) (k : Nat) :
    ht_lookup t k = none ↔ k ∉ t.map Prod.fst := by
  induction t with
  | nil => simp [ht_lookup]
  | cons p rest ih =>
    obtain ⟨k0, v0⟩ := p
    by_cases h : k0 = k
    · simp [ht_lookup, h]
    · have h' : ¬ k = k0 := fun e => h e.symm
      simp only [ht_lookup, h, if_false, ih, List.map_cons, List.mem_cons, h', false_or]

theorem ht_lookup_of_mem {α : Type} (t : Table α) (hwf : Table.WF t) (k : Nat) (v : α)
    (h : (k, v) ∈ t) : ht_lookup t k = some v := by
  induction t with
  | nil => simp at h
  | cons p rest ih =>
    obtain ⟨k0, v0⟩ := p
    have hnd : k0 ∉ rest.map Prod.fst ∧ (rest.map Prod.fst).Nodup := by
      simpa [Table.WF] using hwf
    rcases List.mem_cons.1 h with h1 | h1
    · cases h1
      simp [ht_lookup]
    · have hk : k ∈ rest.map Prod.fst := List.mem_map.2 ⟨(k, v), h1, rfl⟩
      have hne : ¬ k0 = k := by
        intro e
        exact hnd.1 (e ▸ hk)
      simp only [ht_lookup, hne, if_false]
      exact ih hnd.2 h1

theorem ht_lookup_mem {α : Type} (t : Table α) (k : Nat) (v : α)
    (h : ht_lookup t k = some v) : (k, v) ∈ t := by
  induction t with
  | nil => simp [ht_lookup] at h
  | cons p rest ih =>
    obtain ⟨k0, v0⟩ := p
    by_cases h0 : k0 = k
    · simp only [ht_lookup, h0, if_true, Option.some.injEq] at h
      subst h0; subst h
      exact List.mem_cons_self _ _
    · simp only [ht_lookup, h0, if_false] at h
      exact List.mem_cons_of_mem _ (ih h)

theorem ht_insert_keys_fresh {α : Type} (t : Table α) (k : Nat) (v : α)
    (h : k ∉ t.map Prod.fst) : ht_insert t k v = t ++ [(k, v)] := by
  induction t with
  | nil => simp [ht_insert]
  | cons p rest ih =>
    obtain ⟨k0, v0⟩ := p
    have h1 : ¬ k0 = k := by
      intro e; apply h; simp [e]
    have h2 : k ∉ rest.map Prod.fst := by
      intro e; apply h; simp only [List.map_cons, List.mem_cons]; exact Or.inr e
    simp [ht_insert, h1, ih h2]

/-! ## The checker -/

theorem nat_pred_mul_cast (n v : Nat) :
    v ≤ n * (n - 1) ↔ (v : Int) ≤ (n : Int) * ((n : Int) - 1) := by
  cases n with
  | zero => simp
  | succ m =>
    have : ((m + 1 : Nat) : Int) - 1 = (m : Int) := by push_cast; ring
    rw [this]
    simp only [Nat.add_sub_cancel]
    exact_mod_cast Iff.rfl

theorem check_rows_some_iff (rows : List (Nat × Row)) (nk0 : Table Nat) :
    (∃ nk, check_rows rows nk0 = some nk) ↔
      ∀ r ∈ rows, r.1 ≠ 0 → row_total r.2 % r.1 = 0 := by
  induction rows generalizing nk0 with
  | nil => simp [check_rows]
  | cons p rest ih =>
    obtain ⟨k, inner⟩ := p
    by_cases hk : k = 0
    · subst hk
      simp only [check_rows, ne_eq, not_true_eq_false, if_false, ih, List.mem_cons,
        forall_eq_or_imp, IsEmpty.forall_iff, true_and]
    · by_cases hd : row_total inner % k = 0
      · simp only [check_rows, ne_eq, hk, not_false_eq_true, if_true, hd, not_true_eq_false,
          if_false, ih, List.mem_cons, forall_eq_or_imp, forall_const, true_and]
      · simp [check_rows, hk, hd]

theorem check_rows_lookup (rows : List (Nat × Row)) (nk0 nk : Table Nat)
    (hwf : Table.WF rows) (h : check_rows rows nk0 = some nk) (k : Nat) :
    ht_lookup nk k =
      match ht_lookup rows k with
      | some inner => some (row_size k inner)
      | none => ht_lookup nk0 k := by
  induction rows generalizing nk0 with
  | nil =>
    simp only [check_rows, Option.some.injEq] at h
    subst h
    simp [ht_lookup]
  | cons p rest ih =>
    obtain ⟨k0, inner⟩ := p
    have hnd : k0 ∉ rest.map Prod.fst ∧ (rest.map Prod.fst).Nodup := by
      simpa [Table.WF] using hwf
    have key : check_rows rest (ht_insert nk0 k0 (row_size k0 inner)) = some nk := by
      by_cases hk : k0 = 0
      · subst hk
        simpa [check_rows, row_size] using h
      · by_cases hd : row_total inner % k0 = 0
        · simpa [check_rows, row_size, hk, hd] using h
        · simp [check_rows, hk, hd] at h
    have := ih _ hnd.2 key
    rw [this]
    by_cases hkk : k0 = k
    · subst hkk
      have hn : ht_lookup rest k0 = none := (ht_lookup_eq_none rest k0).2 hnd.1
      simp [hn, ht_lookup, ht_lookup_insert]
    · simp only [ht_lookup, hkk, if_false]
      cases hl : ht_lookup rest k with
      | none => simp [ht_lookup_insert, hkk]
      | some v => simp

theorem check_rows_class_size (nkk : JDM) (nk : Table Nat) (hwf : Table.WF nkk)
    (h : check_rows nkk [] = some nk) (k : Nat) : lookup_int nk k = class_size nkk k := by
  unfold lookup_int class_size
  rw [check_rows_lookup nkk [] nk hwf h k]
  cases hl : ht_lookup nkk k with
  | none => simp [ht_lookup]
  | some inner =>
    by_cases hk : k = 0 <;> simp [row_size, hk]

theorem int_mul_le (a b : Int) (h : 0 ≤ a * b) : int_mul a b ≤ a * b := by
  unfold int_mul
  generalize a * b = P at h ⊢
  simp only
  split <;> omega

theorem int_mul_lt (a b : Int) : int_mul a b < 2147483648 := by
  unfold int_mul
  generalize a * b = P
  simp only
  split <;> omega

theorem int_mul_eq (a b : Int) (h0 : 0 ≤ a * b) (h1 : a * b < 2147483648) :
    int_mul a b = a * b := by
  unfold int_mul
  generalize a * b = P at h0 h1 ⊢
  simp only
  split <;> omega

theorem pred_mul_nonneg (n : Nat) : 0 ≤ (n : Int) * ((n : Int) - 1) := by
  cases n with
  | zero => simp
  | succ m =>
    have : ((m + 1 : Nat) : Int) - 1 = (m : Int) := by push_cast; ring
    rw [this]
    exact mul_nonneg (Int.ofNat_nonneg _) (Int.ofNat_nonneg _)

theorem check_cells_none_iff (nk : Table Nat) (k : Nat) (cells : List (Nat × Nat)) :
    check_cells nk k cells = none ↔
      ∀ c ∈ cells,
        (k ≠ c.1 → (c.2 : Int) ≤ int_mul (lookup_int nk k : Nat) (lookup_int nk c.1 : Nat)) ∧
        (k = c.1 →
          (c.2 : Int) ≤ int_mul (lookup_int nk k : Nat) ((lookup_int nk k : Nat) - 1) ∧
          c.2 % 2 = 0) := by
  induction cells with
  | nil => simp [check_cells]
  | cons p rest ih =>
    obtain ⟨l, v⟩ := p
    rw [List.forall_mem_cons, ← ih]
    by_cases hkl : k = l
    · subst hkl
      by_cases h4 : (v : Int) > int_mul (lookup_int nk k : Nat) ((lookup_int nk k : Nat) - 1)
      · have e : check_cells nk k ((k, v) :: rest) = some 4 := by
          simp [check_cells, h4]
        rw [e]
        constructor
        · intro h; cases h
        · intro h
          have := (h.1.2 rfl).1
          simp only at this
          omega
      · by_cases h5 : v % 2 = 0
        · have e : check_cells nk k ((k, v) :: rest) = check_cells nk k rest := by
            simp [check_cells, h4, h5]
          rw [e]
          constructor
          · intro h
            exact ⟨⟨fun hh => absurd rfl hh, fun _ => ⟨by simp only; omega, h5⟩⟩, h⟩
          · intro h; exact h.2
        · have e : check_cells nk k ((k, v) :: rest) = some 5 := by
            simp [check_cells, h4, h5]
          rw [e]
          constructor
          · intro h; cases h
          · intro h; exact absurd (h.1.2 rfl).2 h5
    · by_cases h3 : (v : Int) > int_mul (lookup_int nk k : Nat) (lookup_int nk l : Nat)
      · have e : check_cells nk k ((l, v) :: rest) = some 3 := by
          simp [check_cells, hkl, h3]
        rw [e]
        constructor
        · intro h; cases h
        · intro h
          have := h.1.1 hkl
          simp only at this
          omega
      · have e : check_cells nk k ((l, v) :: rest) = check_cells nk k rest := by
          simp [check_cells, hkl, h3]
        rw [e]
        constructor
        · intro h
          exact ⟨⟨fun _ => by simp only; omega, fun hh => absurd hh hkl⟩, h⟩
        · intro h; exact h.2

theorem check_table_none_iff (nk : Table Nat) (rows : List (Nat × Row)) :
    check_table nk rows = none ↔ ∀ r ∈ rows, check_cells nk r.1 r.2 = none := by
  induction rows with
  | nil => simp [check_table]
  | cons p rest ih =>
    obtain ⟨k, inner⟩ := p
    cases hc : check_cells nk k inner with
    | none => simp [check_table, hc, ih]
    | some c => simp [check_table, hc]

/-- Which condition the cell loop reports: 3 on an off-diagonal cell above its
cap, 4 on a diagonal cell above its cap, 5 on an odd diagonal cell within it;
the caps are the `int` products. -/
theorem check_cells_some (nk : Table Nat) (k : Nat) (cells : List (Nat × Nat)) (c : Nat)
    (h : check_cells nk k cells = some c) :
    ∃ x ∈ cells,
      (c = 3 ∧ k ≠ x.1 ∧
        (x.2 : Int) > int_mul (lookup_int nk k : Nat) (lookup_int nk x.1 : Nat)) ∨
      (c = 4 ∧ k = x.1 ∧
        (x.2 : Int) > int_mul (lookup_int nk k : Nat) ((lookup_int nk k : Nat) - 1)) ∨
      (c = 5 ∧ k = x.1 ∧ x.2 % 2 ≠ 0) := by
  induction cells with
  | nil => simp [check_cells] at h
  | cons p rest ih =>
    obtain ⟨l, v⟩ := p
    by_cases hkl : k = l
    · subst hkl
      by_cases h4 : (v : Int) > int_mul (lookup_int nk k : Nat) ((lookup_int nk k : Nat) - 1)
      · simp only [check_cells, ne_eq, not_true_eq_false, if_false, h4, if_true,
          Option.some.injEq] at h
        exact ⟨(k, v), List.mem_cons_self _ _, Or.inr (Or.inl ⟨h.symm, rfl, h4⟩)⟩
      · by_cases h5 : v % 2 = 0
        · simp only [check_cells, ne_eq, not_true_eq_false, if_false, h4, h5] at h
          obtain ⟨x, hx, hx'⟩ := ih h
          exact ⟨x, List.mem_cons_of_mem _ hx, hx'⟩
        · simp only [check_cells, ne_eq, not_true_eq_false, if_false, h4, h5,
            not_false_eq_true, if_true, Option.some.injEq] at h
          exact ⟨(k, v), List.mem_cons_self _ _, Or.inr (Or.inr ⟨h.symm, rfl, h5⟩)⟩
    · by_cases h3 : (v : Int) > int_mul (lookup_int nk k : Nat) (lookup_int nk l : Nat)
      · simp only [check_cells, ne_eq, hkl, not_false_eq_true, if_true, h3,
          Option.some.injEq] at h
        exact ⟨(l, v), List.mem_cons_self _ _, Or.inl ⟨h.symm, hkl, h3⟩⟩
      · simp only [check_cells, ne_eq, hkl, not_false_eq_true, if_true, h3, if_false] at h
        obtain ⟨x, hx, hx'⟩ := ih h
        exact ⟨x, List.mem_cons_of_mem _ hx, hx'⟩

theorem check_table_some (nk : Table Nat) (rows : List (Nat × Row)) (c : Nat)
    (h : check_table nk rows = some c) :
    ∃ r ∈ rows, check_cells nk r.1 r.2 = some c := by
  induction rows with
  | nil => simp [check_table] at h
  | cons p rest ih =>
    obtain ⟨k, inner⟩ := p
    cases hc : check_cells nk k inner with
    | none =>
      simp only [check_table, hc] at h
      obtain ⟨r, hr, hr'⟩ := ih h
      exact ⟨r, List.mem_cons_of_mem _ hr, hr'⟩
    | some c' =>
      simp only [check_table, hc, Option.some.injEq] at h
      subst h
      exact ⟨(k, inner), List.mem_cons_self _ _, hc⟩

theorem is_valid_of_rows_none (nkk : JDM) (h : check_rows nkk [] = none) :
    is_valid_joint_degree nkk = ⟨0, some 2⟩ := by
  simp [is_valid_joint_degree, h]

theorem is_valid_of_table_some (nkk : JDM) (nk : Table Nat) (c : Nat)
    (h : check_rows nkk [] = some nk) (h2 : check_table nk nkk = some c) :
    is_valid_joint_degree nkk = ⟨0, some c⟩ := by
  simp [is_valid_joint_degree, h, h2]

theorem is_valid_of_table_none (nkk : JDM) (nk : Table Nat)
    (h : check_rows nkk [] = some nk) (h2 : check_table nk nkk = none) :
    is_valid_joint_degree nkk = ⟨1, none⟩ := by
  simp [is_valid_joint_degree, h, h2]

/-- A table the second pass lets through satisfies the conditions 3, 4, 5: an
`int` product is at most the exact product of two sizes. -/
theorem check_table_conds (nkk : JDM) (nk : Table Nat) (hwf : Table.WF nkk)
    (h1 : check_rows nkk [] = some nk) (h : check_table nk nkk = none) :
    Cond3 nkk ∧ Cond4 nkk ∧ Cond5 nkk := by
  have hsz := check_rows_class_size nkk nk hwf h1
  rw [check_table_none_iff] at h
  simp only [check_cells_none_iff, hsz] at h
  refine ⟨fun r hr c hc hne => ?_, fun r hr c hc he => ?_,
    fun r hr c hc he => (((h r hr) c hc).2 he).2⟩
  · have h3 := ((h r hr) c hc).1 hne
    have hle := int_mul_le (class_size nkk r.1 : Nat) (class_size nkk c.1 : Nat)
      (mul_nonneg (Int.ofNat_nonneg _) (Int.ofNat_nonneg _))
    have : (c.2 : Int) ≤ ((class_size nkk r.1 * class_size nkk c.1 : Nat) : Int) := by
      push_cast
      exact le_trans h3 hle
    exact_mod_cast this
  · have h4 := (((h r hr) c hc).2 he).1
    exact le_trans h4 (int_mul_le _ _ (pred_mul_nonneg _))

/-- When the products fit an `int` the second pass lets through exactly the
tables that satisfy the conditions 3, 4, 5. -/
theorem check_table_conds_fit (nkk : JDM) (nk : Table Nat) (hwf : Table.WF nkk)
    (hfit : ProductsFit nkk) (h1 : check_rows nkk [] = some nk) :
    check_table nk nkk = none ↔ Cond3 nkk ∧ Cond4 nkk ∧ Cond5 nkk := by
  refine ⟨check_table_conds nkk nk hwf h1, ?_⟩
  have hsz := check_rows_class_size nkk nk hwf h1
  rw [check_table_none_iff]
  simp only [check_cells_none_iff, hsz]
  rintro ⟨h3, h4, h5⟩ r hr c hc
  have hf := hfit r hr c hc
  constructor
  · intro hne
    rw [if_neg hne] at hf
    rw [int_mul_eq _ _ (mul_nonneg (Int.ofNat_nonneg _) (Int.ofNat_nonneg _)) hf]
    have := h3 r hr c hc hne
    exact_mod_cast this
  · intro he
    rw [if_pos he] at hf
    rw [int_mul_eq _ _ (pred_mul_nonneg _) hf]
    exact ⟨h4 r hr c hc he, h5 r hr c hc he⟩

theorem check_rows_none_iff (nkk : JDM) : check_rows nkk [] = none ↔ ¬ Cond2 nkk := by
  constructor
  · intro h1 hc
    obtain ⟨nk, hnk⟩ := (check_rows_some_iff nkk []).2 hc
    rw [h1] at hnk; cases hnk
  · intro hc
    cases h1 : check_rows nkk [] with
    | none => rfl
    | some nk => exact absurd ((check_rows_some_iff nkk []).1 ⟨nk, h1⟩) hc

/-- A table the checker accepts satisfies the conditions 2 to 5. -/
theorem is_valid_conds (nkk : JDM) (hwf : Table.WF nkk)
    (h : (is_valid_joint_degree nkk).ret = 1) :
    Cond2 nkk ∧ Cond3 nkk ∧ Cond4 nkk ∧ Cond5 nkk := by
  cases h1 : check_rows nkk [] with
  | none =>
    rw [is_valid_of_rows_none nkk h1] at h
    cases h
  | some nk =>
    have c2 : Cond2 nkk := (check_rows_some_iff nkk []).1 ⟨nk, h1⟩
    cases h2 : check_table nk nkk with
    | none => exact ⟨c2, check_table_conds nkk nk hwf h1 h2⟩
    | some c =>
      rw [is_valid_of_table_some nkk nk c h1 h2] at h
      cases h

/-- When the products fit an `int` the checker accepts exactly the tables that
satisfy the conditions 2 to 5. -/
theorem is_valid_iff_conds (nkk : JDM) (hwf : Table.WF nkk) (hfit : ProductsFit nkk) :
    (is_valid_joint_degree nkk).ret = 1 ↔ Cond2 nkk ∧ Cond3 nkk ∧ Cond4 nkk ∧ Cond5 nkk := by
  refine ⟨is_valid_conds nkk hwf, ?_⟩
  intro h
  cases h1 : check_rows nkk [] with
  | none => exact absurd h.1 ((check_rows_none_iff nkk).1 h1)
  | some nk =>
    have h2 := (check_table_conds_fit nkk nk hwf hfit h1).2 h.2
    rw [is_valid_of_table_none nkk nk h1 h2]

theorem getD_set_eq {α : Type} (a : List α) (i j : Nat) (c d : α) (hi : i < a.length) :
    (a.set i c).getD j d = if i = j then c else a.getD j d := by
  rw [List.getD_eq_getElem?_getD, List.getD_eq_getElem?_getD, List.getElem?_set]
  by_cases h : i = j
  · subst h
    simp [hi]
  · simp [h]

theorem idx_lt {n u v : Nat} (hu : u < n) (hv : v < n) : u * n + v < n * n := by
  have h1 : u * n + v < u * n + n := by omega
  have h2 : u * n + n = (u + 1) * n := by ring
  have h3 : (u + 1) * n ≤ n * n := Nat.mul_le_mul_right n hu
  omega

theorem idx_inj {n u v x y : Nat} (hv : v < n) (hy : y < n)
    (h : u * n + v = x * n + y) : u = x ∧ v = y := by
  have hn : 0 < n := by omega
  have e1 : (u * n + v) / n = u := by
    rw [Nat.add_comm, Nat.add_mul_div_right _ _ hn, Nat.div_eq_of_lt hv, Nat.zero_add]
  have e2 : (x * n + y) / n = x := by
    rw [Nat.add_comm, Nat.add_mul_div_right _ _ hn, Nat.div_eq_of_lt hy, Nat.zero_add]
  have hux : u = x := by rw [← e1, ← e2, h]
  subst hux
  exact ⟨rfl, by omega⟩

@[simp] theorem add_edge_total (g : FastGraph) (u v : Nat) :
    (fastgraph_add_edge g u v).total_nodes = g.total_nodes := rfl

@[simp] theorem remove_edge_total (g : FastGraph) (u v : Nat) :
    (fastgraph_remove_edge g u v).total_nodes = g.total_nodes := rfl

@[simp] theorem add_edge_residual (g : FastGraph) (u v : Nat) :
    (fastgraph_add_edge g u v).node_residual = g.node_residual := rfl

@[simp] theorem remove_edge_residual (g : FastGraph) (u v : Nat) :
    (fastgraph_remove_edge g u v).node_residual = g.node_residual := rfl

theorem add_edge_sized (g : FastGraph) (u v : Nat) (h : Sized g) :
    Sized (fastgraph_add_edge g u v) := by
  simp [Sized, fastgraph_add_edge] at *
  exact h

theorem remove_edge_sized (g : FastGraph) (u v : Nat) (h : Sized g) :
    Sized (fastgraph_remove_edge g u v) := by
  simp [Sized, fastgraph_remove_edge] at *
  exact h

theorem has_edge_write (g : FastGraph) (hs : Sized g) (c : Nat) {u v x y : Nat}
    (hu : u < g.total_nodes) (hv : v < g.total_nodes)
    (_hx : x < g.total_nodes) (hy : y < g.total_nodes) :
    ((g.adj_matrix.set (u * g.total_nodes + v) c).set (v * g.total_nodes + u) c).getD
        (x * g.total_nodes + y) 0 =
      if (x = u ∧ y = v) ∨ (x = v ∧ y = u) then c else fastgraph_has_edge g x y := by
  have l1 : u * g.total_nodes + v < g.adj_matrix.length := by
    rw [hs]; exact idx_lt hu hv
  have l2 : v * g.total_nodes + u < (g.adj_matrix.set (u * g.total_nodes + v) c).length := by
    rw [List.length_set, hs]; exact idx_lt hv hu
  rw [getD_set_eq _ _ _ _ _ l2, getD_set_eq _ _ _ _ _ l1]
  by_cases h1 : v * g.total_nodes + u = x * g.total_nodes + y
  · obtain ⟨e1, e2⟩ := idx_inj hu hy h1
    simp [h1, e1.symm, e2.symm]
  · have n1 : ¬ (x = v ∧ y = u) := by
      rintro ⟨e1, e2⟩; exact h1 (by rw [e1, e2])
    by_cases h2 : u * g.total_nodes + v = x * g.total_nodes + y
    · obtain ⟨e1, e2⟩ := idx_inj hv hy h2
      simp [h1, h2, e1.symm, e2.symm]
    · have n2 : ¬ (x = u ∧ y = v) := by
        rintro ⟨e1, e2⟩; exact h2 (by rw [e1, e2])
      simp [h1, h2, n1, n2, fastgraph_has_edge]

theorem has_edge_add (g : FastGraph) (hs : Sized g) {u v x y : Nat}
    (hu : u < g.total_nodes) (hv : v < g.total_nodes)
    (hx : x < g.total_nodes) (hy : y < g.total_nodes) :
    fastgraph_has_edge (fastgraph_add_edge g u v) x y =
      if (x = u ∧ y = v) ∨ (x = v ∧ y = u) then 1 else fastgraph_has_edge g x y :=
  has_edge_write g hs 1 hu hv hx hy

theorem has_edge_remove (g : FastGraph) (hs : Sized g) {u v x y : Nat}
    (hu : u < g.total_nodes) (hv : v < g.total_nodes)
    (hx : x < g.total_nodes) (hy : y < g.total_nodes) :
    fastgraph_has_edge (fastgraph_remove_edge g u v) x y =
      if (x = u ∧ y = v) ∨ (x = v ∧ y = u) then 0 else fastgraph_has_edge g x y :=
  has_edge_write g hs 0 hu hv hx hy

theorem add_edge_simple (g : FastGraph) (hg : Simple g) {u v : Nat}
    (hu : u < g.total_nodes) (hv : v < g.total_nodes) (huv : u ≠ v) :
    Simple (fastgraph_add_edge g u v) := by
  refine ⟨add_edge_sized g u v hg.sized, ?_, ?_⟩
  · intro x y hx hy
    simp only [add_edge_total] at hx hy
    rw [has_edge_add g hg.sized hu hv hx hy, has_edge_add g hg.sized hu hv hy hx,
      hg.symm x y hx hy]
    by_cases h1 : x = u ∧ y = v
    · simp [h1]
    · by_cases h2 : x = v ∧ y = u
      · simp [h2]
      · have h3 : ¬ (y = u ∧ x = v) := fun h => h2 ⟨h.2, h.1⟩
        have h4 : ¬ (y = v ∧ x = u) := fun h => h1 ⟨h.2, h.1⟩
        simp [h1, h2, h3, h4]
  · intro x hx
    simp only [add_edge_total] at hx
    rw [has_edge_add g hg.sized hu hv hx hx]
    have h1 : ¬ (x = u ∧ x = v) := fun h => huv (h.1.symm.trans h.2)
    have h2 : ¬ (x = v ∧ x = u) := fun h => huv (h.2.symm.trans h.1)
    simp [h1, h2, hg.irrefl x hx]

theorem remove_edge_simple (g : FastGraph) (hg : Simple g) {u v : Nat}
    (hu : u < g.total_nodes) (hv : v < g.total_nodes) :
    Simple (fastgraph_remove_edge g u v) := by
  refine ⟨remove_edge_sized g u v hg.sized, ?_, ?_⟩
  · intro x y hx hy
    simp only [remove_edge_total] at hx hy
    rw [has_edge_remove g hg.sized hu hv hx hy, has_edge_remove g hg.sized hu hv hy hx,
      hg.symm x y hx hy]
    by_cases h1 : x = u ∧ y = v
    · simp [h1]
    · by_cases h2 : x = v ∧ y = u
      · simp [h2]
      · have h3 : ¬ (y = u ∧ x = v) := fun h => h2 ⟨h.2, h.1⟩
        have h4 : ¬ (y = v ∧ x = u) := fun h => h1 ⟨h.2, h.1⟩
        simp [h1, h2, h3, h4]
  · intro x hx
    simp only [remove_edge_total] at hx
    rw [has_edge_remove g hg.sized hu hv hx hx]
    split
    · rfl
    · exact hg.irrefl x hx

/-! ## Weighted edge counts -/

theorem ind_nonneg (g : FastGraph) (x y : Nat) : 0 ≤ ind g x y := by
  unfold ind; split <;> simp

theorem ind_le_one (g : FastGraph) (x y : Nat) : ind g x y ≤ 1 := by
  unfold ind; split <;> simp

theorem sum_point (n u : Nat) (hu : u < n) (c : Nat → Int) :
    (∑ x ∈ Finset.range n, if x = u then c x else 0) = c u := by
  rw [Finset.sum_ite_eq' (Finset.range n) u c]
  simp [hu]

theorem sum_sum_point (n u v : Nat) (hu : u < n) (hv : v < n) (c : Nat → Nat → Int) :
    (∑ x ∈ Finset.range n, ∑ y ∈ Finset.range n,
      if x = u ∧ y = v then c x y else 0) = c u v := by
  have : ∀ x ∈ Finset.range n, (∑ y ∈ Finset.range n, if x = u ∧ y = v then c x y else 0)
      = if x = u then c x v else 0 := by
    intro x _
    by_cases hx : x = u
    · simp only [hx, true_and, if_true]
      exact sum_point n v hv (fun y => c u y)
    · simp [hx]
  rw [Finset.sum_congr rfl this]
  exact sum_point n u hu (fun x => c x v)

theorem ind_add (g : FastGraph) (hg : Simple g) {u v x y : Nat}
    (hu : u < g.total_nodes) (hv : v < g.total_nodes)
    (hx : x < g.total_nodes) (hy : y < g.total_nodes)
    (huv : u ≠ v) (hno : fastgraph_has_edge g u v = 0) :
    ind (fastgraph_add_edge g u v) x y =
      ind g x y + (if x = u ∧ y = v then 1 else 0) + (if x = v ∧ y = u then 1 else 0) := by
  unfold ind
  rw [has_edge_add g hg.sized hu hv hx hy]
  have hno' : fastgraph_has_edge g v u = 0 := by rw [hg.symm v u hv hu]; exact hno
  by_cases h1 : x = u ∧ y = v
  · have h2 : ¬ (x = v ∧ y = u) := fun h => huv (h1.1.symm.trans h.1)
    obtain ⟨e1, e2⟩ := h1
    subst e1; subst e2
    simp [hno, huv]
  · by_cases h2 : x = v ∧ y = u
    · obtain ⟨e1, e2⟩ := h2
      subst e1; subst e2
      simp [hno', huv, Ne.symm huv]
    · simp [h1, h2]

theorem ind_remove (g : FastGraph) (hg : Simple g) {u v x y : Nat}
    (hu : u < g.total_nodes) (hv : v < g.total_nodes)
    (hx : x < g.total_nodes) (hy : y < g.total_nodes)
    (huv : u ≠ v) (hyes : fastgraph_has_edge g u v ≠ 0) :
    ind (fastgraph_remove_edge g u v) x y =
      ind g x y - (if x = u ∧ y = v then 1 else 0) - (if x = v ∧ y = u then 1 else 0) := by
  unfold ind
  rw [has_edge_remove g hg.sized hu hv hx hy]
  have hyes' : fastgraph_has_edge g v u ≠ 0 := by rw [hg.symm v u hv hu]; exact hyes
  by_cases h1 : x = u ∧ y = v
  · obtain ⟨e1, e2⟩ := h1
    subst e1; subst e2
    simp [hyes, huv]
  · by_cases h2 : x = v ∧ y = u
    · obtain ⟨e1, e2⟩ := h2
      subst e1; subst e2
      simp [hyes', huv, Ne.symm huv]
    · simp [h1, h2]

theorem wsum_add (g : FastGraph) (hg : Simple g) {u v : Nat}
    (hu : u < g.total_nodes) (hv : v < g.total_nodes)
    (huv : u ≠ v) (hno : fastgraph_has_edge g u v = 0) (F : Nat → Nat → Int) :
    wsum (fastgraph_add_edge g u v) F = wsum g F + F u v + F v u := by
  unfold wsum
  simp only [add_edge_total]
  have step : ∀ x ∈ Finset.range g.total_nodes, ∀ y ∈ Finset.range g.total_nodes,
      ind (fastgraph_add_edge g u v) x y * F x y =
        ind g x y * F x y + (if x = u ∧ y = v then F x y else 0)
          + (if x = v ∧ y = u then F x y else 0) := by
    intro x hx y hy
    rw [ind_add g hg hu hv (Finset.mem_range.1 hx) (Finset.mem_range.1 hy) huv hno]
    split_ifs <;> ring
  rw [Finset.sum_congr rfl (fun x hx => Finset.sum_congr rfl (step x hx))]
  simp only [Finset.sum_add_distrib]
  rw [sum_sum_point _ u v hu hv F, sum_sum_point _ v u hv hu F]

theorem wsum_remove (g : FastGraph) (hg : Simple g) {u v : Nat}
    (hu : u < g.total_nodes) (hv : v < g.total_nodes)
    (huv : u ≠ v) (hyes : fastgraph_has_edge g u v ≠ 0) (F : Nat → Nat → Int) :
    wsum (fastgraph_remove_edge g u v) F = wsum g F - F u v - F v u := by
  unfold wsum
  simp only [remove_edge_total]
  have step : ∀ x ∈ Finset.range g.total_nodes, ∀ y ∈ Finset.range g.total_nodes,
      ind (fastgraph_remove_edge g u v) x y * F x y =
        ind g x y * F x y - (if x = u ∧ y = v then F x y else 0)
          - (if x = v ∧ y = u then F x y else 0) := by
    intro x hx y hy
    rw [ind_remove g hg hu hv (Finset.mem_range.1 hx) (Finset.mem_range.1 hy) huv hyes]
    split_ifs <;> ring
  rw [Finset.sum_congr rfl (fun x hx => Finset.sum_congr rfl (step x hx))]
  simp only [Finset.sum_sub_distrib]
  rw [sum_sum_point _ u v hu hv F, sum_sum_point _ v u hv hu F]

theorem deg_eq_wsum (g : FastGraph) (u : Nat) (hu : u < g.total_nodes) :
    deg g u = wsum g (fun x _ => if x = u then 1 else 0) := by
  unfold deg wsum
  have : ∀ x ∈ Finset.range g.total_nodes,
      (∑ y ∈ Finset.range g.total_nodes, ind g x y * (if x = u then (1 : Int) else 0))
        = if x = u then (∑ y ∈ Finset.range g.total_nodes, ind g x y) else 0 := by
    intro x _
    by_cases hx : x = u <;> simp [hx]
  rw [Finset.sum_congr rfl this]
  exact (sum_point _ u hu (fun x => ∑ y ∈ Finset.range g.total_nodes, ind g x y)).symm

theorem deg_add (g : FastGraph) (hg : Simple g) {u v : Nat}
    (hu : u < g.total_nodes) (hv : v < g.total_nodes)
    (huv : u ≠ v) (hno : fastgraph_has_edge g u v = 0) (x : Nat) (hx : x < g.total_nodes) :
    deg (fastgraph_add_edge g u v) x =
      deg g x + (if u = x then 1 else 0) + (if v = x then 1 else 0) := by
  rw [deg_eq_wsum _ x (by simpa using hx), deg_eq_wsum g x hx, wsum_add g hg hu hv huv hno]

theorem deg_remove (g : FastGraph) (hg : Simple g) {u v : Nat}
    (hu : u < g.total_nodes) (hv : v < g.total_nodes)
    (huv : u ≠ v) (hyes : fastgraph_has_edge g u v ≠ 0) (x : Nat) (hx : x < g.total_nodes) :
    deg (fastgraph_remove_edge g u v) x =
      deg g x - (if u = x then 1 else 0) - (if v = x then 1 else 0) := by
  rw [deg_eq_wsum _ x (by simpa using hx), deg_eq_wsum g x hx,
    wsum_remove g hg hu hv huv hyes]

/-- Degrees and weighted sums only depend on the adjacency data. -/
theorem wsum_congr_adj (g g' : FastGraph) (h1 : g'.total_nodes = g.total_nodes)
    (h2 : g'.adj_matrix = g.adj_matrix) (F : Nat → Nat → Int) : wsum g' F = wsum g F := by
  unfold wsum ind fastgraph_has_edge
  rw [h1, h2]

theorem deg_congr_adj (g g' : FastGraph) (h1 : g'.total_nodes = g.total_nodes)
    (h2 : g'.adj_matrix = g.adj_matrix) (u : Nat) : deg g' u = deg g u := by
  unfold deg ind fastgraph_has_edge
  rw [h1, h2]

theorem simple_congr_adj (g g' : FastGraph) (h1 : g'.total_nodes = g.total_nodes)
    (h2 : g'.adj_matrix = g.adj_matrix) (h : Simple g) : Simple g' := by
  refine ⟨?_, ?_, ?_⟩
  · unfold Sized; rw [h1, h2]; exact h.sized
  · intro u v hu hv
    unfold fastgraph_has_edge
    rw [h1, h2]
    exact h.symm u v (h1 ▸ hu) (h1 ▸ hv)
  · intro u hu
    unfold fastgraph_has_edge
    rw [h1, h2]
    exact h.irrefl u (h1 ▸ hu)

/-! ## Residuals and the neighbour switch -/

theorem switch_w_prime_some (g : FastGraph) (nl : List Nat) (avoid : Option Nat) (w' : Nat)
    (h : switch_w_prime g nl avoid = some w') :
    w' ∈ nl ∧ 0 < res g w' ∧ ∀ a, avoid = some a → res g a ≤ 1 → w' ≠ a := by
  unfold switch_w_prime at h
  cases avoid with
  | none =>
    simp only at h
    have h1 := List.find?_some h
    have h2 := List.mem_of_find?_eq_some h
    refine ⟨h2, by simpa [res] using h1, ?_⟩
    intro a ha; cases ha
  | some a =>
    simp only at h
    by_cases hr : g.node_residual.getD a 0 > 1
    · rw [if_pos hr] at h
      have h1 := List.find?_some h
      have h2 := List.mem_of_find?_eq_some h
      refine ⟨h2, by simpa [res] using h1, ?_⟩
      intro a' ha' hle
      cases ha'
      unfold res at hle
      omega
    · rw [if_neg hr] at h
      have h1 := List.find?_some h
      have h2 := List.mem_of_find?_eq_some h
      simp only [decide_eq_true_eq] at h1
      refine ⟨h2, h1.2, ?_⟩
      intro a' ha' _
      cases ha'
      exact h1.1

theorem switch_w_prime_none_any (g : FastGraph) (nl : List Nat) (avoid : Option Nat)
    (h : switch_w_prime g nl avoid = none) (c : Nat) (hc : c ∈ nl) (hpos : 0 < res g c)
    (hav : ∀ a, avoid = some a → res g a ≤ 1 → c ≠ a) : False := by
  unfold switch_w_prime at h
  cases avoid with
  | none =>
    simp only at h
    have := List.find?_eq_none.1 h c hc
    simp [res] at this hpos
    omega
  | some a =>
    simp only at h
    by_cases hr : g.node_residual.getD a 0 > 1
    · rw [if_pos hr] at h
      have := List.find?_eq_none.1 h c hc
      simp [res] at this hpos
      omega
    · rw [if_neg hr] at h
      have := List.find?_eq_none.1 h c hc
      have hne : c ≠ a := hav a rfl (by unfold res; omega)
      simp only [decide_eq_true_eq, not_and] at this
      exact this hne hpos

theorem mem_neighbors (g : FastGraph) (u y : Nat) :
    y ∈ fastgraph_neighbors g u ↔
      y < g.total_nodes ∧ fastgraph_has_edge g u y ≠ 0 ∧ y ≠ u := by
  unfold fastgraph_neighbors
  simp [List.mem_filter, List.mem_range]

theorem switch_t_some (g : FastGraph) (w w' t : Nat) (h : switch_t g w w' = some t) :
    t < g.total_nodes ∧ fastgraph_has_edge g w t ≠ 0 ∧ t ≠ w ∧ t ≠ w' ∧
      fastgraph_has_edge g w' t = 0 := by
  unfold switch_t at h
  have h1 := List.find?_some h
  have h2 := (mem_neighbors g w t).1 (List.mem_of_find?_eq_some h)
  simp only [decide_eq_true_eq] at h1
  exact ⟨h2.1, h2.2.1, h2.2.2, h1.1, h1.2⟩

theorem switch_t_none (g : FastGraph) (w w' : Nat) (h : switch_t g w w' = none) (y : Nat)
    (hy : y < g.total_nodes) (hadj : fastgraph_has_edge g w y ≠ 0) (hyw : y ≠ w)
    (hyw' : y ≠ w') : fastgraph_has_edge g w' y ≠ 0 := by
  unfold switch_t at h
  have := List.find?_eq_none.1 h y ((mem_neighbors g w y).2 ⟨hy, hadj, hyw⟩)
  simp only [decide_eq_true_eq, not_and] at this
  exact this hyw'

/-- Counting argument behind step 2: a vertex of smaller degree than `w` misses
one of the neighbours of `w`. -/
theorem switch_t_exists (g : FastGraph) (hg : Simple g) (w w' : Nat)
    (hw : w < g.total_nodes) (hw' : w' < g.total_nodes) (hlt : deg g w' < deg g w) :
    ∃ t, switch_t g w w' = some t := by
  cases h : switch_t g w w' with
  | some t => exact ⟨t, rfl⟩
  | none =>
    exfalso
    have key : ∀ y ∈ Finset.range g.total_nodes,
        ind g w y ≤ ind g w' (Equiv.swap w w' y) := by
      intro y hy
      have hy' := Finset.mem_range.1 hy
      by_cases h1 : y = w
      · subst h1
        have : ind g y y = 0 := by unfold ind; rw [hg.irrefl y hy']; rfl
        rw [this]
        exact ind_nonneg _ _ _
      · by_cases h2 : y = w'
        · subst h2
          rw [Equiv.swap_apply_right]
          unfold ind
          rw [hg.symm w y hw hy']
        · rw [Equiv.swap_apply_of_ne_of_ne h1 h2]
          by_cases h3 : fastgraph_has_edge g w y = 0
          · have : ind g w y = 0 := by unfold ind; rw [if_pos h3]
            rw [this]
            exact ind_nonneg _ _ _
          · have h4 := switch_t_none g w w' h y hy' h3 h1 h2
            have e1 : ind g w y = 1 := by unfold ind; rw [if_neg h3]
            have e2 : ind g w' y = 1 := by unfold ind; rw [if_neg h4]
            rw [e1, e2]
    have hsum : (∑ y ∈ Finset.range g.total_nodes, ind g w' (Equiv.swap w w' y))
        = ∑ y ∈ Finset.range g.total_nodes, ind g w' y := by
      apply Finset.sum_equiv (Equiv.swap w w')
      · intro i
        simp only [Finset.mem_range]
        rw [Equiv.swap_apply_def]
        split_ifs with a1 a2
        · subst a1; exact ⟨fun _ => hw', fun _ => hw⟩
        · subst a2; exact ⟨fun _ => hw, fun _ => hw'⟩
        · exact Iff.rfl
      · intro i _; rfl
    have := Finset.sum_le_sum key
    rw [hsum] at this
    unfold deg at hlt
    omega

/-! ### Effect of a successful switch -/

theorem switch_apply_total (g : FastGraph) (w w' t : Nat) :
    (switch_apply g w w' t).total_nodes = g.total_nodes := rfl

theorem switch_apply_adj (g : FastGraph) (w w' t : Nat) :
    (switch_apply g w w' t).adj_matrix =
      (fastgraph_add_edge (fastgraph_remove_edge g w t) w' t).adj_matrix := rfl

theorem switch_apply_res_len (g : FastGraph) (w w' t : Nat) (h : ResSized g) :
    ResSized (switch_apply g w w' t) := by
  unfold ResSized switch_apply at *
  simp [h]

theorem switch_apply_res (g : FastGraph) (w w' t : Nat) (h : ResSized g)
    (hw : w < g.total_nodes) (hw' : w' < g.total_nodes) (hne : w ≠ w') (x : Nat) :
    res (switch_apply g w w' t) x =
      res g x + (if w = x then 1 else 0) - (if w' = x then 1 else 0) := by
  unfold ResSized at h
  unfold res switch_apply
  simp only [add_edge_residual, remove_edge_residual]
  have l1 : w < g.node_residual.length := by omega
  have l2 : w' < (g.node_residual.set w (g.node_residual.getD w 0 + 1)).length := by
    rw [List.length_set]; omega
  rw [getD_set_eq _ _ _ _ _ l2, getD_set_eq _ _ _ _ _ l1, getD_set_eq _ _ _ _ _ l1]
  by_cases h1 : w' = x
  · subst h1
    simp [hne]
  · by_cases h2 : w = x
    · subst h2
      simp [h1]
    · simp [h1, h2]

theorem switch_mid_no (g : FastGraph) (hg : Simple g) (w w' t : Nat) (ok : SwitchOk g w w' t) :
    fastgraph_has_edge (fastgraph_remove_edge g w t) w' t = 0 := by
  rw [has_edge_remove g hg.sized ok.hw ok.ht ok.hw' ok.ht]
  split
  · rfl
  · exact ok.hno

theorem switch_apply_simple (g : FastGraph) (hg : Simple g) (w w' t : Nat)
    (ok : SwitchOk g w w' t) : Simple (switch_apply g w w' t) := by
  apply simple_congr_adj (fastgraph_add_edge (fastgraph_remove_edge g w t) w' t)
  · rfl
  · rfl
  · exact add_edge_simple _ (remove_edge_simple g hg ok.hw ok.ht) ok.hw' ok.ht
      (Ne.symm ok.htw')

theorem switch_apply_wsum (g : FastGraph) (hg : Simple g) (w w' t : Nat)
    (ok : SwitchOk g w w' t) (F : Nat → Nat → Int) :
    wsum (switch_apply g w w' t) F = wsum g F - F w t - F t w + F w' t + F t w' := by
  rw [wsum_congr_adj (fastgraph_add_edge (fastgraph_remove_edge g w t) w' t)
      (switch_apply g w w' t) rfl rfl,
    wsum_add _ (remove_edge_simple g hg ok.hw ok.ht) ok.hw' ok.ht (Ne.symm ok.htw')
      (switch_mid_no g hg w w' t ok),
    wsum_remove g hg ok.hw ok.ht (Ne.symm ok.htw) ok.hadj]

theorem switch_apply_deg (g : FastGraph) (hg : Simple g) (w w' t : Nat)
    (ok : SwitchOk g w w' t) (x : Nat) (hx : x < g.total_nodes) :
    deg (switch_apply g w w' t) x =
      deg g x - (if w = x then 1 else 0) + (if w' = x then 1 else 0) := by
  rw [deg_eq_wsum (switch_apply g w w' t) x hx, deg_eq_wsum g x hx,
    switch_apply_wsum g hg w w' t ok]
  ring

theorem switch_apply_has_edge (g : FastGraph) (hg : Simple g) (w w' t : Nat)
    (ok : SwitchOk g w w' t) (x y : Nat) (hx : x < g.total_nodes) (hy : y < g.total_nodes) :
    fastgraph_has_edge (switch_apply g w w' t) x y =
      if (x = w' ∧ y = t) ∨ (x = t ∧ y = w') then 1
      else if (x = w ∧ y = t) ∨ (x = t ∧ y = w) then 0
      else fastgraph_has_edge g x y := by
  have : fastgraph_has_edge (switch_apply g w w' t) x y =
      fastgraph_has_edge (fastgraph_add_edge (fastgraph_remove_edge g w t) w' t) x y := rfl
  rw [this, has_edge_add _ (remove_edge_sized g w t hg.sized) ok.hw' ok.ht hx hy,
    has_edge_remove g hg.sized ok.hw ok.ht hx hy]

/-- What `neighbor_switch` does: either nothing, or steps 3 and 4 on a pair
`(w', t)` found by steps 1 and 2. -/
theorem neighbor_switch_cases (g : FastGraph) (w : Nat) (nl : List Nat) (avoid : Option Nat) :
    (neighbor_switch g w nl avoid = g ∧
      (switch_w_prime g nl avoid = none ∨
        ∃ w', switch_w_prime g nl avoid = some w' ∧ switch_t g w w' = none)) ∨
    (∃ w' t, switch_w_prime g nl avoid = some w' ∧ switch_t g w w' = some t ∧
      neighbor_switch g w nl avoid = switch_apply g w w' t) := by
  unfold neighbor_switch
  cases h1 : switch_w_prime g nl avoid with
  | none => exact Or.inl ⟨rfl, Or.inl rfl⟩
  | some w' =>
    cases h2 : switch_t g w w' with
    | none =>
      refine Or.inl ⟨?_, Or.inr ⟨w', rfl, h2⟩⟩
      simp [h2]
    | some t =>
      refine Or.inr ⟨w', t, rfl, h2, ?_⟩
      simp [h2]

/-! ## Invariants of the placement loop -/

theorem sum_point_left (n u : Nat) (hu : u < n) (c : Nat → Int) :
    (∑ x ∈ Finset.range n, if u = x then c x else 0) = c u := by
  rw [Finset.sum_ite_eq (Finset.range n) u c]
  simp [hu]

theorem resSum_shift (cls : Nat → Option Nat) (g g' : FastGraph)
    (ht : g'.total_nodes = g.total_nodes) (δ : Nat → Int)
    (h : ∀ x, res g' x = res g x + δ x) (d : Nat) :
    resSum cls g' d = resSum cls g d +
      ∑ x ∈ Finset.range g.total_nodes, if cls x = some d then δ x else 0 := by
  unfold resSum
  rw [ht, ← Finset.sum_add_distrib]
  apply Finset.sum_congr rfl
  intro x _
  rw [h x]
  split <;> simp

theorem switch_ok_of_found (g : FastGraph) (w : Nat) (nl : List Nat) (avoid : Option Nat)
    (hw : w < g.total_nodes) (hnl : ∀ u ∈ nl, u < g.total_nodes) (w' t : Nat)
    (h1 : switch_w_prime g nl avoid = some w') (h2 : switch_t g w w' = some t) :
    SwitchOk g w w' t := by
  obtain ⟨a1, -, -⟩ := switch_w_prime_some g nl avoid w' h1
  obtain ⟨b1, b2, b3, b4, b5⟩ := switch_t_some g w w' t h2
  refine ⟨hw, hnl w' a1, b1, ?_, b3, b4, b2, b5⟩
  intro e
  subst e
  exact b2 b5

theorem inv_switch_apply (cls : Nat → Option Nat) (g : FastGraph) (hI : Inv cls g)
    (w w' t : Nat) (ok : SwitchOk g w w' t) : Inv cls (switch_apply g w w' t) := by
  refine ⟨switch_apply_simple g hI.simple w w' t ok,
    switch_apply_res_len g w w' t hI.res_sized, ?_⟩
  intro x hx d hd
  have hx' : x < g.total_nodes := hx
  rw [switch_apply_deg g hI.simple w w' t ok x hx',
    switch_apply_res g w w' t hI.res_sized ok.hw ok.hw' ok.hww' x]
  have := hI.target x hx' d hd
  omega

theorem clsW_switch (cls : Nat → Option Nat) (g : FastGraph) (hI : Inv cls g)
    (w w' t : Nat) (ok : SwitchOk g w w' t) (hc : cls w' = cls w)
    (f : Option Nat → Option Nat → Int) :
    wsum (switch_apply g w w' t) (clsW cls f) = wsum g (clsW cls f) := by
  rw [switch_apply_wsum g hI.simple w w' t ok]
  unfold clsW
  rw [hc]
  ring

theorem resSum_switch (cls : Nat → Option Nat) (g : FastGraph) (hI : Inv cls g)
    (w w' t : Nat) (ok : SwitchOk g w w' t) (hc : cls w' = cls w) (d : Nat) :
    resSum cls (switch_apply g w w' t) d = resSum cls g d := by
  rw [resSum_shift cls g (switch_apply g w w' t) rfl
    (fun x => (if w = x then 1 else 0) - (if w' = x then 1 else 0))
    (fun x => by rw [switch_apply_res g w w' t hI.res_sized ok.hw ok.hw' ok.hww' x]; ring) d]
  have e : ∀ x ∈ Finset.range g.total_nodes,
      (if cls x = some d then ((if w = x then (1 : Int) else 0) - (if w' = x then 1 else 0))
        else 0) =
      (if w = x then (if cls x = some d then (1 : Int) else 0) else 0)
        - (if w' = x then (if cls x = some d then (1 : Int) else 0) else 0) := by
    intro x _
    split_ifs <;> simp
  rw [Finset.sum_congr rfl e, Finset.sum_sub_distrib,
    sum_point_left _ w ok.hw (fun x => if cls x = some d then (1 : Int) else 0),
    sum_point_left _ w' ok.hw' (fun x => if cls x = some d then (1 : Int) else 0), hc]
  ring

/-- A switch for a vertex `w` never creates an edge at `w`. -/
theorem switch_apply_keeps (g : FastGraph) (hg : Simple g) (w w' t : Nat)
    (ok : SwitchOk g w w' t) (y : Nat) (hy : y < g.total_nodes)
    (h : fastgraph_has_edge g w y = 0) :
    fastgraph_has_edge (switch_apply g w w' t) w y = 0 := by
  rw [switch_apply_has_edge g hg w w' t ok w y ok.hw hy]
  have n1 : ¬ ((w = w' ∧ y = t) ∨ (w = t ∧ y = w')) := by
    rintro (⟨e, -⟩ | ⟨e, -⟩)
    · exact ok.hww' e
    · exact ok.htw e.symm
  rw [if_neg n1]
  split
  · rfl
  · exact h

/-- Layer shared by every call of `neighbor_switch` made by the realizer: the
invariant, the class-level edge counts and the class residual totals survive,
and no edge appears at `w`. -/
theorem neighbor_switch_inv (cls : Nat → Option Nat) (g : FastGraph) (hI : Inv cls g)
    (w : Nat) (hw : w < g.total_nodes) (nl : List Nat)
    (hnl : ∀ u ∈ nl, u < g.total_nodes ∧ cls u = cls w) (avoid : Option Nat) :
    Inv cls (neighbor_switch g w nl avoid) ∧
    (neighbor_switch g w nl avoid).total_nodes = g.total_nodes ∧
    (∀ f, wsum (neighbor_switch g w nl avoid) (clsW cls f) = wsum g (clsW cls f)) ∧
    (∀ d, resSum cls (neighbor_switch g w nl avoid) d = resSum cls g d) ∧
    (∀ y, y < g.total_nodes → fastgraph_has_edge g w y = 0 →
      fastgraph_has_edge (neighbor_switch g w nl avoid) w y = 0) := by
  rcases neighbor_switch_cases g w nl avoid with ⟨e, -⟩ | ⟨w', t, h1, h2, e⟩
  · rw [e]
    exact ⟨hI, rfl, fun _ => rfl, fun _ => rfl, fun _ _ h => h⟩
  · rw [e]
    have ok := switch_ok_of_found g w nl avoid hw (fun u hu => (hnl u hu).1) w' t h1 h2
    have hc : cls w' = cls w := (hnl w' (switch_w_prime_some g nl avoid w' h1).1).2
    exact ⟨inv_switch_apply cls g hI w w' t ok, rfl,
      fun f => clsW_switch cls g hI w w' t ok hc f,
      fun d => resSum_switch cls g hI w w' t ok hc d,
      fun y hy h => switch_apply_keeps g hI.simple w w' t ok y hy h⟩

/-- When the class of a saturated vertex `w` still holds an eligible vertex with
a free stub, `neighbor_switch` succeeds. -/
theorem neighbor_switch_succeeds (cls : Nat → Option Nat) (g : FastGraph) (hI : Inv cls g)
    (w : Nat) (hw : w < g.total_nodes) (nl : List Nat)
    (hnl : ∀ u ∈ nl, u < g.total_nodes ∧ cls u = cls w) (avoid : Option Nat)
    (d : Nat) (hd : cls w = some d) (hres : res g w = 0)
    (c : Nat) (hc : c ∈ nl) (hpos : 0 < res g c)
    (hav : ∀ a, avoid = some a → res g a ≤ 1 → c ≠ a) :
    ∃ w' t, SwitchOk g w w' t ∧ w' ∈ nl ∧ 0 < res g w' ∧
      (∀ a, avoid = some a → res g a ≤ 1 → w' ≠ a) ∧
      neighbor_switch g w nl avoid = switch_apply g w w' t := by
  cases h1 : switch_w_prime g nl avoid with
  | none => exact absurd (switch_w_prime_none_any g nl avoid h1 c hc hpos hav) id
  | some w' =>
    obtain ⟨a1, a2, a3⟩ := switch_w_prime_some g nl avoid w' h1
    have hw' := (hnl w' a1).1
    have hcw' : cls w' = some d := by rw [(hnl w' a1).2, hd]
    have t1 := hI.target w hw d hd
    have t2 := hI.target w' hw' d hcw'
    obtain ⟨t, h2⟩ := switch_t_exists g hI.simple w w' hw hw' (by omega)
    refine ⟨w', t, switch_ok_of_found g w nl avoid hw (fun u hu => (hnl u hu).1) w' t h1 h2,
      a1, a2, a3, ?_⟩
    unfold neighbor_switch
    simp [h1, h2]

/-! ### The edge insertion -/

theorem commit_edge_total (v w : Nat) (b : Build) :
    (commit_edge v w b).g.total_nodes = b.g.total_nodes := rfl

theorem commit_edge_res (v w : Nat) (b : Build) (h : ResSized b.g)
    (hv : v < b.g.total_nodes) (hw : w < b.g.total_nodes) (hne : v ≠ w) (x : Nat) :
    res (commit_edge v w b).g x =
      res b.g x - (if v = x then 1 else 0) - (if w = x then 1 else 0) := by
  unfold ResSized at h
  unfold res commit_edge
  simp only [add_edge_residual]
  have l1 : v < b.g.node_residual.length := by omega
  have l2 : w < (b.g.node_residual.set v (b.g.node_residual.getD v 0 - 1)).length := by
    rw [List.length_set]; omega
  rw [getD_set_eq _ _ _ _ _ l2, getD_set_eq _ _ _ _ _ l1, getD_set_eq _ _ _ _ _ l1]
  by_cases h1 : w = x
  · subst h1
    simp [hne]
  · by_cases h2 : v = x
    · subst h2
      simp [h1]
    · simp [h1, h2]

theorem commit_edge_wsum (v w : Nat) (b : Build) (hg : Simple b.g)
    (hv : v < b.g.total_nodes) (hw : w < b.g.total_nodes) (hne : v ≠ w)
    (hno : fastgraph_has_edge b.g v w = 0) (F : Nat → Nat → Int) :
    wsum (commit_edge v w b).g F = wsum b.g F + F v w + F w v := by
  rw [wsum_congr_adj (fastgraph_add_edge b.g v w) (commit_edge v w b).g rfl rfl,
    wsum_add b.g hg hv hw hne hno]

theorem commit_edge_deg (v w : Nat) (b : Build) (hg : Simple b.g)
    (hv : v < b.g.total_nodes) (hw : w < b.g.total_nodes) (hne : v ≠ w)
    (hno : fastgraph_has_edge b.g v w = 0) (x : Nat) (hx : x < b.g.total_nodes) :
    deg (commit_edge v w b).g x =
      deg b.g x + (if v = x then 1 else 0) + (if w = x then 1 else 0) := by
  rw [deg_congr_adj (fastgraph_add_edge b.g v w) (commit_edge v w b).g rfl rfl,
    deg_add b.g hg hv hw hne hno x hx]

theorem commit_edge_inv (cls : Nat → Option Nat) (v w : Nat) (b : Build) (hI : Inv cls b.g)
    (hv : v < b.g.total_nodes) (hw : w < b.g.total_nodes) (hne : v ≠ w)
    (hno : fastgraph_has_edge b.g v w = 0) : Inv cls (commit_edge v w b).g := by
  refine ⟨?_, ?_, ?_⟩
  · exact simple_congr_adj (fastgraph_add_edge b.g v w) (commit_edge v w b).g rfl rfl
      (add_edge_simple b.g hI.simple hv hw hne)
  · have := hI.res_sized
    unfold ResSized commit_edge at *
    simp [this]
  · intro x hx d hd
    have hx' : x < b.g.total_nodes := hx
    rw [commit_edge_deg v w b hI.simple hv hw hne hno x hx',
      commit_edge_res v w b hI.res_sized hv hw hne x]
    have := hI.target x hx' d hd
    omega

theorem commit_edge_resSum (cls : Nat → Option Nat) (v w : Nat) (b : Build)
    (hI : Inv cls b.g) (hv : v < b.g.total_nodes) (hw : w < b.g.total_nodes)
    (hne : v ≠ w) (d : Nat) :
    resSum cls (commit_edge v w b).g d =
      resSum cls b.g d - (if cls v = some d then 1 else 0)
        - (if cls w = some d then 1 else 0) := by
  rw [resSum_shift cls b.g (commit_edge v w b).g rfl
    (fun x => - (if v = x then 1 else 0) - (if w = x then 1 else 0))
    (fun x => by rw [commit_edge_res v w b hI.res_sized hv hw hne x]; ring) d]
  have e : ∀ x ∈ Finset.range b.g.total_nodes,
      (if cls x = some d then (- (if v = x then (1 : Int) else 0) - (if w = x then 1 else 0))
        else 0) =
      - (if v = x then (if cls x = some d then (1 : Int) else 0) else 0)
        - (if w = x then (if cls x = some d then (1 : Int) else 0) else 0) := by
    intro x _
    split_ifs <;> simp
  rw [Finset.sum_congr rfl e, Finset.sum_sub_distrib, Finset.sum_neg_distrib,
    sum_point_left _ v hv (fun x => if cls x = some d then (1 : Int) else 0),
    sum_point_left _ w hw (fun x => if cls x = some d then (1 : Int) else 0)]
  ring

/-! ## One accepted draw of the placement loop -/

theorem repair_v_g (k_nodes : List Nat) (v : Nat) (b : Build) :
    (repair_v k_nodes v b).g =
      if res b.g v = 0 then neighbor_switch b.g v k_nodes none else b.g := by
  unfold repair_v res
  split <;> rfl

theorem repair_w_g (k l : Nat) (k_nodes l_nodes : List Nat) (v w : Nat) (b : Build) :
    (repair_w k l k_nodes l_nodes v w b).g =
      if res b.g w = 0 then
        (if k ≠ l then neighbor_switch b.g w l_nodes none
         else neighbor_switch b.g w k_nodes (some v))
      else b.g := by
  unfold repair_w res
  split <;> rfl

theorem kept_refl (cls : Nat → Option Nat) (g : FastGraph) (hI : Inv cls g) (w y : Nat)
    (hno : fastgraph_has_edge g w y = 0) : Kept cls g g w y :=
  ⟨hI, rfl, fun _ => rfl, fun _ => rfl, hno⟩

theorem kept_switch (cls : Nat → Option Nat) (g : FastGraph) (hI : Inv cls g)
    (w : Nat) (hw : w < g.total_nodes) (nl : List Nat)
    (hnl : ∀ u ∈ nl, u < g.total_nodes ∧ cls u = cls w) (avoid : Option Nat)
    (y : Nat) (hy : y < g.total_nodes) (hno : fastgraph_has_edge g w y = 0) :
    Kept cls g (neighbor_switch g w nl avoid) w y := by
  obtain ⟨a, b, c, d, e⟩ := neighbor_switch_inv cls g hI w hw nl hnl avoid
  exact ⟨a, b, c, d, e y hy hno⟩

theorem repair_v_kept (cls : Nat → Option Nat) (k : Nat) (k_nodes : List Nat) (v w : Nat)
    (b : Build) (hI : Inv cls b.g) (hk : ClassList cls b.g.total_nodes k k_nodes)
    (hv : v ∈ k_nodes) (hw : w < b.g.total_nodes)
    (hno : fastgraph_has_edge b.g v w = 0) :
    Kept cls b.g (repair_v k_nodes v b).g v w := by
  have hv' := (hk v).1 hv
  rw [repair_v_g]
  split
  · exact kept_switch cls b.g hI v hv'.1 k_nodes
      (fun u hu => ⟨((hk u).1 hu).1, by rw [((hk u).1 hu).2, hv'.2]⟩) none w hw hno
  · exact kept_refl cls b.g hI v w hno

theorem repair_w_kept (cls : Nat → Option Nat) (k l : Nat) (k_nodes l_nodes : List Nat)
    (v w : Nat) (b : Build) (hI : Inv cls b.g)
    (hk : ClassList cls b.g.total_nodes k k_nodes)
    (hl : ClassList cls b.g.total_nodes l l_nodes)
    (hv : v < b.g.total_nodes) (hw : w ∈ l_nodes)
    (hno : fastgraph_has_edge b.g w v = 0) :
    Kept cls b.g (repair_w k l k_nodes l_nodes v w b).g w v := by
  have hw' := (hl w).1 hw
  rw [repair_w_g]
  split
  · split
    · exact kept_switch cls b.g hI w hw'.1 l_nodes
        (fun u hu => ⟨((hl u).1 hu).1, by rw [((hl u).1 hu).2, hw'.2]⟩) none v hv hno
    · rename_i hkl
      have hkl' : k = l := by
        by_contra h; exact hkl h
      exact kept_switch cls b.g hI w hw'.1 k_nodes
        (fun u hu => ⟨((hk u).1 hu).1, by rw [((hk u).1 hu).2, hw'.2, hkl']⟩) (some v) v hv hno
  · exact kept_refl cls b.g hI w v hno

/-- One accepted draw keeps the invariant, adds one edge between the classes
`k` and `l`, and takes one stub from each. -/
theorem place_edge_inv (cls : Nat → Option Nat) (k l : Nat) (k_nodes l_nodes : List Nat)
    (v w : Nat) (b : Build) (hI : Inv cls b.g)
    (hk : ClassList cls b.g.total_nodes k k_nodes)
    (hl : ClassList cls b.g.total_nodes l l_nodes)
    (hv : v ∈ k_nodes) (hw : w ∈ l_nodes) (hne : v ≠ w)
    (hno : fastgraph_has_edge b.g v w = 0) :
    Inv cls (place_edge k l k_nodes l_nodes v w b).g ∧
    (place_edge k l k_nodes l_nodes v w b).g.total_nodes = b.g.total_nodes ∧
    (∀ f, wsum (place_edge k l k_nodes l_nodes v w b).g (clsW cls f) =
      wsum b.g (clsW cls f) + f (some k) (some l) + f (some l) (some k)) ∧
    (∀ d, resSum cls (place_edge k l k_nodes l_nodes v w b).g d =
      resSum cls b.g d - (if k = d then 1 else 0) - (if l = d then 1 else 0)) := by
  have hv' := (hk v).1 hv
  have hw' := (hl w).1 hw
  have K1 := repair_v_kept cls k k_nodes v w b hI hk hv hw'.1 hno
  have hno1 : fastgraph_has_edge (repair_v k_nodes v b).g w v = 0 := by
    rw [K1.inv.simple.symm w v (by rw [K1.total]; exact hw'.1) (by rw [K1.total]; exact hv'.1)]
    exact K1.no_edge
  have K2 := repair_w_kept cls k l k_nodes l_nodes v w (repair_v k_nodes v b) K1.inv
    (by rw [K1.total]; exact hk) (by rw [K1.total]; exact hl)
    (by rw [K1.total]; exact hv'.1) hw hno1
  have tot2 : (repair_w k l k_nodes l_nodes v w (repair_v k_nodes v b)).g.total_nodes
      = b.g.total_nodes := by rw [K2.total, K1.total]
  have hno2 : fastgraph_has_edge (repair_w k l k_nodes l_nodes v w (repair_v k_nodes v b)).g
      v w = 0 := by
    rw [K2.inv.simple.symm v w (by rw [tot2]; exact hv'.1) (by rw [tot2]; exact hw'.1)]
    exact K2.no_edge
  have hvb : v < (repair_w k l k_nodes l_nodes v w (repair_v k_nodes v b)).g.total_nodes := by
    rw [tot2]; exact hv'.1
  have hwb : w < (repair_w k l k_nodes l_nodes v w (repair_v k_nodes v b)).g.total_nodes := by
    rw [tot2]; exact hw'.1
  unfold place_edge
  refine ⟨commit_edge_inv cls v w _ K2.inv hvb hwb hne hno2, ?_, ?_, ?_⟩
  · rw [commit_edge_total, tot2]
  · intro f
    rw [commit_edge_wsum v w _ K2.inv.simple hvb hwb hne hno2, K2.wsum_eq, K1.wsum_eq]
    unfold clsW
    rw [hv'.2, hw'.2]
  · intro d
    rw [commit_edge_resSum cls v w _ K2.inv hvb hwb hne, K2.resSum_eq, K1.resSum_eq,
      hv'.2, hw'.2]
    simp only [Option.some.injEq]

/-! ### No residual turns negative while the classes have stubs left -/

theorem exists_pos_of_resSum (cls : Nat → Option Nat) (g : FastGraph) (k : Nat)
    (h : 1 ≤ resSum cls g k) : ∃ c, c < g.total_nodes ∧ cls c = some k ∧ 0 < res g c := by
  by_contra hcon
  have : resSum cls g k ≤ 0 := by
    unfold resSum
    apply Finset.sum_nonpos
    intro x hx
    split
    · rename_i hc
      by_contra hpos
      exact hcon ⟨x, Finset.mem_range.1 hx, hc, by omega⟩
    · exact le_refl 0
  omega

theorem exists_pos_ne_of_resSum (cls : Nat → Option Nat) (g : FastGraph) (k v : Nat)
    (h : 2 ≤ resSum cls g k) (hv : res g v ≤ 1) :
    ∃ c, c < g.total_nodes ∧ cls c = some k ∧ 0 < res g c ∧ c ≠ v := by
  by_contra hcon
  have h1 : resSum cls g k ≤ ∑ x ∈ Finset.range g.total_nodes, if x = v then (1 : Int) else 0 := by
    unfold resSum
    apply Finset.sum_le_sum
    intro x hx
    by_cases hc : cls x = some k
    · rw [if_pos hc]
      by_cases hxv : x = v
      · rw [if_pos hxv, hxv]; exact hv
      · rw [if_neg hxv]
        by_contra hpos
        exact hcon ⟨x, Finset.mem_range.1 hx, hc, by omega, hxv⟩
    · rw [if_neg hc]
      split <;> simp
  have h2 : (∑ x ∈ Finset.range g.total_nodes, if x = v then (1 : Int) else 0) ≤ 1 := by
    rw [Finset.sum_ite_eq' (Finset.range g.total_nodes) v (fun _ => (1 : Int))]
    split <;> simp
  omega

theorem resNonneg_switch (g : FastGraph) (hr : ResSized g) (hnn : ResNonneg g)
    (w w' t : Nat) (ok : SwitchOk g w w' t) (hpos : 0 < res g w') :
    ResNonneg (switch_apply g w w' t) := by
  intro x hx
  rw [switch_apply_res g w w' t hr ok.hw ok.hw' ok.hww' x]
  have := hnn x hx
  by_cases h1 : w' = x
  · subst h1
    split_ifs <;> omega
  · split_ifs <;> omega

/-- While the two classes still hold the stubs the edge needs, an accepted draw
leaves every residual non-negative: both repairs succeed. -/
theorem place_edge_nonneg (cls : Nat → Option Nat) (k l : Nat) (k_nodes l_nodes : List Nat)
    (v w : Nat) (b : Build) (hI : Inv cls b.g)
    (hk : ClassList cls b.g.total_nodes k k_nodes)
    (hl : ClassList cls b.g.total_nodes l l_nodes)
    (hv : v ∈ k_nodes) (hw : w ∈ l_nodes) (hne : v ≠ w)
    (hno : fastgraph_has_edge b.g v w = 0)
    (hnn : ResNonneg b.g) (hk1 : 1 ≤ resSum cls b.g k) (hl1 : 1 ≤ resSum cls b.g l)
    (hkl : k = l → 2 ≤ resSum cls b.g k) :
    ResNonneg (place_edge k l k_nodes l_nodes v w b).g := by
  have hv' := (hk v).1 hv
  have hw' := (hl w).1 hw
  have K1 := repair_v_kept cls k k_nodes v w b hI hk hv hw'.1 hno
  have hno1 : fastgraph_has_edge (repair_v k_nodes v b).g w v = 0 := by
    rw [K1.inv.simple.symm w v (by rw [K1.total]; exact hw'.1) (by rw [K1.total]; exact hv'.1)]
    exact K1.no_edge
  have K2 := repair_w_kept cls k l k_nodes l_nodes v w (repair_v k_nodes v b) K1.inv
    (by rw [K1.total]; exact hk) (by rw [K1.total]; exact hl)
    (by rw [K1.total]; exact hv'.1) hw hno1
  -- first repair
  have P1 : ResNonneg (repair_v k_nodes v b).g ∧ 1 ≤ res (repair_v k_nodes v b).g v := by
    rw [repair_v_g]
    by_cases h0 : res b.g v = 0
    · rw [if_pos h0]
      obtain ⟨c, hc1, hc2, hc3⟩ := exists_pos_of_resSum cls b.g k hk1
      obtain ⟨w', t, ok, -, hp, -, e⟩ := neighbor_switch_succeeds cls b.g hI v hv'.1 k_nodes
        (fun u hu => ⟨((hk u).1 hu).1, by rw [((hk u).1 hu).2, hv'.2]⟩) none k hv'.2 h0
        c ((hk c).2 ⟨hc1, hc2⟩) hc3 (fun a ha => by cases ha)
      rw [e]
      refine ⟨resNonneg_switch b.g hI.res_sized hnn v w' t ok hp, ?_⟩
      rw [switch_apply_res b.g v w' t hI.res_sized ok.hw ok.hw' ok.hww' v, h0]
      simp [Ne.symm ok.hww']
    · rw [if_neg h0]
      have := hnn v hv'.1
      exact ⟨hnn, by omega⟩
  -- second repair
  have hI1 := K1.inv
  have hv1 : v < (repair_v k_nodes v b).g.total_nodes := by rw [K1.total]; exact hv'.1
  have hw1 : w < (repair_v k_nodes v b).g.total_nodes := by rw [K1.total]; exact hw'.1
  have hk' : ClassList cls (repair_v k_nodes v b).g.total_nodes k k_nodes := by
    rw [K1.total]; exact hk
  have hl' : ClassList cls (repair_v k_nodes v b).g.total_nodes l l_nodes := by
    rw [K1.total]; exact hl
  have P2 : ResNonneg (repair_w k l k_nodes l_nodes v w (repair_v k_nodes v b)).g ∧
      1 ≤ res (repair_w k l k_nodes l_nodes v w (repair_v k_nodes v b)).g v ∧
      1 ≤ res (repair_w k l k_nodes l_nodes v w (repair_v k_nodes v b)).g w := by
    rw [repair_w_g]
    by_cases h0 : res (repair_v k_nodes v b).g w = 0
    · rw [if_pos h0]
      by_cases hkl0 : k = l
      · rw [if_neg (by simpa using hkl0)]
        have hsum : 2 ≤ resSum cls (repair_v k_nodes v b).g k := by
          rw [K1.resSum_eq]; exact hkl hkl0
        have hcand : ∃ c, c ∈ k_nodes ∧ 0 < res (repair_v k_nodes v b).g c ∧
            (res (repair_v k_nodes v b).g v ≤ 1 → c ≠ v) := by
          by_cases hle : res (repair_v k_nodes v b).g v ≤ 1
          · obtain ⟨c, c1, c2, c3, c4⟩ :=
              exists_pos_ne_of_resSum cls (repair_v k_nodes v b).g k v hsum hle
            exact ⟨c, (hk' c).2 ⟨c1, c2⟩, c3, fun _ => c4⟩
          · exact ⟨v, hv, by omega, fun h => absurd h hle⟩
        obtain ⟨c, c1, c2, c3⟩ := hcand
        obtain ⟨w', t, ok, -, hp, hav, e⟩ := neighbor_switch_succeeds cls
          (repair_v k_nodes v b).g hI1 w hw1 k_nodes
          (fun u hu => ⟨((hk' u).1 hu).1, by rw [((hk' u).1 hu).2, hw'.2, hkl0]⟩)
          (some v) l hw'.2 h0 c c1 c2 (fun a ha hle => by cases ha; exact c3 hle)
        rw [e]
        refine ⟨resNonneg_switch _ hI1.res_sized P1.1 w w' t ok hp, ?_, ?_⟩
        · rw [switch_apply_res _ w w' t hI1.res_sized ok.hw ok.hw' ok.hww' v]
          have := P1.2
          rw [if_neg (Ne.symm hne)]
          by_cases hwv : w' = v
          · rw [if_pos hwv]
            have : ¬ res (repair_v k_nodes v b).g v ≤ 1 := fun hle => hav v rfl hle hwv
            omega
          · rw [if_neg hwv]; omega
        · rw [switch_apply_res _ w w' t hI1.res_sized ok.hw ok.hw' ok.hww' w, h0]
          simp [Ne.symm ok.hww']
      · rw [if_pos (by simpa using hkl0)]
        have hsum : 1 ≤ resSum cls (repair_v k_nodes v b).g l := by
          rw [K1.resSum_eq]; exact hl1
        obtain ⟨c, hc1, hc2, hc3⟩ := exists_pos_of_resSum cls _ l hsum
        obtain ⟨w', t, ok, hmem, hp, -, e⟩ := neighbor_switch_succeeds cls
          (repair_v k_nodes v b).g hI1 w hw1 l_nodes
          (fun u hu => ⟨((hl' u).1 hu).1, by rw [((hl' u).1 hu).2, hw'.2]⟩)
          none l hw'.2 h0 c ((hl' c).2 ⟨hc1, hc2⟩) hc3 (fun a ha => by cases ha)
        rw [e]
        have hwv : w' ≠ v := by
          intro e'
          have c1 := ((hl' w').1 hmem).2
          rw [e', hv'.2] at c1
          exact hkl0 (Option.some.inj c1)
        refine ⟨resNonneg_switch _ hI1.res_sized P1.1 w w' t ok hp, ?_, ?_⟩
        · rw [switch_apply_res _ w w' t hI1.res_sized ok.hw ok.hw' ok.hww' v,
            if_neg (Ne.symm hne), if_neg hwv]
          have := P1.2
          omega
        · rw [switch_apply_res _ w w' t hI1.res_sized ok.hw ok.hw' ok.hww' w, h0]
          simp [Ne.symm ok.hww']
    · rw [if_neg h0]
      have := P1.1 w hw1
      exact ⟨P1.1, P1.2, by omega⟩
  -- the insertion
  have tot2 : (repair_w k l k_nodes l_nodes v w (repair_v k_nodes v b)).g.total_nodes
      = b.g.total_nodes := by rw [K2.total, K1.total]
  intro x hx
  unfold place_edge at hx ⊢
  rw [commit_edge_total] at hx
  rw [commit_edge_res v w _ K2.inv.res_sized (by rw [tot2]; exact hv'.1)
    (by rw [tot2]; exact hw'.1) hne x]
  have := P2.1 x hx
  obtain ⟨-, p2, p3⟩ := P2
  by_cases h1 : v = x
  · subst h1
    rw [if_pos rfl, if_neg (Ne.symm hne)]
    omega
  · by_cases h2 : w = x
    · subst h2
      rw [if_neg h1, if_pos rfl]
      omega
    · rw [if_neg h1, if_neg h2]
      omega

/-! ## The placement loops -/

theorem cellV_nonneg (k l m d : Nat) : 0 ≤ cellV k l m d := by
  unfold cellV
  apply mul_nonneg (Int.ofNat_nonneg m)
  split_ifs <;> simp

theorem rowV_nonneg (k : Nat) (cells : List (Nat × Nat)) (d : Nat) : 0 ≤ rowV k cells d := by
  induction cells with
  | nil => simp [rowV]
  | cons c rest ih =>
    obtain ⟨l, v⟩ := c
    simp only [rowV]
    have := cellV_nonneg k l (cell_edges k l v) d
    omega

theorem tableV_nonneg (rows : List (Nat × Row)) (d : Nat) : 0 ≤ tableV rows d := by
  induction rows with
  | nil => simp [tableV]
  | cons c rest ih =>
    obtain ⟨k, inner⟩ := c
    simp only [tableV]
    have := rowV_nonneg k inner d
    omega

theorem step_refl (cls : Nat → Option Nat) (b : Build) (hI : Inv cls b.g) :
    Step cls (fun _ => 0) (fun _ => 0) b b :=
  ⟨hI, rfl, fun _ => by simp, fun _ => by simp, fun h _ => h⟩

theorem step_congr (cls : Nat → Option Nat) (V V' : Nat → Int)
    (W W' : (Option Nat → Option Nat → Int) → Int) (b b' : Build)
    (hV : ∀ d, V d = V' d) (hW : ∀ f, W f = W' f) (h : Step cls V W b b') :
    Step cls V' W' b b' :=
  ⟨h.inv, h.total, fun f => by rw [h.wsum_eq, hW], fun d => by rw [h.resSum_eq, hV],
    fun a c => h.nonneg a (fun d => by rw [hV]; exact c d)⟩

theorem runOk_congr (cls : Nat → Option Nat) (V V' : Nat → Int)
    (W W' : (Option Nat → Option Nat → Int) → Int) (b : Build) (r : Run Build)
    (hV : ∀ d, V d = V' d) (hW : ∀ f, W f = W' f) (h : RunOk cls V W b r) :
    RunOk cls V' W' b r := by
  cases r with
  | done b' rest => exact step_congr cls V V' W W' b b' hV hW h
  | starved b' =>
    exact ⟨h.inv, h.total, fun a c => h.nonneg a (fun d => by rw [hV]; exact c d)⟩
  | fault => trivial

theorem runOk_trans (cls : Nat → Option Nat) (V1 V2 : Nat → Int)
    (W1 W2 : (Option Nat → Option Nat → Int) → Int) (b b1 : Build) (r : Run Build)
    (h1 : Step cls V1 W1 b b1) (_hV1 : ∀ d, 0 ≤ V1 d) (hV2 : ∀ d, 0 ≤ V2 d)
    (h2 : RunOk cls V2 W2 b1 r) :
    RunOk cls (fun d => V1 d + V2 d) (fun f => W1 f + W2 f) b r := by
  have key : ResNonneg b.g → (∀ d, V1 d + V2 d ≤ resSum cls b.g d) →
      ResNonneg b1.g ∧ ∀ d, V2 d ≤ resSum cls b1.g d := by
    intro a c
    refine ⟨h1.nonneg a (fun d => by have := c d; have := hV2 d; omega), fun d => ?_⟩
    rw [h1.resSum_eq]
    have := c d
    omega
  cases r with
  | done b' rest =>
    exact ⟨h2.inv, by rw [h2.total, h1.total],
      fun f => by rw [h2.wsum_eq, h1.wsum_eq]; ring,
      fun d => by rw [h2.resSum_eq, h1.resSum_eq]; ring,
      fun a c => h2.nonneg (key a c).1 (key a c).2⟩
  | starved b' =>
    exact ⟨h2.inv, by rw [h2.total, h1.total],
      fun a c => h2.nonneg (key a c).1 (key a c).2⟩
  | fault => trivial

theorem getD_mod_mem (nl : List Nat) (r : Nat) (h : ¬ nl.length = 0) :
    nl.getD (r % nl.length) 0 ∈ nl := by
  have hlt : r % nl.length < nl.length := Nat.mod_lt _ (by omega)
  rw [List.getD_eq_getElem _ _ hlt]
  exact List.getElem_mem _

theorem place_edge_step (cls : Nat → Option Nat) (k l : Nat) (k_nodes l_nodes : List Nat)
    (v w : Nat) (b : Build) (hI : Inv cls b.g)
    (hk : ClassList cls b.g.total_nodes k k_nodes)
    (hl : ClassList cls b.g.total_nodes l l_nodes)
    (hv : v ∈ k_nodes) (hw : w ∈ l_nodes) (hne : v ≠ w)
    (hno : fastgraph_has_edge b.g v w = 0) :
    Step cls (cellV k l 1) (cellW k l 1) b (place_edge k l k_nodes l_nodes v w b) := by
  obtain ⟨a1, a2, a3, a4⟩ := place_edge_inv cls k l k_nodes l_nodes v w b hI hk hl hv hw hne hno
  refine ⟨a1, a2, fun f => ?_, fun d => ?_, fun hnn hV => ?_⟩
  · rw [a3]; unfold cellW; push_cast; ring
  · rw [a4]; unfold cellV; push_cast; ring
  · apply place_edge_nonneg cls k l k_nodes l_nodes v w b hI hk hl hv hw hne hno hnn
    · have := hV k
      unfold cellV at this
      simp only [if_true] at this
      split_ifs at this <;> omega
    · have := hV l
      unfold cellV at this
      simp only [if_true] at this
      split_ifs at this <;> omega
    · intro e
      have := hV k
      unfold cellV at this
      rw [e] at this
      simp only [if_true] at this
      rw [e]
      omega

theorem cellV_succ (k l m d : Nat) : cellV k l 1 d + cellV k l m d = cellV k l (m + 1) d := by
  unfold cellV; push_cast; ring

theorem cellW_succ (k l m : Nat) (f : Option Nat → Option Nat → Int) :
    cellW k l 1 f + cellW k l m f = cellW k l (m + 1) f := by
  unfold cellW; push_cast; ring

theorem edge_loop_ok_aux (cls : Nat → Option Nat) (n k l : Nat) (k_nodes l_nodes : List Nat)
    (hk : ClassList cls n k k_nodes) (hl : ClassList cls n l l_nodes) :
    ∀ (N : Nat) (rs : List Nat), rs.length ≤ N → ∀ (m : Nat) (b : Build),
      Inv cls b.g → b.g.total_nodes = n →
      RunOk cls (cellV k l m) (cellW k l m) b (edge_loop k l k_nodes l_nodes rs m b) := by
  intro N
  induction N with
  | zero =>
    intro rs hlen m b hI hn
    have : rs = [] := List.eq_nil_of_length_eq_zero (by omega)
    subst this
    cases m with
    | zero =>
      simp only [edge_loop]
      exact step_congr cls _ _ _ _ b b (fun d => by simp [cellV]) (fun f => by simp [cellW])
        (step_refl cls b hI)
    | succ m' =>
      simp only [edge_loop]
      exact ⟨hI, rfl, fun a _ => a⟩
  | succ N ih =>
    intro rs hlen m b hI hn
    cases m with
    | zero =>
      simp only [edge_loop]
      exact step_congr cls _ _ _ _ b b (fun d => by simp [cellV]) (fun f => by simp [cellW])
        (step_refl cls b hI)
    | succ m' =>
      rcases rs with _ | ⟨r1, _ | ⟨r2, rest⟩⟩
      · simp only [edge_loop]
        exact ⟨hI, rfl, fun a _ => a⟩
      · simp only [edge_loop]
        exact ⟨hI, rfl, fun a _ => a⟩
      · have hlen' : rest.length ≤ N := by simp at hlen; omega
        simp only [edge_loop]
        by_cases hz : k_nodes.length = 0 ∨ l_nodes.length = 0
        · rw [if_pos hz]; trivial
        · rw [if_neg hz]
          have hz1 : ¬ k_nodes.length = 0 := fun h => hz (Or.inl h)
          have hz2 : ¬ l_nodes.length = 0 := fun h => hz (Or.inr h)
          have hv := getD_mod_mem k_nodes r1 hz1
          have hw := getD_mod_mem l_nodes r2 hz2
          by_cases hvw : k_nodes.getD (r1 % k_nodes.length) 0
              = l_nodes.getD (r2 % l_nodes.length) 0
          · rw [if_pos hvw]
            exact ih rest hlen' (m' + 1) b hI hn
          · rw [if_neg hvw]
            by_cases hadj : fastgraph_has_edge b.g (k_nodes.getD (r1 % k_nodes.length) 0)
                (l_nodes.getD (r2 % l_nodes.length) 0) = 0
            · rw [if_pos hadj]
              have st := place_edge_step cls k l k_nodes l_nodes _ _ b hI
                (by rw [hn]; exact hk) (by rw [hn]; exact hl) hv hw hvw hadj
              have nx := ih rest hlen' m' _ st.inv (by rw [st.total, hn])
              exact runOk_congr cls _ _ _ _ b _ (fun d => cellV_succ k l m' d)
                (fun f => cellW_succ k l m' f)
                (runOk_trans cls _ _ _ _ b _ _ st (fun d => cellV_nonneg k l 1 d)
                  (fun d => cellV_nonneg k l m' d) nx)
            · rw [if_neg hadj]
              exact ih rest hlen' (m' + 1) b hI hn

/-- The loop `while (n_edges_add > 0)` from a state satisfying the invariant. -/
theorem edge_loop_ok (cls : Nat → Option Nat) (n k l : Nat) (k_nodes l_nodes : List Nat)
    (hk : ClassList cls n k k_nodes) (hl : ClassList cls n l l_nodes)
    (rs : List Nat) (m : Nat) (b : Build) (hI : Inv cls b.g) (hn : b.g.total_nodes = n) :
    RunOk cls (cellV k l m) (cellW k l m) b (edge_loop k l k_nodes l_nodes rs m b) :=
  edge_loop_ok_aux cls n k l k_nodes l_nodes hk hl rs.length rs (le_refl _) m b hI hn

theorem cell_edges_pos (k l v : Nat) (h : ¬ (v > 0 ∧ k ≥ l)) : cell_edges k l v = 0 := by
  unfold cell_edges; rw [if_neg h]

theorem place_cell_ok (cls : Nat → Option Nat) (n : Nat) (h : Table (List Nat))
    (hL : Lists cls n h) (k l v : Nat)
    (hex : 0 < cell_edges k l v → (ht_lookup h k).isSome ∧ (ht_lookup h l).isSome)
    (b : Build) (rs : List Nat) (hI : Inv cls b.g) (hn : b.g.total_nodes = n) :
    RunOk cls (cellV k l (cell_edges k l v)) (cellW k l (cell_edges k l v)) b
      (place_cell h k l v b rs) := by
  have triv : cell_edges k l v = 0 →
      RunOk cls (cellV k l (cell_edges k l v)) (cellW k l (cell_edges k l v)) b (.done b rs) := by
    intro e
    rw [e]
    exact step_congr cls _ _ _ _ b b (fun d => by simp [cellV]) (fun f => by simp [cellW])
      (step_refl cls b hI)
  unfold place_cell
  by_cases hc : v > 0 ∧ k ≥ l
  · rw [if_pos hc]
    have he : cell_edges k l v = if k = l then v / 2 else v := by
      unfold cell_edges; rw [if_pos hc]
    cases h1 : ht_lookup h k with
    | none =>
      simp only
      apply triv
      by_contra hpos
      have := (hex (by omega)).1
      rw [h1] at this; cases this
    | some k_nodes =>
      cases h2 : ht_lookup h l with
      | none =>
        simp only
        apply triv
        by_contra hpos
        have := (hex (by omega)).2
        rw [h2] at this; cases this
      | some l_nodes =>
        simp only
        rw [he]
        exact edge_loop_ok cls n k l k_nodes l_nodes (hL k k_nodes h1) (hL l l_nodes h2)
          rs _ b hI hn
  · rw [if_neg hc]
    exact triv (cell_edges_pos k l v hc)

theorem place_row_ok (cls : Nat → Option Nat) (n : Nat) (h : Table (List Nat))
    (hL : Lists cls n h) (k : Nat) :
    ∀ (cells : List (Nat × Nat)),
      (∀ c ∈ cells, 0 < cell_edges k c.1 c.2 →
        (ht_lookup h k).isSome ∧ (ht_lookup h c.1).isSome) →
      ∀ (b : Build) (rs : List Nat), Inv cls b.g → b.g.total_nodes = n →
        RunOk cls (rowV k cells) (rowW k cells) b (place_row h k cells b rs) := by
  intro cells
  induction cells with
  | nil =>
    intro _ b rs hI _
    simp only [place_row]
    exact step_congr cls _ _ _ _ b b (fun d => by simp [rowV]) (fun f => by simp [rowW])
      (step_refl cls b hI)
  | cons c rest ih =>
    obtain ⟨l, v⟩ := c
    intro hex b rs hI hn
    have h1 := place_cell_ok cls n h hL k l v (hex (l, v) (List.mem_cons_self _ _)) b rs hI hn
    simp only [place_row]
    cases hr : place_cell h k l v b rs with
    | done b1 rs1 =>
      rw [hr] at h1
      simp only
      have h2 := ih (fun c hc => hex c (List.mem_cons_of_mem _ hc)) b1 rs1 h1.inv
        (by rw [h1.total, hn])
      exact runOk_congr cls _ _ _ _ b _ (fun d => by simp [rowV]) (fun f => by simp [rowW])
        (runOk_trans cls _ _ _ _ b b1 _ h1 (fun d => cellV_nonneg _ _ _ d)
          (fun d => rowV_nonneg k rest d) h2)
    | starved b1 =>
      rw [hr] at h1
      simp only
      exact ⟨h1.inv, h1.total, fun a c => h1.nonneg a (fun d => by
        have := c d
        have := rowV_nonneg k rest d
        simp only [rowV] at *
        omega)⟩
    | fault => trivial

theorem place_rows_ok (cls : Nat → Option Nat) (n : Nat) (h : Table (List Nat))
    (hL : Lists cls n h) :
    ∀ (rows : List (Nat × Row)),
      (∀ r ∈ rows, ∀ c ∈ r.2, 0 < cell_edges r.1 c.1 c.2 →
        (ht_lookup h r.1).isSome ∧ (ht_lookup h c.1).isSome) →
      ∀ (b : Build) (rs : List Nat), Inv cls b.g → b.g.total_nodes = n →
        RunOk cls (tableV rows) (tableW rows) b (place_rows h rows b rs) := by
  intro rows
  induction rows with
  | nil =>
    intro _ b rs hI _
    simp only [place_rows]
    exact step_congr cls _ _ _ _ b b (fun d => by simp [tableV]) (fun f => by simp [tableW])
      (step_refl cls b hI)
  | cons r rest ih =>
    obtain ⟨k, inner⟩ := r
    intro hex b rs hI hn
    have h1 := place_row_ok cls n h hL k inner (hex (k, inner) (List.mem_cons_self _ _))
      b rs hI hn
    simp only [place_rows]
    cases hr : place_row h k inner b rs with
    | done b1 rs1 =>
      rw [hr] at h1
      simp only
      have h2 := ih (fun c hc => hex c (List.mem_cons_of_mem _ hc)) b1 rs1 h1.inv
        (by rw [h1.total, hn])
      exact runOk_congr cls _ _ _ _ b _ (fun d => by simp [tableV]) (fun f => by simp [tableW])
        (runOk_trans cls _ _ _ _ b b1 _ h1 (fun d => rowV_nonneg _ _ d)
          (fun d => tableV_nonneg rest d) h2)
    | starved b1 =>
      rw [hr] at h1
      simp only
      exact ⟨h1.inv, h1.total, fun a c => h1.nonneg a (fun d => by
        have := c d
        have := tableV_nonneg rest d
        simp only [tableV] at *
        omega)⟩
    | fault => trivial

/-! ## The degree partition and the initial state -/

theorem build_nk_eq (rows : List (Nat × Row)) (nk0 : Table Nat)
    (hnd : (rows.map Prod.fst).Nodup)
    (hdisj : ∀ k ∈ rows.map Prod.fst, k ∉ nk0.map Prod.fst) :
    build_nk rows nk0 = nk0 ++ sizes rows := by
  induction rows generalizing nk0 with
  | nil => simp [build_nk, sizes]
  | cons r rest ih =>
    obtain ⟨k, inner⟩ := r
    have h1 : k ∉ rest.map Prod.fst ∧ (rest.map Prod.fst).Nodup := by simpa using hnd
    have hk : k ∉ nk0.map Prod.fst := hdisj k (by simp)
    simp only [build_nk]
    have e : (if k ≠ 0 then row_total inner / k else row_total inner) = row_size k inner := rfl
    rw [e, ht_insert_keys_fresh nk0 k _ hk, ih _ h1.2]
    · simp [sizes]
    · intro k' hk' hmem
      simp only [List.map_append, List.map_cons, List.map_nil, List.mem_append,
        List.mem_singleton] at hmem
      rcases hmem with hmem | hmem
      · exact hdisj k' (by simp [hk']) hmem
      · subst hmem; exact h1.1 hk'

theorem build_nodelists_eq (nk : List (Nat × Nat)) (h0 : Table (List Nat)) (s : Nat)
    (hnd : (nk.map Prod.fst).Nodup)
    (hdisj : ∀ k ∈ nk.map Prod.fst, k ∉ h0.map Prod.fst) :
    build_nodelists nk h0 s = (h0 ++ blocks nk s, blocks_end nk s) := by
  induction nk generalizing h0 s with
  | nil => simp [build_nodelists, blocks, blocks_end]
  | cons r rest ih =>
    obtain ⟨d, c⟩ := r
    have h1 : d ∉ rest.map Prod.fst ∧ (rest.map Prod.fst).Nodup := by simpa using hnd
    have hk : d ∉ h0.map Prod.fst := hdisj d (by simp)
    simp only [build_nodelists, blocks, blocks_end]
    rw [ht_insert_keys_fresh h0 d _ hk, ih _ _ h1.2]
    · simp
    · intro k' hk' hmem
      simp only [List.map_append, List.map_cons, List.map_nil, List.mem_append,
        List.mem_singleton] at hmem
      rcases hmem with hmem | hmem
      · exact hdisj k' (by simp [hk']) hmem
      · subst hmem; exact h1.1 hk'

theorem sizes_keys (nkk : List (Nat × Row)) : (sizes nkk).map Prod.fst = nkk.map Prod.fst := by
  simp [sizes, List.map_map, Function.comp]

theorem degree_nodelist_eq (nkk : JDM) (hwf : Table.WF nkk) :
    degree_nodelist nkk = blocks (sizes nkk) 0 := by
  unfold degree_nodelist
  rw [build_nk_eq nkk [] hwf (by simp), List.nil_append,
    build_nodelists_eq (sizes nkk) [] 0 (by rw [sizes_keys]; exact hwf) (by simp)]
  simp

theorem node_total_eq (nkk : JDM) (hwf : Table.WF nkk) :
    node_total nkk = blocks_end (sizes nkk) 0 := by
  unfold node_total
  rw [build_nk_eq nkk [] hwf (by simp), List.nil_append,
    build_nodelists_eq (sizes nkk) [] 0 (by rw [sizes_keys]; exact hwf) (by simp)]

theorem blocks_end_ge (nk : List (Nat × Nat)) (s : Nat) : s ≤ blocks_end nk s := by
  induction nk generalizing s with
  | nil => simp [blocks_end]
  | cons r rest ih =>
    obtain ⟨d, c⟩ := r
    simp only [blocks_end]
    have := ih (s + c)
    omega

theorem class_of_cons (d : Nat) (ns : List Nat) (rest : Table (List Nat)) (u : Nat) :
    class_of ((d, ns) :: rest) u = if u ∈ ns then some d else class_of rest u := by
  unfold class_of
  by_cases h : u ∈ ns <;> simp [List.find?, h]

theorem class_of_blocks_some (nk : List (Nat × Nat)) (s u d : Nat)
    (h : class_of (blocks nk s) u = some d) :
    s ≤ u ∧ u < blocks_end nk s ∧ d ∈ nk.map Prod.fst := by
  induction nk generalizing s with
  | nil => simp [blocks, class_of] at h
  | cons r rest ih =>
    obtain ⟨d0, c⟩ := r
    simp only [blocks, class_of_cons] at h
    simp only [blocks_end]
    by_cases hu : u ∈ List.range' s c
    · rw [if_pos hu] at h
      have := List.mem_range'_1.1 hu
      have := blocks_end_ge rest (s + c)
      simp only [Option.some.injEq] at h
      subst h
      exact ⟨by omega, by omega, by simp⟩
    · rw [if_neg hu] at h
      obtain ⟨a1, a2, a3⟩ := ih (s + c) h
      exact ⟨by omega, a2, by simp [a3]⟩

theorem class_of_blocks_lt (nk : List (Nat × Nat)) (s u : Nat) (h : u < s) :
    class_of (blocks nk s) u = none := by
  cases hc : class_of (blocks nk s) u with
  | none => rfl
  | some d =>
    have := (class_of_blocks_some nk s u d hc).1
    omega

theorem class_of_blocks_exists (nk : List (Nat × Nat)) (s u : Nat)
    (h1 : s ≤ u) (h2 : u < blocks_end nk s) : ∃ d, class_of (blocks nk s) u = some d := by
  induction nk generalizing s with
  | nil => simp [blocks_end] at h2; omega
  | cons r rest ih =>
    obtain ⟨d0, c⟩ := r
    simp only [blocks, class_of_cons]
    simp only [blocks_end] at h2
    by_cases hu : u ∈ List.range' s c
    · exact ⟨d0, by rw [if_pos hu]⟩
    · rw [if_neg hu]
      have : ¬ (s ≤ u ∧ u < s + c) := fun hh => hu (List.mem_range'_1.2 hh)
      exact ih (s + c) (by omega) h2

/-- A vertex list found in the table of blocks is a block of consecutive ids
whose length is the size recorded for its degree. -/
theorem lookup_blocks (nk : List (Nat × Nat)) (s k : Nat) (nl : List Nat)
    (h : ht_lookup (blocks nk s) k = some nl) :
    ∃ s' c, nl = List.range' s' c ∧ ht_lookup nk k = some c := by
  induction nk generalizing s with
  | nil => simp [blocks, ht_lookup] at h
  | cons r rest ih =>
    obtain ⟨d0, c⟩ := r
    simp only [blocks, ht_lookup] at h ⊢
    by_cases hd : d0 = k
    · rw [if_pos hd] at h ⊢
      simp only [Option.some.injEq] at h
      exact ⟨s, c, h.symm, rfl⟩
    · rw [if_neg hd] at h ⊢
      exact ih (s + c) h

theorem lookup_blocks_isSome (nk : List (Nat × Nat)) (s k : Nat) :
    (ht_lookup (blocks nk s) k).isSome = (ht_lookup nk k).isSome := by
  induction nk generalizing s with
  | nil => simp [blocks, ht_lookup]
  | cons r rest ih =>
    obtain ⟨d0, c⟩ := r
    simp only [blocks, ht_lookup]
    by_cases hd : d0 = k
    · simp [hd]
    · simp [hd, ih]

theorem lists_blocks (nk : List (Nat × Nat)) (s : Nat) (hnd : (nk.map Prod.fst).Nodup)
    (k : Nat) (nl : List Nat) (h : ht_lookup (blocks nk s) k = some nl) (u : Nat) :
    u ∈ nl ↔ class_of (blocks nk s) u = some k := by
  induction nk generalizing s with
  | nil => simp [blocks, ht_lookup] at h
  | cons r rest ih =>
    obtain ⟨d0, c⟩ := r
    have h1 : d0 ∉ rest.map Prod.fst ∧ (rest.map Prod.fst).Nodup := by simpa using hnd
    simp only [blocks, ht_lookup] at h
    simp only [blocks, class_of_cons]
    by_cases hd : d0 = k
    · rw [if_pos hd] at h
      simp only [Option.some.injEq] at h
      subst h
      by_cases hu : u ∈ List.range' s c
      · simp [hu, hd]
      · rw [if_neg hu]
        constructor
        · intro hh; exact absurd hh hu
        · intro hh
          have := (class_of_blocks_some rest (s + c) u k hh).2.2
          exact absurd (hd ▸ this) h1.1
    · rw [if_neg hd] at h
      by_cases hu : u ∈ List.range' s c
      · rw [if_pos hu]
        have hlt : u < s + c := (List.mem_range'_1.1 hu).2
        have hn := class_of_blocks_lt rest (s + c) u hlt
        rw [ih (s + c) h1.2 h, hn]
        simp [hd]
      · rw [if_neg hu]
        exact ih (s + c) h1.2 h

theorem jdm_lists (nkk : JDM) (hwf : Table.WF nkk) :
    Lists (jdm_class nkk) (node_total nkk) (degree_nodelist nkk) := by
  intro k nl h u
  unfold jdm_class
  rw [degree_nodelist_eq nkk hwf] at h ⊢
  rw [node_total_eq nkk hwf]
  have hnd : ((sizes nkk).map Prod.fst).Nodup := by rw [sizes_keys]; exact hwf
  rw [lists_blocks (sizes nkk) 0 hnd k nl h u]
  constructor
  · intro hc
    exact ⟨(class_of_blocks_some _ 0 u k hc).2.1, hc⟩
  · intro hc; exact hc.2

theorem jdm_class_exists (nkk : JDM) (hwf : Table.WF nkk) (u : Nat)
    (hu : u < node_total nkk) : ∃ d, jdm_class nkk u = some d := by
  unfold jdm_class
  rw [degree_nodelist_eq nkk hwf]
  rw [node_total_eq nkk hwf] at hu
  exact class_of_blocks_exists _ 0 u (Nat.zero_le _) hu

/-! ### Initial residuals -/

theorem fill_getD (arr : List Nat) (x : Int) (r : List Int)
    (hlen : ∀ u ∈ arr, u < r.length) :
    (arr.foldl (fun r node => r.set node x) r).length = r.length ∧
    ∀ u, (arr.foldl (fun r node => r.set node x) r).getD u 0 =
      if u ∈ arr then x else r.getD u 0 := by
  induction arr generalizing r with
  | nil => simp
  | cons a rest ih =>
    simp only [List.foldl_cons]
    have hl : ∀ u ∈ rest, u < (r.set a x).length := by
      intro u hu
      rw [List.length_set]
      exact hlen u (List.mem_cons_of_mem _ hu)
    obtain ⟨i1, i2⟩ := ih (r.set a x) hl
    refine ⟨by rw [i1, List.length_set], fun u => ?_⟩
    rw [i2 u, getD_set_eq _ _ _ _ _ (hlen a (List.mem_cons_self _ _))]
    by_cases h1 : u ∈ rest
    · simp [h1]
    · by_cases h2 : a = u
      · simp [h2]
      · have : ¬ u = a := fun e => h2 e.symm
        simp [h1, h2, this]

theorem init_residual_blocks (nk : List (Nat × Nat)) (s : Nat) (r : List Int)
    (hlen : blocks_end nk s ≤ r.length) :
    (init_residual (blocks nk s) r).length = r.length ∧
    ∀ u, (init_residual (blocks nk s) r).getD u 0 =
      match class_of (blocks nk s) u with
      | some d => (d : Int)
      | none => r.getD u 0 := by
  induction nk generalizing s r with
  | nil => simp [blocks, init_residual, class_of]
  | cons p rest ih =>
    obtain ⟨d0, c⟩ := p
    simp only [blocks, init_residual, blocks_end] at hlen ⊢
    have hge := blocks_end_ge rest (s + c)
    have hl : ∀ u ∈ List.range' s c, u < r.length := by
      intro u hu
      have := (List.mem_range'_1.1 hu).2
      omega
    obtain ⟨f1, f2⟩ := fill_getD (List.range' s c) (d0 : Int) r hl
    obtain ⟨i1, i2⟩ := ih (s + c) _ (by rw [f1]; exact hlen)
    refine ⟨by rw [i1, f1], fun u => ?_⟩
    rw [i2 u, class_of_cons]
    by_cases hu : u ∈ List.range' s c
    · have hlt : u < s + c := (List.mem_range'_1.1 hu).2
      rw [class_of_blocks_lt rest (s + c) u hlt, if_pos hu]
      simp only
      rw [f2 u, if_pos hu]
    · rw [if_neg hu]
      cases class_of (blocks rest (s + c)) u with
      | some d => rfl
      | none =>
        simp only
        rw [f2 u, if_neg hu]

/-! ### The state before the first edge -/

theorem initial_total (nkk : JDM) (el : List Nat) :
    (initial_build nkk el).g.total_nodes = node_total nkk := rfl

theorem getD_replicate_zero (m i : Nat) : (List.replicate m (0 : Nat)).getD i 0 = 0 := by
  rw [List.getD_eq_getElem?_getD]
  by_cases h : i < m
  · rw [List.getElem?_replicate_of_lt h]; rfl
  · rw [List.getElem?_eq_none (by simpa using h)]; rfl

theorem initial_has_edge (nkk : JDM) (el : List Nat) (u v : Nat) :
    fastgraph_has_edge (initial_build nkk el).g u v = 0 := by
  unfold fastgraph_has_edge initial_build
  simp only
  exact getD_replicate_zero _ _

theorem initial_res (nkk : JDM) (hwf : Table.WF nkk) (el : List Nat) (u d : Nat)
    (h : jdm_class nkk u = some d) : res (initial_build nkk el).g u = (d : Int) := by
  unfold res initial_build
  simp only
  unfold jdm_class at h
  rw [degree_nodelist_eq nkk hwf] at h ⊢
  have := (init_residual_blocks (sizes nkk) 0 (List.replicate (node_total nkk) 0)
    (by rw [List.length_replicate, node_total_eq nkk hwf])).2 u
  rw [this, h]

theorem initial_inv (nkk : JDM) (hwf : Table.WF nkk) (el : List Nat) :
    Inv (jdm_class nkk) (initial_build nkk el).g := by
  have hdeg : ∀ x, deg (initial_build nkk el).g x = 0 := by
    intro x
    unfold deg ind
    apply Finset.sum_eq_zero
    intro y _
    rw [if_pos (initial_has_edge nkk el x y)]
  refine ⟨⟨?_, ?_, ?_⟩, ?_, ?_⟩
  · unfold Sized initial_build
    simp
  · intro u v _ _
    rw [initial_has_edge, initial_has_edge]
  · intro u _
    exact initial_has_edge nkk el u u
  · unfold ResSized initial_build
    simp only
    rw [degree_nodelist_eq nkk hwf]
    rw [(init_residual_blocks (sizes nkk) 0 (List.replicate (node_total nkk) 0)
      (by rw [List.length_replicate, node_total_eq nkk hwf])).1]
    simp
  · intro x _ d hd
    rw [hdeg x, initial_res nkk hwf el x d hd]
    simp

theorem initial_nonneg (nkk : JDM) (hwf : Table.WF nkk) (el : List Nat) :
    ResNonneg (initial_build nkk el).g := by
  intro x hx
  obtain ⟨d, hd⟩ := jdm_class_exists nkk hwf x hx
  rw [initial_res nkk hwf el x d hd]
  exact Int.ofNat_nonneg d

/-! ## Demand of a JDM: stubs per class and edges per class pair -/

theorem bound_row_spec (inner : Row) (c : Nat × Nat) (h : c ∈ inner) : c.1 < bound_row inner := by
  induction inner with
  | nil => simp at h
  | cons p rest ih =>
    obtain ⟨l, v⟩ := p
    simp only [bound_row]
    rcases List.mem_cons.1 h with e | e
    · subst e; simp only; omega
    · have := ih e; omega

theorem bound_jdm_spec (nkk : JDM) (r : Nat × Row) (h : r ∈ nkk) :
    r.1 < bound_jdm nkk ∧ ∀ c ∈ r.2, c.1 < bound_jdm nkk := by
  induction nkk with
  | nil => simp at h
  | cons p rest ih =>
    obtain ⟨k, inner⟩ := p
    simp only [bound_jdm]
    rcases List.mem_cons.1 h with e | e
    · subst e
      refine ⟨by simp only; omega, fun c hc => ?_⟩
      have := bound_row_spec inner c hc
      simp only at this ⊢
      omega
    · obtain ⟨a1, a2⟩ := ih e
      refine ⟨by omega, fun c hc => ?_⟩
      have := a2 c hc
      omega

/-- Sum over the entries of a well-formed table as a sum over all keys below a
bound, absent keys contributing the default. -/
theorem table_sum_eq {α : Type} (t : Table α) (hwf : Table.WF t) (M : Nat)
    (hM : ∀ c ∈ t, c.1 < M) (G : Nat → α → Int) (dflt : α) (hG : ∀ k, G k dflt = 0) :
    (t.map (fun c => G c.1 c.2)).sum =
      ∑ k ∈ Finset.range M, G k ((ht_lookup t k).getD dflt) := by
  induction t with
  | nil => simp [ht_lookup, hG]
  | cons p rest ih =>
    obtain ⟨k0, x0⟩ := p
    have h1 : k0 ∉ rest.map Prod.fst ∧ (rest.map Prod.fst).Nodup := by
      simpa [Table.WF] using hwf
    have hk0 : k0 < M := hM (k0, x0) (List.mem_cons_self _ _)
    have hnone : ht_lookup rest k0 = none := (ht_lookup_eq_none rest k0).2 h1.1
    rw [List.map_cons, List.sum_cons, ih h1.2 (fun c hc => hM c (List.mem_cons_of_mem _ hc))]
    have e : ∀ k ∈ Finset.range M,
        G k ((ht_lookup ((k0, x0) :: rest) k).getD dflt) =
          G k ((ht_lookup rest k).getD dflt) + (if k = k0 then G k0 x0 else 0) := by
      intro k _
      by_cases hk : k = k0
      · subst hk
        simp [ht_lookup, hnone, hG]
      · have hk' : ¬ k0 = k := fun e => hk e.symm
        simp [ht_lookup, hk, hk']
    rw [Finset.sum_congr rfl e, Finset.sum_add_distrib,
      sum_point M k0 hk0 (fun _ => G k0 x0)]
    ring

theorem rowV_eq_sum (k : Nat) (cells : List (Nat × Nat)) (d : Nat) :
    rowV k cells d = (cells.map (fun c => cellV k c.1 (cell_edges k c.1 c.2) d)).sum := by
  induction cells with
  | nil => simp [rowV]
  | cons p rest ih => obtain ⟨l, v⟩ := p; simp [rowV, ih]

theorem tableV_eq_sum (rows : List (Nat × Row)) (d : Nat) :
    tableV rows d = (rows.map (fun r => rowV r.1 r.2 d)).sum := by
  induction rows with
  | nil => simp [tableV]
  | cons p rest ih => obtain ⟨k, inner⟩ := p; simp [tableV, ih]

theorem row_total_eq_sum (inner : Row) : row_total inner = (inner.map Prod.snd).sum := by
  unfold row_total
  have : ∀ (l : Row) (s : Nat), l.foldl (fun s c => s + c.2) s = s + (l.map Prod.snd).sum := by
    intro l
    induction l with
    | nil => simp
    | cons p rest ih => intro s; simp [List.foldl_cons, ih, Nat.add_assoc]
  rw [this inner 0, Nat.zero_add]

theorem jdm_cell_eq (nkk : JDM) (k l : Nat) : jdm_cell nkk k l = lookup_int (row_of nkk k) l := by
  unfold jdm_cell row_of
  cases ht_lookup nkk k with
  | none => simp [lookup_int, ht_lookup]
  | some inner => simp

theorem row_of_wf (nkk : JDM) (hwf : JDM.WF nkk) (k : Nat) : Table.WF (row_of nkk k) := by
  unfold row_of
  cases h : ht_lookup nkk k with
  | none => simp [Table.WF]
  | some inner => exact hwf.2 (k, inner) (ht_lookup_mem nkk k inner h)

theorem row_of_bound (nkk : JDM) (k : Nat) (c : Nat × Nat) (hc : c ∈ row_of nkk k) :
    c.1 < bound_jdm nkk := by
  unfold row_of at hc
  cases h : ht_lookup nkk k with
  | none => rw [h] at hc; simp at hc
  | some inner =>
    rw [h] at hc
    exact (bound_jdm_spec nkk (k, inner) (ht_lookup_mem nkk k inner h)).2 c hc

theorem cell_edges_zero (k l : Nat) : cell_edges k l 0 = 0 := by
  unfold cell_edges; simp

theorem rowV_row_of (nkk : JDM) (hwf : JDM.WF nkk) (M : Nat) (hM : bound_jdm nkk ≤ M)
    (k d : Nat) :
    rowV k (row_of nkk k) d = ∑ l ∈ Finset.range M, cellV k l (edges_of nkk k l) d := by
  rw [rowV_eq_sum,
    table_sum_eq (row_of nkk k) (row_of_wf nkk hwf k) M
      (fun c hc => lt_of_lt_of_le (row_of_bound nkk k c hc) hM)
      (fun l v => cellV k l (cell_edges k l v) d) 0
      (fun l => by simp [cell_edges_zero, cellV])]
  apply Finset.sum_congr rfl
  intro l _
  unfold edges_of
  rw [jdm_cell_eq]
  rfl

theorem tableV_matrix (nkk : JDM) (hwf : JDM.WF nkk) (M : Nat) (hM : bound_jdm nkk ≤ M)
    (d : Nat) :
    tableV nkk d =
      ∑ k ∈ Finset.range M, ∑ l ∈ Finset.range M, cellV k l (edges_of nkk k l) d := by
  rw [tableV_eq_sum,
    table_sum_eq nkk hwf.1 M
      (fun c hc => lt_of_lt_of_le (bound_jdm_spec nkk c hc).1 hM)
      (fun k inner => rowV k inner d) [] (fun k => by simp [rowV])]
  apply Finset.sum_congr rfl
  intro k _
  exact rowV_row_of nkk hwf M hM k d

/-- The diagonal cell of a JDM that satisfies condition 5 is even. -/
theorem diag_even (nkk : JDM) (h5 : Cond5 nkk) (k : Nat) : jdm_cell nkk k k % 2 = 0 := by
  unfold jdm_cell
  cases h : ht_lookup nkk k with
  | none => rfl
  | some inner =>
    simp only
    unfold lookup_int
    cases h2 : ht_lookup inner k with
    | none => rfl
    | some v =>
      simp only [Option.getD_some]
      exact h5 (k, inner) (ht_lookup_mem nkk k inner h) (k, v) (ht_lookup_mem inner k v h2) rfl

/-- In a symmetric JDM with even diagonal the edges placed for `(k,l)` and for
`(l,k)` add up to the cell. -/
theorem edges_of_pair (nkk : JDM) (hsym : ∀ k l, jdm_cell nkk k l = jdm_cell nkk l k)
    (h5 : Cond5 nkk) (k l : Nat) :
    edges_of nkk k l + edges_of nkk l k = jdm_cell nkk k l := by
  unfold edges_of cell_edges
  rw [hsym l k]
  rcases Nat.lt_trichotomy k l with h | h | h
  · have n1 : ¬ (jdm_cell nkk k l > 0 ∧ k ≥ l) := fun hh => by omega
    rw [if_neg n1]
    by_cases hp : jdm_cell nkk k l > 0
    · rw [if_pos ⟨hp, by omega⟩, if_neg (by omega)]; omega
    · rw [if_neg (fun hh => hp hh.1)]; omega
  · subst h
    have := diag_even nkk h5 k
    by_cases hp : jdm_cell nkk k k > 0
    · rw [if_pos ⟨hp, le_refl _⟩, if_pos rfl]; omega
    · rw [if_neg (fun hh => hp hh.1)]; omega
  · have n1 : ¬ (jdm_cell nkk k l > 0 ∧ l ≥ k) := fun hh => by omega
    rw [if_neg n1]
    by_cases hp : jdm_cell nkk k l > 0
    · rw [if_pos ⟨hp, by omega⟩, if_neg (by omega)]; omega
    · rw [if_neg (fun hh => hp hh.1)]; omega

theorem row_sum_matrix (nkk : JDM) (hwf : JDM.WF nkk) (M : Nat) (hM : bound_jdm nkk ≤ M)
    (d : Nat) :
    ((row_total (row_of nkk d) : Nat) : Int) = ∑ l ∈ Finset.range M, (jdm_cell nkk d l : Int) := by
  rw [row_total_eq_sum]
  have := table_sum_eq (row_of nkk d) (row_of_wf nkk hwf d) M
      (fun c hc => lt_of_lt_of_le (row_of_bound nkk d c hc) hM)
      (fun _ v => (v : Int)) 0 (fun _ => rfl)
  simp only at this
  have e : (((row_of nkk d).map Prod.snd).sum : Int) =
      ((row_of nkk d).map (fun c => (c.2 : Int))).sum := by
    induction (row_of nkk d) with
    | nil => simp
    | cons p rest ih => simp [ih]
  rw [e, this]
  apply Finset.sum_congr rfl
  intro l _
  rw [jdm_cell_eq]
  rfl

/-- Stub demand of class `d` in a symmetric JDM with even diagonal: the row sum. -/
theorem tableV_eq_row_total (nkk : JDM) (hwf : JDM.WF nkk)
    (hsym : ∀ k l, jdm_cell nkk k l = jdm_cell nkk l k) (h5 : Cond5 nkk) (d : Nat) :
    tableV nkk d = ((row_total (row_of nkk d) : Nat) : Int) := by
  have hM : bound_jdm nkk ≤ max (bound_jdm nkk) (d + 1) := le_max_left _ _
  have hd : d < max (bound_jdm nkk) (d + 1) := by
    have := le_max_right (bound_jdm nkk) (d + 1); omega
  rw [tableV_matrix nkk hwf _ hM d, row_sum_matrix nkk hwf _ hM d]
  have e : ∀ k ∈ Finset.range (max (bound_jdm nkk) (d + 1)),
      ∀ l ∈ Finset.range (max (bound_jdm nkk) (d + 1)),
      cellV k l (edges_of nkk k l) d =
        (if k = d ∧ l = l then (edges_of nkk k l : Int) else 0)
          + (if l = d then (edges_of nkk k l : Int) else 0) := by
    intro k _ l _
    unfold cellV
    (split_ifs <;> simp_all)
    ring
  rw [Finset.sum_congr rfl (fun k hk => Finset.sum_congr rfl (e k hk))]
  simp only [Finset.sum_add_distrib, and_true]
  have e1 : (∑ k ∈ Finset.range (max (bound_jdm nkk) (d + 1)),
      ∑ l ∈ Finset.range (max (bound_jdm nkk) (d + 1)),
        if k = d then (edges_of nkk k l : Int) else 0)
      = ∑ l ∈ Finset.range (max (bound_jdm nkk) (d + 1)), (edges_of nkk d l : Int) := by
    rw [Finset.sum_comm]
    apply Finset.sum_congr rfl
    intro l _
    exact sum_point _ d hd (fun k => (edges_of nkk k l : Int))
  have e2 : (∑ k ∈ Finset.range (max (bound_jdm nkk) (d + 1)),
      ∑ l ∈ Finset.range (max (bound_jdm nkk) (d + 1)),
        if l = d then (edges_of nkk k l : Int) else 0)
      = ∑ k ∈ Finset.range (max (bound_jdm nkk) (d + 1)), (edges_of nkk k d : Int) := by
    apply Finset.sum_congr rfl
    intro k _
    exact sum_point _ d hd (fun l => (edges_of nkk k l : Int))
  rw [e1, e2, ← Finset.sum_add_distrib]
  apply Finset.sum_congr rfl
  intro l _
  have := edges_of_pair nkk hsym h5 d l
  exact_mod_cast this

theorem lookup_sizes (nkk : List (Nat × Row)) (d : Nat) :
    ht_lookup (sizes nkk) d = (ht_lookup nkk d).map (row_size d) := by
  induction nkk with
  | nil => simp [sizes, ht_lookup]
  | cons p rest ih =>
    obtain ⟨k, inner⟩ := p
    unfold sizes at ih ⊢
    simp only [List.map_cons, ht_lookup]
    by_cases h : k = d
    · subst h; simp
    · simp [h, ih]

theorem lookup_int_sizes (nkk : JDM) (d : Nat) :
    lookup_int (sizes nkk) d = class_size nkk d := by
  unfold lookup_int class_size
  rw [lookup_sizes]
  cases ht_lookup nkk d with
  | none => rfl
  | some inner =>
    by_cases h : d = 0 <;> simp [row_size, h]

/-- Number of vertices the partition puts in class `d`. -/
theorem class_count (nkk : JDM) (hwf : Table.WF nkk) (d : Nat) (c : Int) :
    (∑ x ∈ Finset.range (node_total nkk), if jdm_class nkk x = some d then c else 0)
      = c * (class_size nkk d : Int) := by
  rw [← lookup_int_sizes]
  cases h : ht_lookup (degree_nodelist nkk) d with
  | none =>
    have hnone : ht_lookup (sizes nkk) d = none := by
      have := lookup_blocks_isSome (sizes nkk) 0 d
      rw [← degree_nodelist_eq nkk hwf, h] at this
      cases h2 : ht_lookup (sizes nkk) d with
      | none => rfl
      | some v => rw [h2] at this; cases this
    have hz : lookup_int (sizes nkk) d = 0 := by
      unfold lookup_int; rw [hnone]; rfl
    rw [hz]
    simp only [Nat.cast_zero, mul_zero]
    apply Finset.sum_eq_zero
    intro x _
    rw [if_neg]
    intro hc
    unfold jdm_class at hc
    rw [degree_nodelist_eq nkk hwf] at hc
    exact (ht_lookup_eq_none _ d).1 hnone (class_of_blocks_some (sizes nkk) 0 x d hc).2.2
  | some nl =>
    have hL := jdm_lists nkk hwf d nl h
    have h' := h
    rw [degree_nodelist_eq nkk hwf] at h'
    obtain ⟨s', cnt, e1, e2⟩ := lookup_blocks (sizes nkk) 0 d nl h'
    have hz : lookup_int (sizes nkk) d = cnt := by unfold lookup_int; rw [e2]; rfl
    rw [hz, ← Finset.sum_filter]
    have hset : (Finset.range (node_total nkk)).filter (fun x => jdm_class nkk x = some d)
        = nl.toFinset := by
      ext x
      simp only [Finset.mem_filter, Finset.mem_range, List.mem_toFinset]
      exact (hL x).symm
    rw [hset, Finset.sum_const, List.toFinset_card_of_nodup (by rw [e1]; exact List.nodup_range' _ _),
      e1, List.length_range']
    simp [mul_comm]

theorem initial_resSum (nkk : JDM) (hwf : Table.WF nkk) (el : List Nat) (d : Nat) :
    resSum (jdm_class nkk) (initial_build nkk el).g d = (d : Int) * (class_size nkk d : Int) := by
  unfold resSum
  rw [initial_total, ← class_count nkk hwf d (d : Int)]
  apply Finset.sum_congr rfl
  intro x _
  by_cases hc : jdm_class nkk x = some d
  · rw [if_pos hc, if_pos hc, initial_res nkk hwf el x d hc]
  · rw [if_neg hc, if_neg hc]

theorem class_size_row_of (nkk : JDM) (d : Nat) :
    class_size nkk d = if d = 0 then row_total (row_of nkk d) else row_total (row_of nkk d) / d := by
  unfold class_size row_of
  cases ht_lookup nkk d with
  | none => simp [row_total]
  | some inner => simp

theorem cond2_row_of (nkk : JDM) (h2 : Cond2 nkk) (d : Nat) (hd : d ≠ 0) :
    row_total (row_of nkk d) % d = 0 := by
  unfold row_of
  cases h : ht_lookup nkk d with
  | none => simp [row_total]
  | some inner => exact h2 (d, inner) (ht_lookup_mem nkk d inner h) hd

theorem zero_row (nkk : JDM) (hwf : JDM.WF nkk) (hzero : ∀ l, jdm_cell nkk 0 l = 0) :
    row_total (row_of nkk 0) = 0 := by
  have := row_sum_matrix nkk hwf (bound_jdm nkk) (le_refl _) 0
  simp only [hzero, Nat.cast_zero, Finset.sum_const_zero] at this
  exact_mod_cast this

/-- The stubs the partition hands out are exactly the stubs the cells demand. -/
theorem initial_resSum_eq_demand (nkk : JDM) (hwf : JDM.WF nkk)
    (hsym : ∀ k l, jdm_cell nkk k l = jdm_cell nkk l k)
    (hzero : ∀ l, jdm_cell nkk 0 l = 0)
    (h2 : Cond2 nkk) (h5 : Cond5 nkk) (el : List Nat) (d : Nat) :
    resSum (jdm_class nkk) (initial_build nkk el).g d = tableV nkk d := by
  rw [initial_resSum nkk hwf.1, tableV_eq_row_total nkk hwf hsym h5, class_size_row_of]
  by_cases hd : d = 0
  · subst hd
    rw [if_pos rfl, zero_row nkk hwf hzero]
    simp
  · rw [if_neg hd]
    have := cond2_row_of nkk h2 d hd
    have e : d * (row_total (row_of nkk d) / d) = row_total (row_of nkk d) :=
      Nat.mul_div_cancel' (Nat.dvd_of_mod_eq_zero this)
    exact_mod_cast e

/-! ## The JDM recomputed from a graph -/

theorem jdm_cell_increment (J : JDM) (k l a b : Nat) :
    jdm_cell (jdm_increment J k l) a b =
      jdm_cell J a b + (if k = a ∧ l = b then 1 else 0) := by
  unfold jdm_increment jdm_cell
  simp only [ht_lookup_insert]
  by_cases hk : k = a
  · subst hk
    simp only [if_true, true_and]
    unfold lookup_int
    rw [ht_lookup_insert]
    cases h : ht_lookup J k with
    | none =>
      by_cases hl : l = b
      · subst hl; simp [ht_lookup]
      · simp [hl, ht_lookup]
    | some inner =>
      by_cases hl : l = b
      · subst hl; simp
      · simp [hl]
  · simp [hk]

theorem jdm_cell_accumulate (D : Nat → Nat) (es : List (Nat × Nat)) (J : JDM) (a b : Nat) :
    jdm_cell (jdm_accumulate D es J) a b =
      jdm_cell J a b +
        (es.map (fun e => (if D e.1 = a ∧ D e.2 = b then 1 else 0)
          + (if D e.2 = a ∧ D e.1 = b then 1 else 0))).sum := by
  induction es generalizing J with
  | nil => simp [jdm_accumulate]
  | cons p rest ih =>
    obtain ⟨u, v⟩ := p
    simp only [jdm_accumulate, List.map_cons, List.sum_cons]
    rw [ih, jdm_cell_increment, jdm_cell_increment]
    omega

/-! ### Sums over the written edge list -/

theorem sum_map_range (n : Nat) (H : Nat → Int) :
    ((List.range n).map H).sum = ∑ x ∈ Finset.range n, H x := by
  induction n with
  | zero => simp
  | succ m ih =>
    rw [List.range_succ, List.map_append, List.sum_append, ih, Finset.sum_range_succ]
    simp

theorem sum_map_range' (s m : Nat) (H : Nat → Int) :
    ((List.range' s m).map H).sum =
      ∑ y ∈ Finset.range (s + m), if s ≤ y then H y else 0 := by
  induction m with
  | zero =>
    simp only [List.range'_zero, List.map_nil, List.sum_nil, Nat.add_zero]
    symm
    apply Finset.sum_eq_zero
    intro y hy
    have := Finset.mem_range.1 hy
    rw [if_neg (by omega)]
  | succ k ih =>
    rw [List.range'_concat, List.map_append, List.sum_append, ih, ← Nat.add_assoc,
      Finset.sum_range_succ]
    simp

theorem sum_map_filter (l : List Nat) (p : Nat → Bool) (H : Nat → Int) :
    ((l.filter p).map H).sum = (l.map (fun y => if p y then H y else 0)).sum := by
  induction l with
  | nil => simp
  | cons a rest ih =>
    by_cases h : p a
    · simp [List.filter_cons, h, ih]
    · simp [List.filter_cons, h, ih]

theorem sum_flatMap (l : List Nat) (f : Nat → List (Nat × Nat)) (H : Nat × Nat → Int) :
    ((l.flatMap f).map H).sum = (l.map (fun x => ((f x).map H).sum)).sum := by
  induction l with
  | nil => simp
  | cons a rest ih => simp [List.flatMap_cons, ih]

theorem write_row_sum (g : FastGraph) (x : Nat) (hx : x < g.total_nodes) (H : Nat × Nat → Int) :
    ((write_graph_row g x).map H).sum =
      ∑ y ∈ Finset.range g.total_nodes, if x < y then ind g x y * H (x, y) else 0 := by
  unfold write_graph_row
  rw [List.map_map, sum_map_filter, sum_map_range']
  have e : x + 1 + (g.total_nodes - (x + 1)) = g.total_nodes := by omega
  rw [e]
  apply Finset.sum_congr rfl
  intro y _
  by_cases hxy : x < y
  · rw [if_pos (by omega), if_pos hxy]
    unfold ind
    by_cases ha : fastgraph_has_edge g x y = 0
    · simp [ha]
    · simp [ha]
  · rw [if_neg (by omega), if_neg hxy]

theorem write_graph_sum (g : FastGraph) (H : Nat × Nat → Int) :
    ((write_graph g).map H).sum =
      ∑ x ∈ Finset.range g.total_nodes, ∑ y ∈ Finset.range g.total_nodes,
        if x < y then ind g x y * H (x, y) else 0 := by
  unfold write_graph
  rw [sum_flatMap, sum_map_range]
  apply Finset.sum_congr rfl
  intro x hx
  exact write_row_sum g x (Finset.mem_range.1 hx) H

/-- Summing a weight over both orientations of the written edges gives the
weighted count over the ordered adjacent pairs. -/
theorem write_graph_wsum (g : FastGraph) (hg : Simple g) (F : Nat → Nat → Int) :
    ((write_graph g).map (fun e => F e.1 e.2 + F e.2 e.1)).sum = wsum g F := by
  rw [write_graph_sum]
  unfold wsum
  have split : ∀ x ∈ Finset.range g.total_nodes, ∀ y ∈ Finset.range g.total_nodes,
      ind g x y * F x y =
        (if x < y then ind g x y * F x y else 0) + (if y < x then ind g x y * F x y else 0) := by
    intro x hx y _
    rcases Nat.lt_trichotomy x y with h | h | h
    · rw [if_pos h, if_neg (by omega)]; ring
    · subst h
      have : ind g x x = 0 := by
        unfold ind; rw [if_pos (hg.irrefl x (Finset.mem_range.1 hx))]
      rw [this]; simp
    · rw [if_neg (by omega), if_pos h]; ring
  rw [Finset.sum_congr rfl (fun x hx => Finset.sum_congr rfl (split x hx))]
  simp only [Finset.sum_add_distrib]
  have swap : (∑ x ∈ Finset.range g.total_nodes, ∑ y ∈ Finset.range g.total_nodes,
      if y < x then ind g x y * F x y else 0)
      = ∑ x ∈ Finset.range g.total_nodes, ∑ y ∈ Finset.range g.total_nodes,
        if x < y then ind g x y * F y x else 0 := by
    rw [Finset.sum_comm]
    apply Finset.sum_congr rfl
    intro x hx
    apply Finset.sum_congr rfl
    intro y hy
    have : ind g y x = ind g x y := by
      unfold ind
      rw [hg.symm y x (Finset.mem_range.1 hy) (Finset.mem_range.1 hx)]
    rw [this]
  rw [swap, ← Finset.sum_add_distrib]
  apply Finset.sum_congr rfl
  intro x _
  rw [← Finset.sum_add_distrib]
  apply Finset.sum_congr rfl
  intro y _
  split_ifs <;> ring

theorem mem_write_graph (g : FastGraph) (e : Nat × Nat) (h : e ∈ write_graph g) :
    e.1 < e.2 ∧ e.2 < g.total_nodes := by
  unfold write_graph write_graph_row at h
  simp only [List.mem_flatMap, List.mem_range, List.mem_map, List.mem_filter,
    List.mem_range'_1] at h
  obtain ⟨x, hx, y, ⟨⟨h1, h2⟩, -⟩, rfl⟩ := h
  simp only
  omega

theorem length_filter_eq_sum (l : List Nat) (p : Nat → Bool) :
    (((l.filter p).length : Nat) : Int) = (l.map (fun y => if p y then (1 : Int) else 0)).sum := by
  induction l with
  | nil => simp
  | cons a rest ih =>
    by_cases h : p a
    · simp [List.filter_cons, h, ← ih]; ring
    · simp [List.filter_cons, h, ← ih]

/-- The number of neighbours listed by `fastgraph_neighbors` is the degree. -/
theorem neighbors_length (g : FastGraph) (hg : Simple g) (u : Nat) (hu : u < g.total_nodes) :
    (((fastgraph_neighbors g u).length : Nat) : Int) = deg g u := by
  unfold fastgraph_neighbors deg
  rw [length_filter_eq_sum, sum_map_range]
  apply Finset.sum_congr rfl
  intro y _
  unfold ind
  by_cases h1 : fastgraph_has_edge g u y = 0
  · simp [h1]
  · have : y ≠ u := by
      intro e; subst e; exact h1 (hg.irrefl y hu)
    simp [h1, this]

theorem nodelist_isSome (nkk : JDM) (hwf : Table.WF nkk) (k : Nat) :
    (ht_lookup (degree_nodelist nkk) k).isSome = (ht_lookup nkk k).isSome := by
  rw [degree_nodelist_eq nkk hwf, lookup_blocks_isSome, lookup_sizes]
  cases ht_lookup nkk k <;> rfl

theorem row_isSome (nkk : JDM) (r : Nat × Row) (h : r ∈ nkk) : (ht_lookup nkk r.1).isSome := by
  cases h1 : ht_lookup nkk r.1 with
  | some v => rfl
  | none =>
    exact absurd (List.mem_map.2 ⟨r, h, rfl⟩) ((ht_lookup_eq_none nkk r.1).1 h1)

/-- On a JDM that satisfies condition 3, every cell for which edges are placed
has a vertex list for both of its degrees. -/
theorem lists_exist (nkk : JDM) (hwf : Table.WF nkk) (h3 : Cond3 nkk) :
    ∀ r ∈ nkk, ∀ c ∈ r.2, 0 < cell_edges r.1 c.1 c.2 →
      (ht_lookup (degree_nodelist nkk) r.1).isSome ∧
      (ht_lookup (degree_nodelist nkk) c.1).isSome := by
  intro r hr c hc hpos
  have hrow : (ht_lookup (degree_nodelist nkk) r.1).isSome := by
    rw [nodelist_isSome nkk hwf]; exact row_isSome nkk r hr
  refine ⟨hrow, ?_⟩
  by_cases hkl : r.1 = c.1
  · rw [← hkl]; exact hrow
  · rw [nodelist_isSome nkk hwf]
    have hle := h3 r hr c hc hkl
    have hv : 0 < c.2 := by
      unfold cell_edges at hpos
      by_contra hz
      rw [if_neg (fun hh => hz hh.1)] at hpos
      exact absurd hpos (lt_irrefl 0)
    cases h1 : ht_lookup nkk c.1 with
    | some v => rfl
    | none =>
      have : class_size nkk c.1 = 0 := by unfold class_size; rw [h1]
      rw [this, Nat.mul_zero] at hle
      omega

theorem matrix_cells_lt (n : Nat) : matrix_cells n < 2147483648 := int_mul_lt _ _

/-- The `int` count of cells is the exact count when the exact count fits, and
only then. -/
theorem matrix_cells_exact (n : Nat) :
    matrix_cells n = ((n * n : Nat) : Int) ↔ n * n < 2147483648 := by
  constructor
  · intro h
    have := matrix_cells_lt n
    rw [h] at this
    exact_mod_cast this
  · intro h
    unfold matrix_cells
    rw [int_mul_eq _ _ (mul_nonneg (Int.ofNat_nonneg _) (Int.ofNat_nonneg _))
      (by exact_mod_cast h)]
    push_cast
    rfl

theorem realize_eq (nkk : JDM) (el rs : List Nat) :
    realize nkk el rs =
      if matrix_cells (node_total nkk) ≠ ((node_total nkk * node_total nkk : Nat) : Int) then
        .fault
      else place_rows (degree_nodelist nkk) nkk (initial_build nkk el) rs := rfl

/-- With a matrix of `total_nodes * total_nodes` cells the realizer runs the
placement from the state `initial_build`. -/
theorem realize_of_fit (nkk : JDM) (el rs : List Nat)
    (hfit : node_total nkk * node_total nkk < 2147483648) :
    realize nkk el rs = place_rows (degree_nodelist nkk) nkk (initial_build nkk el) rs := by
  rw [realize_eq, if_neg (not_not.2 ((matrix_cells_exact _).2 hfit))]

/-- Every run of the placement on a well-formed JDM satisfying condition 3 keeps
the invariant and moves the class totals by the demand of the table. -/
theorem realize_ok (nkk : JDM) (hwf : Table.WF nkk) (h3 : Cond3 nkk) (el rs : List Nat) :
    RunOk (jdm_class nkk) (tableV nkk) (tableW nkk) (initial_build nkk el)
      (realize nkk el rs) := by
  rw [realize_eq]
  split
  · trivial
  · exact place_rows_ok (jdm_class nkk) (node_total nkk) (degree_nodelist nkk)
      (jdm_lists nkk hwf) nkk (lists_exist nkk hwf h3) (initial_build nkk el) rs
      (initial_inv nkk hwf el) (initial_total nkk el)

theorem initial_wsum (nkk : JDM) (el : List Nat) (F : Nat → Nat → Int) :
    wsum (initial_build nkk el).g F = 0 := by
  unfold wsum
  apply Finset.sum_eq_zero
  intro x _
  apply Finset.sum_eq_zero
  intro y _
  unfold ind
  rw [if_pos (initial_has_edge nkk el x y)]
  simp

/-- Outside the square of side `bound_jdm nkk` every cell is absent, so the two
conditions of `Realizable` need only be checked inside it. -/
theorem realizable_of_bounded (nkk : JDM) (h1 : JDM.WF nkk)
    (h2 : ∀ k ∈ List.range (bound_jdm nkk), ∀ l ∈ List.range (bound_jdm nkk),
      jdm_cell nkk k l = jdm_cell nkk l k)
    (h3 : ∀ l ∈ List.range (bound_jdm nkk), jdm_cell nkk 0 l = 0) : Realizable nkk := by
  have out : ∀ k l, bound_jdm nkk ≤ k ∨ bound_jdm nkk ≤ l → jdm_cell nkk k l = 0 := by
    intro k l hkl
    unfold jdm_cell
    cases hk : ht_lookup nkk k with
    | none => rfl
    | some inner =>
      simp only
      have hmem := ht_lookup_mem nkk k inner hk
      have hb := bound_jdm_spec nkk (k, inner) hmem
      unfold lookup_int
      cases hl : ht_lookup inner l with
      | none => rfl
      | some v =>
        have := hb.2 (l, v) (ht_lookup_mem inner l v hl)
        have := hb.1
        simp only at *
        omega
  refine ⟨h1, fun k l => ?_, fun l => ?_⟩
  · by_cases hk : k < bound_jdm nkk
    · by_cases hl : l < bound_jdm nkk
      · exact h2 k (List.mem_range.2 hk) l (List.mem_range.2 hl)
      · rw [out k l (Or.inr (by omega)), out l k (Or.inl (by omega))]
    · rw [out k l (Or.inl (by omega)), out l k (Or.inr (by omega))]
  · by_cases hl : l < bound_jdm nkk
    · exact h3 l (List.mem_range.2 hl)
    · exact out 0 l (Or.inr (by omega))

theorem getD_mem_or_nil (J : Matrix) (i : Nat) (hi : i < J.length) : J.getD i [] ∈ J := by
  rw [List.getD_eq_getElem _ _ hi]
  exact List.getElem_mem _

theorem J_set_square (J : Matrix) (n i j : Nat) (x : Int) (h : Square J n) :
    Square (J_set J i j x) n := by
  unfold J_set
  refine ⟨by rw [List.length_set]; exact h.1, ?_⟩
  intro row hrow
  rcases List.mem_or_eq_of_mem_set hrow with h1 | h1
  · exact h.2 row h1
  · rw [h1, List.length_set]
    by_cases hi : i < J.length
    · exact h.2 _ (getD_mem_or_nil J i hi)
    · have hnil : J.getD i [] = [] := by
        rw [List.getD_eq_getElem?_getD, List.getElem?_eq_none (by omega)]; rfl
      rw [List.set_eq_of_length_le (by omega), h1, hnil, List.set_nil] at hrow
      rw [hnil]
      exact h.2 [] hrow

theorem J_get_set (J : Matrix) (n i j : Nat) (x : Int) (h : Square J n)
    (hi : i < n) (hj : j < n) (a b : Nat) :
    J_get (J_set J i j x) a b = if a = i ∧ b = j then x else J_get J a b := by
  unfold J_get J_set
  have hi' : i < J.length := by rw [h.1]; exact hi
  have hrow : (J.getD i []).length = n := h.2 _ (getD_mem_or_nil J i hi')
  rw [getD_set_eq _ _ _ _ _ hi']
  by_cases ha : i = a
  · subst ha
    rw [if_pos rfl, getD_set_eq _ _ _ _ _ (by rw [hrow]; exact hj)]
    by_cases hb : j = b
    · subst hb; simp
    · have : ¬ b = j := fun e => hb e.symm
      simp [hb, this]
  · have : ¬ a = i := fun e => ha e.symm
    simp [ha, this]

theorem J_add_square (J : Matrix) (n i j : Nat) (k : Int) (h : Square J n) :
    Square (J_add J i j k) n := J_set_square J n i j _ h

theorem J_get_add (J : Matrix) (n i j : Nat) (k : Int) (h : Square J n)
    (hi : i < n) (hj : j < n) (a b : Nat) :
    J_get (J_add J i j k) a b = J_get J a b + if a = i ∧ b = j then k else 0 := by
  unfold J_add
  rw [J_get_set J n i j _ h hi hj]
  by_cases hab : a = i ∧ b = j
  · rw [if_pos hab, if_pos hab, hab.1, hab.2]
  · rw [if_neg hab, if_neg hab]; ring

theorem row_sum_eq (J : Matrix) (n r : Nat) :
    row_sum J n r = ∑ c ∈ Finset.range n, J_get J r c := by
  unfold row_sum
  induction n with
  | zero => simp
  | succ m ih =>
    rw [List.range_succ, List.foldl_append, ih, Finset.sum_range_succ]
    simp

theorem row_sum_add (J : Matrix) (n i j : Nat) (k : Int) (h : Square J n)
    (hi : i < n) (hj : j < n) (r : Nat) :
    row_sum (J_add J i j k) n r = row_sum J n r + if r = i then k else 0 := by
  rw [row_sum_eq, row_sum_eq]
  have e : ∀ c ∈ Finset.range n, J_get (J_add J i j k) r c =
      J_get J r c + (if c = j then (if r = i then k else 0) else 0) := by
    intro c _
    rw [J_get_add J n i j k h hi hj]
    by_cases h1 : r = i <;> by_cases h2 : c = j <;> simp [h1, h2]
  rw [Finset.sum_congr rfl e, Finset.sum_add_distrib,
    sum_point n j hj (fun _ => if r = i then k else 0)]

theorem apply_swap_square (J : Matrix) (n : Nat) (s : Swap) (k : Int) (h : Square J n) :
    Square (apply_swap J s k) n := by
  unfold apply_swap
  exact J_add_square _ n _ _ _ (J_add_square _ n _ _ _ (J_add_square _ n _ _ _
    (J_add_square _ n _ _ _ (J_add_square _ n _ _ _ (J_add_square _ n _ _ _
    (J_add_square _ n _ _ _ (J_add_square _ n _ _ _ h)))))))

/-- One swap leaves every row sum unchanged. -/
theorem apply_swap_row_sum (J : Matrix) (n : Nat) (s : Swap) (k : Int) (h : Square J n)
    (hs : s.InRange n) (r : Nat) : row_sum (apply_swap J s k) n r = row_sum J n r := by
  obtain ⟨h1, h2, h3, h4⟩ := hs
  unfold apply_swap
  have q1 := J_add_square J n s.i1 s.j1 (-k) h
  have q2 := J_add_square _ n s.j1 s.i1 (-k) q1
  have q3 := J_add_square _ n s.i2 s.j2 (-k) q2
  have q4 := J_add_square _ n s.j2 s.i2 (-k) q3
  have q5 := J_add_square _ n s.i1 s.j2 k q4
  have q6 := J_add_square _ n s.j2 s.i1 k q5
  have q7 := J_add_square _ n s.i2 s.j1 k q6
  simp only
  rw [row_sum_add _ n _ _ _ q7 h2 h3, row_sum_add _ n _ _ _ q6 h3 h2,
    row_sum_add _ n _ _ _ q5 h4 h1, row_sum_add _ n _ _ _ q4 h1 h4,
    row_sum_add _ n _ _ _ q3 h4 h3, row_sum_add _ n _ _ _ q2 h3 h4,
    row_sum_add _ n _ _ _ q1 h2 h1, row_sum_add _ n _ _ _ h h1 h2]
  split_ifs <;> ring

theorem draw_pair_lt (n r1 r2 : Nat) (hn : ¬ n - 1 = 0) :
    r1 % (n - 1) < n ∧ r1 % (n - 1) + 1 + r2 % (n - r1 % (n - 1) - 1) < n := by
  have h1 : r1 % (n - 1) < n - 1 := Nat.mod_lt _ (by omega)
  have h2 : r2 % (n - r1 % (n - 1) - 1) < n - r1 % (n - 1) - 1 := Nat.mod_lt _ (by omega)
  omega

theorem sample_in_range_aux (J : Matrix) (n : Nat) :
    ∀ (N : Nat) (rs : List Nat), rs.length ≤ N → ∀ (first : Option (Nat × Nat)),
      (∀ p, first = some p → p.1 < n ∧ p.2 < n) →
      ∀ s rest, sample J n rs first = .got s rest → s.InRange n := by
  intro N
  induction N with
  | zero =>
    intro rs hlen first _ s rest h
    have : rs = [] := List.eq_nil_of_length_eq_zero (by omega)
    subst this
    simp [sample] at h
  | succ N ih =>
    intro rs hlen first hf s rest h
    rcases rs with _ | ⟨r1, _ | ⟨r2, rs'⟩⟩
    · simp [sample] at h
    · simp [sample] at h
    · have hlen' : rs'.length ≤ N := by simp at hlen; omega
      cases first with
      | none =>
        simp only [sample] at h
        by_cases hn : n - 1 = 0
        · rw [if_pos hn] at h; cases h
        · rw [if_neg hn] at h
          have hb := draw_pair_lt n r1 r2 hn
          split at h
          · exact ih rs' hlen' none (fun p hp => by cases hp) s rest h
          · exact ih rs' hlen' _ (fun p hp => by cases hp; exact hb) s rest h
      | some p =>
        obtain ⟨i1, j1⟩ := p
        have hp := hf (i1, j1) rfl
        simp only [sample] at h
        by_cases hn : n - 1 = 0
        · rw [if_pos hn] at h; cases h
        · rw [if_neg hn] at h
          have hb := draw_pair_lt n r1 r2 hn
          split at h
          · exact ih rs' hlen' _ hf s rest h
          · split at h
            · cases h
            · split at h
              · exact ih rs' hlen' none (fun p hp => by cases hp) s rest h
              · simp only [Drawn.got.injEq] at h
                obtain ⟨h1, -⟩ := h
                subst h1
                exact ⟨hp.1, hp.2, hb.1, hb.2⟩

theorem sample_in_range (J : Matrix) (n : Nat) (rs : List Nat) (s : Swap) (rest : List Nat)
    (h : sample J n rs none = .got s rest) : s.InRange n :=
  sample_in_range_aux J n rs.length rs (le_refl _) none (fun p hp => by cases hp) s rest h

/-- Every state the mutation loop passes through or ends in is a square matrix
with the row sums of the start. -/
theorem mutate_row_sums (n : Nat) :
    ∀ (num_steps : Nat) (J0 : Matrix) (rs : List Nat), Square J0 n →
      ∀ J, (mutate n num_steps J0 rs = .starved J ∨
          ∃ rest, mutate n num_steps J0 rs = .done J rest) →
        Square J n ∧ ∀ r, row_sum J n r = row_sum J0 n r := by
  intro num_steps
  induction num_steps with
  | zero =>
    intro J0 rs h0 J h
    simp only [mutate] at h
    rcases h with h | ⟨rest, h⟩
    · cases h
    · simp only [Run.done.injEq] at h
      rw [← h.1]
      exact ⟨h0, fun _ => rfl⟩
  | succ m ih =>
    intro J0 rs h0 J h
    simp only [mutate] at h
    cases hs : sample J0 n rs none with
    | got s rest =>
      rw [hs] at h
      cases rest with
      | nil =>
        simp only at h
        rcases h with h | ⟨rest, h⟩
        · simp only [Run.starved.injEq] at h
          rw [← h]; exact ⟨h0, fun _ => rfl⟩
        · cases h
      | cons r rest' =>
        simp only at h
        have hr := sample_in_range J0 n rs s _ hs
        have sq := apply_swap_square J0 n s (swap_size r s.max_k) h0
        obtain ⟨a1, a2⟩ := ih _ rest' sq J h
        exact ⟨a1, fun r' => by rw [a2 r', apply_swap_row_sum J0 n s _ h0 hr r']⟩
    | out =>
      rw [hs] at h
      simp only at h
      rcases h with h | ⟨rest, h⟩
      · simp only [Run.starved.injEq] at h
        rw [← h]; exact ⟨h0, fun _ => rfl⟩
      · cases h
    | fault =>
      rw [hs] at h
      simp only at h
      rcases h with h | ⟨rest, h⟩ <;> cases h

/-! ## Auxiliary facts for the main theorems -/

/-- The value `fastgraph_init` returns: 1 exactly when the `int` cell count is
negative. -/
theorem fastgraph_init_ret (g : FastGraph) (n : Nat) :
    (fastgraph_init g n).2 = if matrix_cells n < 0 then 1 else 0 := by
  unfold fastgraph_init
  split <;> rfl

/-- With `n * n` below `2^31` the allocation succeeds. -/
theorem fastgraph_init_fit (g : FastGraph) (n : Nat) (hfit : n * n < 2147483648) :
    (fastgraph_init g n).2 = 0 := by
  rw [fastgraph_init_ret, (matrix_cells_exact n).2 hfit, if_neg (by omega)]

theorem neighbor_switch_sized (g : FastGraph) (w : Nat) (nl : List Nat) (avoid : Option Nat)
    (hs : Sized g) :
    Sized (neighbor_switch g w nl avoid) ∧
      (neighbor_switch g w nl avoid).total_nodes = g.total_nodes := by
  rcases neighbor_switch_cases g w nl avoid with ⟨e, -⟩ | ⟨w', t, -, -, e⟩
  · rw [e]; exact ⟨hs, rfl⟩
  · rw [e]
    refine ⟨?_, rfl⟩
    unfold Sized
    rw [switch_apply_adj, switch_apply_total]
    exact add_edge_sized _ _ _ (remove_edge_sized g w t hs)

theorem repair_v_sized (k_nodes : List Nat) (v : Nat) (b : Build) (hs : Sized b.g) :
    Sized (repair_v k_nodes v b).g ∧
      (repair_v k_nodes v b).g.total_nodes = b.g.total_nodes := by
  rw [repair_v_g]
  split
  · exact neighbor_switch_sized b.g v k_nodes none hs
  · exact ⟨hs, rfl⟩

theorem repair_w_sized (k l : Nat) (k_nodes l_nodes : List Nat) (v w : Nat) (b : Build)
    (hs : Sized b.g) :
    Sized (repair_w k l k_nodes l_nodes v w b).g ∧
      (repair_w k l k_nodes l_nodes v w b).g.total_nodes = b.g.total_nodes := by
  rw [repair_w_g]
  split
  · split
    · exact neighbor_switch_sized b.g w l_nodes none hs
    · exact neighbor_switch_sized b.g w k_nodes (some v) hs
  · exact ⟨hs, rfl⟩

theorem repair_v_fields (k_nodes : List Nat) (v : Nat) (b : Build) :
    (repair_v k_nodes v b).edge_list = b.edge_list ∧ (repair_v k_nodes v b).E = b.E := by
  unfold repair_v
  split <;> exact ⟨rfl, rfl⟩

theorem repair_w_fields (k l : Nat) (k_nodes l_nodes : List Nat) (v w : Nat) (b : Build) :
    (repair_w k l k_nodes l_nodes v w b).edge_list = b.edge_list ∧
      (repair_w k l k_nodes l_nodes v w b).E = b.E := by
  unfold repair_w
  split <;> exact ⟨rfl, rfl⟩

/-- Whatever the repairs did, the body of the loop puts the edge `(v,w)` into
the matrix, appends it to the edge list and counts it. -/
theorem place_edge_commits (k l : Nat) (k_nodes l_nodes : List Nat) (v w : Nat) (b : Build)
    (hs : Sized b.g) (hv : v < b.g.total_nodes) (hw : w < b.g.total_nodes) :
    fastgraph_has_edge (place_edge k l k_nodes l_nodes v w b).g v w = 1 ∧
    (place_edge k l k_nodes l_nodes v w b).edge_list = b.edge_list ++ [v, w] ∧
    (place_edge k l k_nodes l_nodes v w b).E = b.E + 1 := by
  obtain ⟨s1, t1⟩ := repair_v_sized k_nodes v b hs
  obtain ⟨s2, t2⟩ := repair_w_sized k l k_nodes l_nodes v w (repair_v k_nodes v b) s1
  obtain ⟨f1, f2⟩ := repair_v_fields k_nodes v b
  obtain ⟨f3, f4⟩ := repair_w_fields k l k_nodes l_nodes v w (repair_v k_nodes v b)
  have hv2 : v < (repair_w k l k_nodes l_nodes v w (repair_v k_nodes v b)).g.total_nodes := by
    rw [t2, t1]; exact hv
  have hw2 : w < (repair_w k l k_nodes l_nodes v w (repair_v k_nodes v b)).g.total_nodes := by
    rw [t2, t1]; exact hw
  unfold place_edge
  refine ⟨?_, ?_, ?_⟩
  · have : fastgraph_has_edge (commit_edge v w
        (repair_w k l k_nodes l_nodes v w (repair_v k_nodes v b))).g v w =
        fastgraph_has_edge (fastgraph_add_edge
          (repair_w k l k_nodes l_nodes v w (repair_v k_nodes v b)).g v w) v w := rfl
    rw [this, has_edge_add _ s2 hv2 hw2 hv2 hw2]
    simp
  · show (repair_w k l k_nodes l_nodes v w (repair_v k_nodes v b)).edge_list ++ [v, w] = _
    rw [f3, f1]
  · show (repair_w k l k_nodes l_nodes v w (repair_v k_nodes v b)).E + 1 = _
    rw [f4, f2]

/-- A call of `neighbor_switch` that finds no `w'` or no `t` changes nothing. -/
theorem neighbor_switch_fail (g : FastGraph) (w : Nat) (nl : List Nat) (avoid : Option Nat)
    (h : SwitchFails g w nl avoid) :
    neighbor_switch g w nl avoid = g := by
  unfold neighbor_switch
  rcases h with h | ⟨w', h1, h2⟩
  · rw [h]
  · rw [h1]; simp only; rw [h2]

/-! ### The JDM with the single line `1,1,2` -/

theorem single_initial (el : List Nat) : initial_build jdm_single_edge el = single_start el := rfl

theorem single_place01 (el : List Nat) :
    place_edge 1 1 [0, 1] [0, 1] 0 1 (single_start el) =
      { g := { total_nodes := 2, adj_matrix := [0, 1, 1, 0], node_residual := [0, 0] },
        edge_list := el ++ [0, 1], E := 1, n_switches := 0 } := rfl

theorem single_place10 (el : List Nat) :
    place_edge 1 1 [0, 1] [0, 1] 1 0 (single_start el) =
      { g := { total_nodes := 2, adj_matrix := [0, 1, 1, 0], node_residual := [0, 0] },
        edge_list := el ++ [1, 0], E := 1, n_switches := 0 } := rfl

theorem single_loop (el : List Nat) :
    ∀ (N : Nat) (rs : List Nat), rs.length ≤ N → ∀ b rest,
      edge_loop 1 1 [0, 1] [0, 1] rs 1 (single_start el) = .done b rest →
      b.g = { total_nodes := 2, adj_matrix := [0, 1, 1, 0], node_residual := [0, 0] } ∧
      b.E = 1 ∧ b.n_switches = 0 ∧
      (b.edge_list = el ++ [0, 1] ∨ b.edge_list = el ++ [1, 0]) := by
  intro N
  induction N with
  | zero =>
    intro rs hlen b rest h
    have : rs = [] := List.eq_nil_of_length_eq_zero (by omega)
    subst this
    simp [edge_loop] at h
  | succ N ih =>
    intro rs hlen b rest h
    rcases rs with _ | ⟨r1, _ | ⟨r2, rs'⟩⟩
    · simp [edge_loop] at h
    · simp [edge_loop] at h
    · have hlen' : rs'.length ≤ N := by simp at hlen; omega
      rcases Nat.mod_two_eq_zero_or_one r1 with e1 | e1 <;>
        rcases Nat.mod_two_eq_zero_or_one r2 with e2 | e2
      · have : edge_loop 1 1 [0, 1] [0, 1] (r1 :: r2 :: rs') 1 (single_start el)
            = edge_loop 1 1 [0, 1] [0, 1] rs' 1 (single_start el) := by
          simp [edge_loop, e1, e2]
        rw [this] at h
        exact ih rs' hlen' b rest h
      · have : edge_loop 1 1 [0, 1] [0, 1] (r1 :: r2 :: rs') 1 (single_start el)
            = .done (place_edge 1 1 [0, 1] [0, 1] 0 1 (single_start el)) rs' := by
          simp [edge_loop, e1, e2, single_start, fastgraph_has_edge]
        rw [this, single_place01] at h
        simp only [Run.done.injEq] at h
        rw [← h.1]
        exact ⟨rfl, rfl, rfl, Or.inl rfl⟩
      · have : edge_loop 1 1 [0, 1] [0, 1] (r1 :: r2 :: rs') 1 (single_start el)
            = .done (place_edge 1 1 [0, 1] [0, 1] 1 0 (single_start el)) rs' := by
          simp [edge_loop, e1, e2, single_start, fastgraph_has_edge]
        rw [this, single_place10] at h
        simp only [Run.done.injEq] at h
        rw [← h.1]
        exact ⟨rfl, rfl, rfl, Or.inr rfl⟩
      · have : edge_loop 1 1 [0, 1] [0, 1] (r1 :: r2 :: rs') 1 (single_start el)
            = edge_loop 1 1 [0, 1] [0, 1] rs' 1 (single_start el) := by
          simp [edge_loop, e1, e2]
        rw [this] at h
        exact ih rs' hlen' b rest h

theorem single_realize (el rs : List Nat) :
    realize jdm_single_edge el rs = edge_loop 1 1 [0, 1] [0, 1] rs 1 (single_start el) := by
  have h0 : degree_nodelist jdm_single_edge = [(1, [0, 1])] := rfl
  rw [realize_of_fit jdm_single_edge el rs (by decide), h0, single_initial]
  simp only [jdm_single_edge, place_rows, place_row, place_cell, ht_lookup]
  simp only [gt_iff_lt, Nat.ofNat_pos, ge_iff_le, le_refl, and_self, if_true]
  cases edge_loop 1 1 [0, 1] [0, 1] rs (2 / 2) (single_start el) <;> rfl

/-! ## The graph store: edge cells and the neighbour listing -/

theorem foldl_fill_eq (p : Nat → Bool) (l : List Nat) (acc : List Nat) :
    l.foldl (fun neighbors v => if p v = true then neighbors ++ [v] else neighbors) acc =
      acc ++ l.filter p := by
  induction l generalizing acc with
  | nil => simp
  | cons a rest ih =>
    rw [List.foldl_cons, ih]
    by_cases h : p a = true
    · simp [h, List.filter_cons]
    · simp [h, List.filter_cons]

theorem foldl_count_eq (p : Nat → Bool) (l : List Nat) (acc : Nat) :
    l.foldl (fun count v => if p v = true then count + 1 else count) acc =
      acc + (l.filter p).length := by
  induction l generalizing acc with
  | nil => simp
  | cons a rest ih =>
    rw [List.foldl_cons, ih]
    by_cases h : p a = true
    · simp [h, List.filter_cons]; omega
    · simp [h, List.filter_cons]

theorem neighbors_fill_eq (g : FastGraph) (u : Nat) :
    neighbors_fill g u = fastgraph_neighbors g u := by
  unfold neighbors_fill fastgraph_neighbors
  have := foldl_fill_eq (fun v => decide (fastgraph_has_edge g u v ≠ 0 ∧ v ≠ u))
    (List.range g.total_nodes) []
  simp only [decide_eq_true_eq, List.nil_append] at this
  exact this

theorem neighbors_count_eq (g : FastGraph) (u : Nat) :
    neighbors_count g u = (fastgraph_neighbors g u).length := by
  unfold neighbors_count fastgraph_neighbors
  have := foldl_count_eq (fun v => decide (fastgraph_has_edge g u v ≠ 0 ∧ v ≠ u))
    (List.range g.total_nodes) 0
  simp only [decide_eq_true_eq, Nat.zero_add] at this
  exact this

theorem neighbors_sorted (g : FastGraph) (u : Nat) :
    (fastgraph_neighbors g u).Pairwise (fun a b => a < b) := by
  unfold fastgraph_neighbors
  exact List.Pairwise.filter _ (List.pairwise_lt_range _)

theorem neighbors_nodup (g : FastGraph) (u : Nat) : (fastgraph_neighbors g u).Nodup := by
  unfold fastgraph_neighbors
  exact List.Nodup.filter _ (List.nodup_range _)

theorem list_ext_getD {l1 l2 : List Nat} (hl : l1.length = l2.length)
    (h : ∀ k, k < l1.length → l1.getD k 0 = l2.getD k 0) : l1 = l2 := by
  apply List.ext_getElem hl
  intro k h1 h2
  have := h k h1
  rw [List.getD_eq_getElem _ _ h1, List.getD_eq_getElem _ _ h2] at this
  exact this

/-- Removing an edge that was just added to a store without it gives the store
back. -/
theorem remove_add_restore (g : FastGraph) (hs : Sized g) {u v : Nat}
    (hu : u < g.total_nodes) (hv : v < g.total_nodes)
    (h1 : fastgraph_has_edge g u v = 0) (h2 : fastgraph_has_edge g v u = 0) :
    fastgraph_remove_edge (fastgraph_add_edge g u v) u v = g := by
  have hadj : (fastgraph_remove_edge (fastgraph_add_edge g u v) u v).adj_matrix =
      g.adj_matrix := by
    apply list_ext_getD
    · simp [fastgraph_remove_edge, fastgraph_add_edge]
    · intro k hk
      have hk' : k < g.total_nodes * g.total_nodes := by
        have : (fastgraph_remove_edge (fastgraph_add_edge g u v) u v).adj_matrix.length =
            g.adj_matrix.length := by simp [fastgraph_remove_edge, fastgraph_add_edge]
        rw [this, hs] at hk
        exact hk
      have l1 : u * g.total_nodes + v < g.adj_matrix.length := by
        rw [hs]; exact idx_lt hu hv
      have l2 : v * g.total_nodes + u < g.adj_matrix.length := by
        rw [hs]; exact idx_lt hv hu
      unfold fastgraph_has_edge at h1 h2
      simp only [fastgraph_remove_edge, fastgraph_add_edge]
      rw [getD_set_eq _ _ _ _ _ (by simp [l2]), getD_set_eq _ _ _ _ _ (by simp [l1]),
        getD_set_eq _ _ _ _ _ (by simp [l2]), getD_set_eq _ _ _ _ _ l1]
      by_cases e2 : v * g.total_nodes + u = k
      · rw [if_pos e2, ← e2, h2]
      · rw [if_neg e2]
        by_cases e1 : u * g.total_nodes + v = k
        · rw [if_pos e1, ← e1, h1]
        · rw [if_neg e1, if_neg e2, if_neg e1]
  cases g with
  | mk n adj r =>
    simp only [fastgraph_remove_edge, fastgraph_add_edge] at hadj ⊢
    rw [hadj]

/-- Cells of the adjacency matrix after steps 3 and 4 of `neighbor_switch`. -/
theorem switch_apply_cell (g : FastGraph) (hs : Sized g) (w w' t : Nat)
    (hw : w < g.total_nodes) (hw' : w' < g.total_nodes) (ht : t < g.total_nodes)
    (x y : Nat) (hx : x < g.total_nodes) (hy : y < g.total_nodes) :
    fastgraph_has_edge (switch_apply g w w' t) x y =
      if (x = w' ∧ y = t) ∨ (x = t ∧ y = w') then 1
      else if (x = w ∧ y = t) ∨ (x = t ∧ y = w) then 0
      else fastgraph_has_edge g x y := by
  have : fastgraph_has_edge (switch_apply g w w' t) x y =
      fastgraph_has_edge (fastgraph_add_edge (fastgraph_remove_edge g w t) w' t) x y := rfl
  rw [this, has_edge_add _ (remove_edge_sized g w t hs) hw' ht hx hy,
    has_edge_remove g hs hw ht hx hy]

/-- A graph is simple when the finitely many cells say so. -/
theorem simple_of_cells (g : FastGraph) (hs : Sized g)
    (h1 : ∀ u ∈ List.range g.total_nodes, ∀ v ∈ List.range g.total_nodes,
      fastgraph_has_edge g u v = fastgraph_has_edge g v u)
    (h2 : ∀ u ∈ List.range g.total_nodes, fastgraph_has_edge g u u = 0) : Simple g :=
  ⟨hs, fun u v hu hv => h1 u (List.mem_range.2 hu) v (List.mem_range.2 hv),
    fun u hu => h2 u (List.mem_range.2 hu)⟩

/-- Number of edges of a simple graph, as `write_graph` counts them, against the
number of ordered adjacent pairs. -/
theorem write_graph_length (g : FastGraph) (hg : Simple g) :
    (2 : Int) * ((write_graph g).length : Int) = wsum g (fun _ _ => 1) := by
  rw [← write_graph_wsum g hg (fun _ _ => 1)]
  simp only [List.map_const', List.sum_replicate, smul_eq_mul]
  ring

/-! ## The degree partition -/

theorem class_size_of_mem (nkk : JDM) (hwf : Table.WF nkk) (r : Nat × Row) (h : r ∈ nkk) :
    class_size nkk r.1 = row_size r.1 r.2 := by
  unfold class_size
  rw [ht_lookup_of_mem nkk hwf r.1 r.2 h]
  by_cases h0 : r.1 = 0 <;> simp [row_size, h0]

theorem deg_nonneg (g : FastGraph) (x : Nat) : 0 ≤ deg g x := by
  unfold deg
  exact Finset.sum_nonneg (fun y _ => ind_nonneg g x y)

/-- On a realizable accepted JDM every state in which the placement stands at
the head of its loop, or ends, satisfies the invariant and has no negative
residual. -/
theorem realize_state (nkk : JDM) (hR : Realizable nkk)
    (hvalid : (is_valid_joint_degree nkk).ret = 1) (el rs : List Nat) (b : Build)
    (h : realize nkk el rs = .starved b ∨ ∃ rest, realize nkk el rs = .done b rest) :
    Inv (jdm_class nkk) b.g ∧ b.g.total_nodes = node_total nkk ∧ ResNonneg b.g := by
  obtain ⟨c2, c3, -, c5⟩ := is_valid_conds nkk hR.wf.1 hvalid
  have ok := realize_ok nkk hR.wf.1 c3 el rs
  have hdem := initial_resSum_eq_demand nkk hR.wf hR.symm hR.zero c2 c5 el
  have h0 := initial_nonneg nkk hR.wf.1 el
  rcases h with h | ⟨rest, h⟩
  · rw [h] at ok
    have ok' : Mid (jdm_class nkk) (tableV nkk) (initial_build nkk el) b := ok
    exact ⟨ok'.inv, by rw [ok'.total, initial_total],
      ok'.nonneg h0 (fun d => by rw [hdem d])⟩
  · rw [h] at ok
    have ok' : Step (jdm_class nkk) (tableV nkk) (tableW nkk) (initial_build nkk el) b := ok
    exact ⟨ok'.inv, by rw [ok'.total, initial_total],
      ok'.nonneg h0 (fun d => by rw [hdem d])⟩

/-- The neighbour switch makes no residual negative: it takes a stub only from a
vertex that has one. -/
theorem neighbor_switch_nonneg (g : FastGraph) (hr : ResSized g) (hnn : ResNonneg g)
    (w : Nat) (hw : w < g.total_nodes) (nl : List Nat) (hnl : ∀ u ∈ nl, u < g.total_nodes)
    (avoid : Option Nat) : ResNonneg (neighbor_switch g w nl avoid) := by
  rcases neighbor_switch_cases g w nl avoid with ⟨e, -⟩ | ⟨w', t, h1, h2, e⟩
  · rw [e]; exact hnn
  · rw [e]
    exact resNonneg_switch g hr hnn w w' t (switch_ok_of_found g w nl avoid hw hnl w' t h1 h2)
      (switch_w_prime_some g nl avoid w' h1).2.1

/-! ## Reading the written edge list back (`compare_jdm.c` 85-162) -/

theorem read_fold_edges (L : List (Nat × Nat)) :
    ∀ (m : Int) (es : List (Nat × Nat)), (∀ e ∈ L, e.1 ≤ e.2) → (es ++ L).Nodup →
      (L.foldl read_record (m, es)).2 = es ++ L := by
  induction L with
  | nil => intro m es _ _; simp
  | cons a rest ih =>
    intro m es hle hnd
    rw [List.foldl_cons]
    have ha : a.1 ≤ a.2 := hle a (List.mem_cons_self _ _)
    have hnot : a ∉ es := by
      intro hin
      have := (List.nodup_append.1 hnd).2.2
      exact this hin (List.mem_cons_self _ _)
    have e1 : read_record (m, es) a =
        ((read_record (m, es) a).1, es ++ [a]) := by
      unfold read_record edge_set_replace
      simp only [if_neg (Nat.not_lt.2 ha), if_neg hnot]
    rw [e1, ih _ (es ++ [a]) (fun e he => hle e (List.mem_cons_of_mem _ he))
      (by simpa using hnd)]
    simp

theorem read_fold_max (L : List (Nat × Nat)) :
    ∀ (m : Int) (es : List (Nat × Nat)),
      m ≤ (L.foldl read_record (m, es)).1 ∧
      (∀ e ∈ L, (e.1 : Int) ≤ (L.foldl read_record (m, es)).1 ∧
        (e.2 : Int) ≤ (L.foldl read_record (m, es)).1) ∧
      ((L.foldl read_record (m, es)).1 = m ∨
        ∃ e ∈ L, (L.foldl read_record (m, es)).1 = (e.1 : Int) ∨
          (L.foldl read_record (m, es)).1 = (e.2 : Int)) := by
  induction L with
  | nil => intro m es; simp
  | cons a rest ih =>
    intro m es
    rw [List.foldl_cons]
    obtain ⟨i1, i2, i3⟩ := ih (read_record (m, es) a).1 (read_record (m, es) a).2
    have hstep : m ≤ (read_record (m, es) a).1 ∧ (a.1 : Int) ≤ (read_record (m, es) a).1 ∧
        (a.2 : Int) ≤ (read_record (m, es) a).1 ∧
        ((read_record (m, es) a).1 = m ∨ (read_record (m, es) a).1 = (a.1 : Int) ∨
          (read_record (m, es) a).1 = (a.2 : Int)) := by
      unfold read_record
      simp only
      split_ifs <;> omega
    obtain ⟨s1, s2, s3, s4⟩ := hstep
    refine ⟨le_trans s1 i1, ?_, ?_⟩
    · intro e he
      rcases List.mem_cons.1 he with h | h
      · subst h
        exact ⟨le_trans s2 i1, le_trans s3 i1⟩
      · exact i2 e h
    · rcases i3 with h | ⟨e, he, h⟩
      · rcases s4 with h' | h' | h'
        · left; rw [h, h']
        · right; exact ⟨a, List.mem_cons_self _ _, Or.inl (by rw [h, h'])⟩
        · right; exact ⟨a, List.mem_cons_self _ _, Or.inr (by rw [h, h'])⟩
      · right; exact ⟨e, List.mem_cons_of_mem _ he, h⟩

/-- The records of `write_graph`: the pairs `u < v` with an edge. -/
theorem mem_write_graph_iff (g : FastGraph) (x y : Nat) :
    (x, y) ∈ write_graph g ↔ x < y ∧ y < g.total_nodes ∧ fastgraph_has_edge g x y ≠ 0 := by
  unfold write_graph write_graph_row
  simp only [List.mem_flatMap, List.mem_range, List.mem_map, List.mem_filter,
    List.mem_range'_1, decide_eq_true_eq, Prod.mk.injEq]
  constructor
  · rintro ⟨u, hu, v, ⟨⟨h1, h2⟩, h3⟩, rfl, rfl⟩
    exact ⟨by omega, by omega, h3⟩
  · rintro ⟨h1, h2, h3⟩
    exact ⟨x, by omega, y, ⟨⟨by omega, by omega⟩, h3⟩, rfl, rfl⟩

/-- No record is written twice. -/
theorem write_graph_nodup (g : FastGraph) : (write_graph g).Nodup := by
  unfold write_graph
  rw [List.nodup_flatMap]
  constructor
  · intro u _
    unfold write_graph_row
    apply List.Nodup.map
    · intro a b h
      exact (Prod.mk.inj h).2
    · exact List.Nodup.filter _ (List.nodup_range' _ _)
  · apply List.Pairwise.imp _ (List.nodup_range g.total_nodes)
    intro a b hab
    simp only [Function.onFun]
    rw [List.disjoint_left]
    intro e h1 h2
    unfold write_graph_row at h1 h2
    simp only [List.mem_map] at h1 h2
    obtain ⟨_, _, rfl⟩ := h1
    obtain ⟨_, _, h⟩ := h2
    exact hab (Prod.mk.inj h).1.symm

/-- What `build_igraph_from_edgelist` makes of the records of `write_graph`. -/
theorem roundtrip_edges (g : FastGraph) :
    (build_igraph_from_edgelist (write_graph g)).edges = write_graph g := by
  unfold build_igraph_from_edgelist
  simp only
  rw [read_fold_edges (write_graph g) (-1) []
    (fun e he => Nat.le_of_lt (mem_write_graph g e he).1)
    (by rw [List.nil_append]; exact write_graph_nodup g)]
  rfl

theorem roundtrip_vcount (g : FastGraph) :
    (build_igraph_from_edgelist (write_graph g)).vcount ≤ g.total_nodes ∧
    (∀ e ∈ write_graph g, e.1 < (build_igraph_from_edgelist (write_graph g)).vcount ∧
      e.2 < (build_igraph_from_edgelist (write_graph g)).vcount) ∧
    (0 < (build_igraph_from_edgelist (write_graph g)).vcount →
      ∃ e ∈ write_graph g,
        (build_igraph_from_edgelist (write_graph g)).vcount - 1 = e.1 ∨
        (build_igraph_from_edgelist (write_graph g)).vcount - 1 = e.2) := by
  obtain ⟨m1, m2, m3⟩ := read_fold_max (write_graph g) (-1) []
  unfold build_igraph_from_edgelist
  simp only
  refine ⟨?_, ?_, ?_⟩
  · rcases m3 with h | ⟨e, he, h⟩
    · rw [h]; simp
    · have := mem_write_graph g e he
      rcases h with h | h <;> rw [h] <;> omega
  · intro e he
    have := m2 e he
    omega
  · intro hpos
    rcases m3 with h | ⟨e, he, h⟩
    · rw [h] at hpos; simp at hpos
    · refine ⟨e, he, ?_⟩
      rcases h with h | h
      · left; rw [h]; omega
      · right; rw [h]; omega

/-! ## The mutator keeps the matrix a valid JDM -/

theorem sample_sampled_aux (J : Matrix) (n : Nat) :
    ∀ (N : Nat) (rs : List Nat), rs.length ≤ N → ∀ (first : Option (Nat × Nat)),
      (∀ p, first = some p → p.1 < p.2 ∧ p.2 < n) →
      ∀ s rest, sample J n rs first = .got s rest → s.Sampled J n := by
  intro N
  induction N with
  | zero =>
    intro rs hlen first _ s rest h
    have : rs = [] := List.eq_nil_of_length_eq_zero (by omega)
    subst this
    simp [sample] at h
  | succ N ih =>
    intro rs hlen first hf s rest h
    rcases rs with _ | ⟨r1, _ | ⟨r2, rs'⟩⟩
    · simp [sample] at h
    · simp [sample] at h
    · have hlen' : rs'.length ≤ N := by simp at hlen; omega
      cases first with
      | none =>
        simp only [sample] at h
        by_cases hn : n - 1 = 0
        · rw [if_pos hn] at h; cases h
        · rw [if_neg hn] at h
          have hb := draw_pair_lt n r1 r2 hn
          split at h
          · exact ih rs' hlen' none (fun p hp => by cases hp) s rest h
          · exact ih rs' hlen' _ (fun p hp => by
              cases hp
              exact ⟨by simp only; omega, hb.2⟩) s rest h
      | some p =>
        obtain ⟨i1, j1⟩ := p
        have hp := hf (i1, j1) rfl
        simp only at hp
        simp only [sample] at h
        by_cases hn : n - 1 = 0
        · rw [if_pos hn] at h; cases h
        · rw [if_neg hn] at h
          have hb := draw_pair_lt n r1 r2 hn
          split at h
          · exact ih rs' hlen' _ hf s rest h
          · rename_i hcond
            split at h
            · cases h
            · rename_i hzero
              split at h
              · exact ih rs' hlen' none (fun p hp => by cases hp) s rest h
              · rename_i hmax
                simp only [Drawn.got.injEq] at h
                obtain ⟨h1, -⟩ := h
                subst h1
                simp only [not_or, not_and] at hcond hzero
                exact ⟨hp.1, by simp only; omega, hp.2, hb.2, hcond.2.2.1, hcond.2.2.2.1,
                  hcond.2.2.2.2.1, hcond.2.2.2.2.2, hzero.1, hzero.2.2.1, rfl,
                  by simp only; omega⟩

theorem sample_sampled (J : Matrix) (n : Nat) (rs : List Nat) (s : Swap) (rest : List Nat)
    (h : sample J n rs none = .got s rest) : s.Sampled J n :=
  sample_sampled_aux J n rs.length rs (le_refl _) none (fun p hp => by cases hp) s rest h

/-- The magnitude `1 + rand() % max_k` lies in `[1, max_k]`. -/
theorem swap_size_bounds (r : Nat) (max_k : Int) (h : 1 ≤ max_k) :
    1 ≤ swap_size r max_k ∧ swap_size r max_k ≤ max_k := by
  unfold swap_size
  have h1 := Int.tmod_nonneg max_k (Int.ofNat_nonneg r)
  have h2 := Int.tmod_lt_of_pos (r : Int) (show 0 < max_k by omega)
  constructor <;> omega

/-- The bound `max_k` is the least of the two cells and the two headrooms. -/
theorem swap_bound_le (J : Matrix) (n i1 j1 i2 j2 : Nat) :
    swap_bound J n i1 j1 i2 j2 ≤ J_get J i1 j1 ∧
    swap_bound J n i1 j1 i2 j2 ≤ J_get J i2 j2 ∧
    (i1 ≠ j2 → swap_bound J n i1 j1 i2 j2 ≤
      (row_sum J n i1).tdiv i1 * (row_sum J n j2).tdiv j2 - J_get J i1 j2) ∧
    (i2 ≠ j1 → swap_bound J n i1 j1 i2 j2 ≤
      (row_sum J n i2).tdiv i2 * (row_sum J n j1).tdiv j1 - J_get J i2 j1) := by
  unfold swap_bound
  simp only
  refine ⟨?_, ?_, ?_, ?_⟩
  · split_ifs <;> omega
  · split_ifs <;> omega
  · intro h
    rw [if_pos h]
    split_ifs <;> omega
  · intro h
    rw [if_pos h]
    split_ifs <;> omega

/-- Cells after the two writes `J[p][q] += c; J[q][p] += c`. -/
theorem J_get_pair (J : Matrix) (n p q : Nat) (c : Int) (h : Square J n)
    (hp : p < n) (hq : q < n) (hpq : p ≠ q) (a b : Nat) :
    J_get (J_add (J_add J p q c) q p c) a b =
      J_get J a b + if (a = p ∧ b = q) ∨ (a = q ∧ b = p) then c else 0 := by
  rw [J_get_add _ n q p c (J_add_square J n p q c h) hq hp, J_get_add J n p q c h hp hq]
  by_cases h1 : a = p ∧ b = q
  · have h2 : ¬ (a = q ∧ b = p) := fun e => hpq (h1.1.symm.trans e.1)
    rw [if_pos h1, if_neg h2, if_pos (Or.inl h1)]; ring
  · by_cases h2 : a = q ∧ b = p
    · rw [if_neg h1, if_pos h2, if_pos (Or.inr h2)]; ring
    · rw [if_neg h1, if_neg h2, if_neg (by rintro (e | e) <;> contradiction)]; ring

/-- Cells after the swap of magnitude `k`. -/
theorem apply_swap_get (J : Matrix) (n : Nat) (s : Swap) (k : Int) (h : Square J n)
    (hs : s.Sampled J n) (a b : Nat) :
    J_get (apply_swap J s k) a b =
      J_get J a b
        + (if (a = s.i1 ∧ b = s.j1) ∨ (a = s.j1 ∧ b = s.i1) then -k else 0)
        + (if (a = s.i2 ∧ b = s.j2) ∨ (a = s.j2 ∧ b = s.i2) then -k else 0)
        + (if (a = s.i1 ∧ b = s.j2) ∨ (a = s.j2 ∧ b = s.i1) then k else 0)
        + (if (a = s.i2 ∧ b = s.j1) ∨ (a = s.j1 ∧ b = s.i2) then k else 0) := by
  have i1 : s.i1 < n := lt_trans hs.lt1 hs.j1_lt
  have i2 : s.i2 < n := lt_trans hs.lt2 hs.j2_lt
  have q1 := J_add_square _ n s.j1 s.i1 (-k) (J_add_square J n s.i1 s.j1 (-k) h)
  have q2 := J_add_square _ n s.j2 s.i2 (-k) (J_add_square _ n s.i2 s.j2 (-k) q1)
  have q3 := J_add_square _ n s.j2 s.i1 k (J_add_square _ n s.i1 s.j2 k q2)
  unfold apply_swap
  simp only
  rw [J_get_pair _ n s.i2 s.j1 k q3 i2 hs.j1_lt hs.ne_ij,
    J_get_pair _ n s.i1 s.j2 k q2 i1 hs.j2_lt (Ne.symm hs.ne_ji),
    J_get_pair _ n s.i2 s.j2 (-k) q1 i2 hs.j2_lt (Nat.ne_of_lt hs.lt2),
    J_get_pair J n s.i1 s.j1 (-k) h i1 hs.j1_lt (Nat.ne_of_lt hs.lt1)]

theorem row_sum_nonneg (J : Matrix) (n : Nat) (hnn : MNonneg J n) (r : Nat) (hr : r < n) :
    0 ≤ row_sum J n r := by
  rw [row_sum_eq]
  exact Finset.sum_nonneg (fun c hc => hnn r c hr (Finset.mem_range.1 hc))

theorem tdiv_mat_size (J : Matrix) (n : Nat) (hnn : MNonneg J n) (i : Nat) (hi : i < n)
    (h0 : i ≠ 0) : (row_sum J n i).tdiv i = mat_size J n i := by
  unfold mat_size
  rw [if_neg h0, Int.tdiv_eq_ediv (row_sum_nonneg J n hnn i hi) (Int.ofNat_nonneg i)]

theorem pair_comm (a b p q : Nat) :
    ((a = p ∧ b = q) ∨ (a = q ∧ b = p)) ↔ ((b = p ∧ a = q) ∨ (b = q ∧ a = p)) := by
  constructor
  · rintro (⟨x, y⟩ | ⟨x, y⟩)
    · exact Or.inr ⟨y, x⟩
    · exact Or.inl ⟨y, x⟩
  · rintro (⟨x, y⟩ | ⟨x, y⟩)
    · exact Or.inr ⟨y, x⟩
    · exact Or.inl ⟨y, x⟩

theorem swap_cell_nonneg (D1 D2 D3 D4 : Prop) [Decidable D1] [Decidable D2] [Decidable D3]
    [Decidable D4] (x k : Int) (hk : 0 ≤ k) (hx : 0 ≤ x) (h1 : D1 → k ≤ x) (h2 : D2 → k ≤ x)
    (h12 : ¬ (D1 ∧ D2)) :
    0 ≤ x + (if D1 then -k else 0) + (if D2 then -k else 0) + (if D3 then k else 0)
      + (if D4 then k else 0) := by
  have e3 : 0 ≤ (if D3 then k else 0) := by split <;> omega
  have e4 : 0 ≤ (if D4 then k else 0) := by split <;> omega
  by_cases c1 : D1
  · have c2 : ¬ D2 := fun c => h12 ⟨c1, c⟩
    have := h1 c1
    rw [if_pos c1, if_neg c2]; omega
  · by_cases c2 : D2
    · have := h2 c2
      rw [if_neg c1, if_pos c2]; omega
    · rw [if_neg c1, if_neg c2]; omega

theorem swap_cell_le (D1 D2 D3 D4 : Prop) [Decidable D1] [Decidable D2] [Decidable D3]
    [Decidable D4] (x k B : Int) (hk : 0 ≤ k) (hx : x ≤ B) (h3 : D3 → x + k ≤ B)
    (h4 : D4 → x + k ≤ B) (h34 : ¬ (D3 ∧ D4)) :
    x + (if D1 then -k else 0) + (if D2 then -k else 0) + (if D3 then k else 0)
      + (if D4 then k else 0) ≤ B := by
  have e1 : (if D1 then -k else 0) ≤ 0 := by split <;> omega
  have e2 : (if D2 then -k else 0) ≤ 0 := by split <;> omega
  by_cases c3 : D3
  · have c4 : ¬ D4 := fun c => h34 ⟨c3, c⟩
    have := h3 c3
    rw [if_pos c3, if_neg c4]; omega
  · by_cases c4 : D4
    · have := h4 c4
      rw [if_neg c3, if_pos c4]; omega
    · rw [if_neg c3, if_neg c4]; omega

theorem swap_cell_same (D1 D2 D3 D4 : Prop) [Decidable D1] [Decidable D2] [Decidable D3]
    [Decidable D4] (x k : Int) (h1 : ¬ D1) (h2 : ¬ D2) (h3 : ¬ D3) (h4 : ¬ D4) :
    x + (if D1 then -k else 0) + (if D2 then -k else 0) + (if D3 then k else 0)
      + (if D4 then k else 0) = x := by
  rw [if_neg h1, if_neg h2, if_neg h3, if_neg h4]; omega

/-- One swap of a magnitude in `[1, max_k]` keeps the matrix symmetric,
non-negative and within conditions 2 to 5. -/
theorem apply_swap_valid (J : Matrix) (n : Nat) (s : Swap) (k : Int) (hsq : Square J n)
    (hsym : MSymm J n) (hnn : MNonneg J n) (hv : MValid J n) (hs : s.Sampled J n)
    (hk1 : 1 ≤ k) (hk2 : k ≤ s.max_k) :
    MSymm (apply_swap J s k) n ∧ MNonneg (apply_swap J s k) n ∧
      MValid (apply_swap J s k) n := by
  have i1 : s.i1 < n := lt_trans hs.lt1 hs.j1_lt
  have i2 : s.i2 < n := lt_trans hs.lt2 hs.j2_lt
  have hrow : ∀ r, row_sum (apply_swap J s k) n r = row_sum J n r :=
    apply_swap_row_sum J n s k hsq ⟨i1, hs.j1_lt, i2, hs.j2_lt⟩
  have hsize : ∀ r, mat_size (apply_swap J s k) n r = mat_size J n r := by
    intro r; unfold mat_size; rw [hrow]
  obtain ⟨b1, b2, b3, b4⟩ := swap_bound_le J n s.i1 s.j1 s.i2 s.j2
  rw [← hs.bound] at b1 b2 b3 b4
  have b3' := b3 (Ne.symm hs.ne_ji)
  have b4' := b4 hs.ne_ij
  have j1pos : s.j1 ≠ 0 := by have := hs.lt1; omega
  have j2pos : s.j2 ≠ 0 := by have := hs.lt2; omega
  rw [tdiv_mat_size J n hnn s.i1 i1 hs.pos1, tdiv_mat_size J n hnn s.j2 hs.j2_lt j2pos] at b3'
  rw [tdiv_mat_size J n hnn s.i2 i2 hs.pos2, tdiv_mat_size J n hnn s.j1 hs.j1_lt j1pos] at b4'
  have hk0 : 0 ≤ k := by omega
  have f1 : ∀ a b, (a = s.i1 ∧ b = s.j1) ∨ (a = s.j1 ∧ b = s.i1) → k ≤ J_get J a b := by
    rintro a b (⟨rfl, rfl⟩ | ⟨rfl, rfl⟩)
    · omega
    · rw [hsym _ _ hs.j1_lt i1]; omega
  have f2 : ∀ a b, (a = s.i2 ∧ b = s.j2) ∨ (a = s.j2 ∧ b = s.i2) → k ≤ J_get J a b := by
    rintro a b (⟨rfl, rfl⟩ | ⟨rfl, rfl⟩)
    · omega
    · rw [hsym _ _ hs.j2_lt i2]; omega
  have f3 : ∀ a b, (a = s.i1 ∧ b = s.j2) ∨ (a = s.j2 ∧ b = s.i1) →
      J_get J a b + k ≤ mat_size J n a * mat_size J n b := by
    rintro a b (⟨rfl, rfl⟩ | ⟨rfl, rfl⟩)
    · omega
    · rw [hsym _ _ hs.j2_lt i1, mul_comm]; omega
  have f4 : ∀ a b, (a = s.i2 ∧ b = s.j1) ∨ (a = s.j1 ∧ b = s.i2) →
      J_get J a b + k ≤ mat_size J n a * mat_size J n b := by
    rintro a b (⟨rfl, rfl⟩ | ⟨rfl, rfl⟩)
    · omega
    · rw [hsym _ _ hs.j1_lt i2, mul_comm]; omega
  have x12 : ∀ a b, ¬ (((a = s.i1 ∧ b = s.j1) ∨ (a = s.j1 ∧ b = s.i1)) ∧
      ((a = s.i2 ∧ b = s.j2) ∨ (a = s.j2 ∧ b = s.i2))) := by
    rintro a b ⟨⟨p, q⟩ | ⟨p, q⟩, ⟨p', q'⟩ | ⟨p', q'⟩⟩
    · exact hs.ne_ii (p'.symm.trans p)
    · exact hs.ne_ji (p'.symm.trans p)
    · exact hs.ne_ij (p'.symm.trans p)
    · exact hs.ne_jj (p'.symm.trans p)
  have x34 : ∀ a b, ¬ (((a = s.i1 ∧ b = s.j2) ∨ (a = s.j2 ∧ b = s.i1)) ∧
      ((a = s.i2 ∧ b = s.j1) ∨ (a = s.j1 ∧ b = s.i2))) := by
    rintro a b ⟨⟨p, q⟩ | ⟨p, q⟩, ⟨p', q'⟩ | ⟨p', q'⟩⟩
    · exact hs.ne_ii (p'.symm.trans p)
    · exact absurd (p.symm.trans p') (Nat.ne_of_lt hs.lt1)
    · exact absurd (p'.symm.trans p) (Nat.ne_of_lt hs.lt2)
    · exact hs.ne_jj (p.symm.trans p')
  have diag : ∀ a p q : Nat, p ≠ q → ¬ ((a = p ∧ a = q) ∨ (a = q ∧ a = p)) := by
    rintro a p q hpq (⟨x, y⟩ | ⟨x, y⟩)
    · exact hpq (x.symm.trans y)
    · exact hpq (y.symm.trans x)
  have same : ∀ a, J_get (apply_swap J s k) a a = J_get J a a := by
    intro a
    rw [apply_swap_get J n s k hsq hs a a]
    exact swap_cell_same _ _ _ _ _ k (diag a _ _ (Nat.ne_of_lt hs.lt1))
      (diag a _ _ (Nat.ne_of_lt hs.lt2)) (diag a _ _ (Ne.symm hs.ne_ji))
      (diag a _ _ hs.ne_ij)
  refine ⟨?_, ?_, ⟨?_, ?_, ?_, ?_⟩⟩
  · intro a b ha hb
    rw [apply_swap_get J n s k hsq hs a b, apply_swap_get J n s k hsq hs b a, hsym a b ha hb,
      if_congr (pair_comm a b s.i1 s.j1) rfl rfl, if_congr (pair_comm a b s.i2 s.j2) rfl rfl,
      if_congr (pair_comm a b s.i1 s.j2) rfl rfl, if_congr (pair_comm a b s.i2 s.j1) rfl rfl]
  · intro a b ha hb
    rw [apply_swap_get J n s k hsq hs a b]
    exact swap_cell_nonneg _ _ _ _ _ k hk0 (hnn a b ha hb) (f1 a b) (f2 a b) (x12 a b)
  · intro r hr h0
    rw [hrow]; exact hv.c2 r hr h0
  · intro a b ha hb hab
    rw [hsize, hsize, apply_swap_get J n s k hsq hs a b]
    exact swap_cell_le _ _ _ _ _ k _ hk0 (hv.c3 a b ha hb hab) (f3 a b) (f4 a b) (x34 a b)
  · intro a ha
    rw [hsize, same a]; exact hv.c4 a ha
  · intro a ha
    rw [same a]; exact hv.c5 a ha

/-- Every state the mutation loop passes through or ends in is square,
symmetric, non-negative and within conditions 2 to 5, when the start is. -/
theorem mutate_valid (n : Nat) :
    ∀ (num_steps : Nat) (J0 : Matrix) (rs : List Nat), Square J0 n → MSymm J0 n →
      MNonneg J0 n → MValid J0 n →
      ∀ J, (mutate n num_steps J0 rs = .starved J ∨
          ∃ rest, mutate n num_steps J0 rs = .done J rest) →
        Square J n ∧ MSymm J n ∧ MNonneg J n ∧ MValid J n := by
  intro num_steps
  induction num_steps with
  | zero =>
    intro J0 rs h0 h1 h2 h3 J h
    simp only [mutate] at h
    rcases h with h | ⟨rest, h⟩
    · cases h
    · simp only [Run.done.injEq] at h
      rw [← h.1]
      exact ⟨h0, h1, h2, h3⟩
  | succ m ih =>
    intro J0 rs h0 h1 h2 h3 J h
    simp only [mutate] at h
    cases hs : sample J0 n rs none with
    | got s rest =>
      rw [hs] at h
      cases rest with
      | nil =>
        simp only at h
        rcases h with h | ⟨rest, h⟩
        · simp only [Run.starved.injEq] at h
          rw [← h]; exact ⟨h0, h1, h2, h3⟩
        · cases h
      | cons r rest' =>
        simp only at h
        have hsam := sample_sampled J0 n rs s _ hs
        have hk := swap_size_bounds r s.max_k hsam.max_pos
        have sq := apply_swap_square J0 n s (swap_size r s.max_k) h0
        obtain ⟨a1, a2, a3⟩ :=
          apply_swap_valid J0 n s (swap_size r s.max_k) h0 h1 h2 h3 hsam hk.1 hk.2
        exact ih _ rest' sq a1 a2 a3 J h
    | out =>
      rw [hs] at h
      simp only at h
      rcases h with h | ⟨rest, h⟩
      · simp only [Run.starved.injEq] at h
        rw [← h]; exact ⟨h0, h1, h2, h3⟩
      · cases h
    | fault =>
      rw [hs] at h
      simp only at h
      rcases h with h | ⟨rest, h⟩ <;> cases h

/-! ### The checker on the matrix -/

theorem matrix_jdm_wf (J : Matrix) (n : Nat) : Table.WF (matrix_jdm J n) := by
  unfold Table.WF matrix_jdm
  rw [List.map_map]
  have : (Prod.fst ∘ fun k => (k, matrix_row J n k)) = id := by
    funext k; rfl
  rw [this, List.map_id]
  exact List.nodup_range n

theorem mem_matrix_jdm (J : Matrix) (n : Nat) (r : Nat × Row) :
    r ∈ matrix_jdm J n ↔ ∃ k, k < n ∧ r = (k, matrix_row J n k) := by
  unfold matrix_jdm
  simp only [List.mem_map, List.mem_range]
  constructor
  · rintro ⟨k, hk, rfl⟩; exact ⟨k, hk, rfl⟩
  · rintro ⟨k, hk, rfl⟩; exact ⟨k, hk, rfl⟩

theorem mem_matrix_row (J : Matrix) (n k : Nat) (c : Nat × Nat) :
    c ∈ matrix_row J n k ↔ ∃ l, l < n ∧ c = (l, (J_get J k l).toNat) := by
  unfold matrix_row
  simp only [List.mem_map, List.mem_range]
  constructor
  · rintro ⟨l, hl, rfl⟩; exact ⟨l, hl, rfl⟩
  · rintro ⟨l, hl, rfl⟩; exact ⟨l, hl, rfl⟩

theorem matrix_row_total (J : Matrix) (n : Nat) (hnn : MNonneg J n) (k : Nat) (hk : k < n) :
    ((row_total (matrix_row J n k) : Nat) : Int) = row_sum J n k := by
  rw [row_total_eq_sum, row_sum_eq]
  unfold matrix_row
  rw [List.map_map]
  have : ((((List.range n).map (Prod.snd ∘ fun l => (l, (J_get J k l).toNat))).sum : Nat) : Int)
      = ((List.range n).map (fun l => ((J_get J k l).toNat : Int))).sum := by
    induction (List.range n) with
    | nil => simp
    | cons a rest ih => simp [ih]
  rw [this, sum_map_range]
  apply Finset.sum_congr rfl
  intro l hl
  exact Int.toNat_of_nonneg (hnn k l hk (Finset.mem_range.1 hl))

theorem matrix_class_size (J : Matrix) (n : Nat) (hnn : MNonneg J n) (k : Nat) (hk : k < n) :
    ((class_size (matrix_jdm J n) k : Nat) : Int) = mat_size J n k := by
  have hm : (k, matrix_row J n k) ∈ matrix_jdm J n := (mem_matrix_jdm J n _).2 ⟨k, hk, rfl⟩
  rw [class_size_of_mem (matrix_jdm J n) (matrix_jdm_wf J n) _ hm]
  unfold row_size mat_size
  simp only
  by_cases h0 : k = 0
  · rw [if_neg (not_not.2 h0), if_pos h0, matrix_row_total J n hnn k hk]
  · rw [if_pos h0, if_neg h0, Int.ofNat_ediv, matrix_row_total J n hnn k hk]

/-- The table of a non-negative matrix satisfies conditions 2 to 5 exactly when
the cells of the matrix do. -/
theorem matrix_valid_iff (J : Matrix) (n : Nat) (hnn : MNonneg J n) :
    (Cond2 (matrix_jdm J n) ∧ Cond3 (matrix_jdm J n) ∧ Cond4 (matrix_jdm J n) ∧
      Cond5 (matrix_jdm J n)) ↔ MValid J n := by
  constructor
  · rintro ⟨c2, c3, c4, c5⟩
    refine ⟨?_, ?_, ?_, ?_⟩
    · intro k hk h0
      have := c2 (k, matrix_row J n k) ((mem_matrix_jdm J n _).2 ⟨k, hk, rfl⟩) h0
      simp only at this
      rw [← matrix_row_total J n hnn k hk, ← Int.ofNat_emod, this]
      rfl
    · intro k l hk hl hkl
      have := c3 (k, matrix_row J n k) ((mem_matrix_jdm J n _).2 ⟨k, hk, rfl⟩)
        (l, (J_get J k l).toNat) ((mem_matrix_row J n k _).2 ⟨l, hl, rfl⟩) hkl
      simp only at this
      rw [← matrix_class_size J n hnn k hk, ← matrix_class_size J n hnn l hl,
        ← Int.toNat_of_nonneg (hnn k l hk hl)]
      exact_mod_cast this
    · intro k hk
      have := c4 (k, matrix_row J n k) ((mem_matrix_jdm J n _).2 ⟨k, hk, rfl⟩)
        (k, (J_get J k k).toNat) ((mem_matrix_row J n k _).2 ⟨k, hk, rfl⟩) rfl
      simp only at this
      rw [matrix_class_size J n hnn k hk, Int.toNat_of_nonneg (hnn k k hk hk)] at this
      exact this
    · intro k hk
      have := c5 (k, matrix_row J n k) ((mem_matrix_jdm J n _).2 ⟨k, hk, rfl⟩)
        (k, (J_get J k k).toNat) ((mem_matrix_row J n k _).2 ⟨k, hk, rfl⟩) rfl
      simp only at this
      have h0 := hnn k k hk hk
      omega
  · intro hv
    refine ⟨?_, ?_, ?_, ?_⟩
    · intro r hr h0
      obtain ⟨k, hk, rfl⟩ := (mem_matrix_jdm J n r).1 hr
      simp only at h0 ⊢
      have := hv.c2 k hk h0
      rw [← matrix_row_total J n hnn k hk, ← Int.ofNat_emod] at this
      exact_mod_cast this
    · intro r hr c hc hne
      obtain ⟨k, hk, rfl⟩ := (mem_matrix_jdm J n r).1 hr
      obtain ⟨l, hl, rfl⟩ := (mem_matrix_row J n k c).1 hc
      simp only at hne ⊢
      have := hv.c3 k l hk hl hne
      rw [← matrix_class_size J n hnn k hk, ← matrix_class_size J n hnn l hl,
        ← Int.toNat_of_nonneg (hnn k l hk hl)] at this
      exact_mod_cast this
    · intro r hr c hc he
      obtain ⟨k, hk, rfl⟩ := (mem_matrix_jdm J n r).1 hr
      obtain ⟨l, hl, rfl⟩ := (mem_matrix_row J n k c).1 hc
      simp only at he ⊢
      subst he
      rw [matrix_class_size J n hnn k hk, Int.toNat_of_nonneg (hnn k k hk hk)]
      exact hv.c4 k hk
    · intro r hr c hc he
      obtain ⟨k, hk, rfl⟩ := (mem_matrix_jdm J n r).1 hr
      obtain ⟨l, hl, rfl⟩ := (mem_matrix_row J n k c).1 hc
      simp only at he ⊢
      subst he
      have := hv.c5 k hk
      have h0 := hnn k k hk hk
      omega

/-- Symmetry and non-negativity follow from the finitely many cells. -/
theorem matrix_of_cells (J : Matrix) (n : Nat)
    (h1 : ∀ a ∈ List.range n, ∀ b ∈ List.range n, J_get J a b = J_get J b a)
    (h2 : ∀ a ∈ List.range n, ∀ b ∈ List.range n, 0 ≤ J_get J a b) :
    MSymm J n ∧ MNonneg J n :=
  ⟨fun a b ha hb => h1 a (List.mem_range.2 ha) b (List.mem_range.2 hb),
    fun a b ha hb => h2 a (List.mem_range.2 ha) b (List.mem_range.2 hb)⟩

/-! ## More on the neighbour switch -/

/-- With `w' = w` step 2 finds nothing: every neighbour of `w` is adjacent to `w`. -/
theorem switch_t_self (g : FastGraph) (w : Nat) : switch_t g w w = none := by
  unfold switch_t
  rw [List.find?_eq_none]
  intro x hx
  have := ((mem_neighbors g w x).1 hx).2.1
  simp only [decide_eq_true_eq, not_and]
  intro _
  exact this

theorem pair_sum_filter (cls : Nat → Option Nat) (A B : Nat) (L : List (Nat × Nat)) :
    (L.map (fun e => clsW cls (pairW A B) e.1 e.2 + clsW cls (pairW A B) e.2 e.1)).sum =
      (if A = B then (2 : Int) else 1) *
        (((L.filter (fun e => decide ((cls e.1 = some A ∧ cls e.2 = some B) ∨
          (cls e.1 = some B ∧ cls e.2 = some A)))).length : Nat) : Int) := by
  induction L with
  | nil => simp
  | cons a rest ih =>
    rw [List.map_cons, List.sum_cons, ih]
    have term : clsW cls (pairW A B) a.1 a.2 + clsW cls (pairW A B) a.2 a.1 =
        (if A = B then (2 : Int) else 1) *
          (if (cls a.1 = some A ∧ cls a.2 = some B) ∨ (cls a.1 = some B ∧ cls a.2 = some A)
            then 1 else 0) := by
      unfold clsW pairW
      by_cases hAB : A = B
      · subst hAB
        by_cases h1 : cls a.1 = some A ∧ cls a.2 = some A
        · have h2 : cls a.2 = some A ∧ cls a.1 = some A := ⟨h1.2, h1.1⟩
          rw [if_pos h1, if_pos h2, if_pos rfl, if_pos (Or.inl h1)]; ring
        · have h2 : ¬ (cls a.2 = some A ∧ cls a.1 = some A) := fun e => h1 ⟨e.2, e.1⟩
          rw [if_neg h1, if_neg h2, if_pos rfl, if_neg (by rintro (e | e) <;> exact h1 e)]
          ring
      · rw [if_neg hAB]
        by_cases h1 : cls a.1 = some A ∧ cls a.2 = some B
        · have h2 : ¬ (cls a.2 = some A ∧ cls a.1 = some B) := by
            rintro ⟨e1, e2⟩
            rw [h1.1] at e2
            exact hAB (Option.some.inj e2)
          rw [if_pos h1, if_neg h2, if_pos (Or.inl h1)]; ring
        · by_cases h2 : cls a.2 = some A ∧ cls a.1 = some B
          · rw [if_neg h1, if_pos h2, if_pos (Or.inr ⟨h2.2, h2.1⟩)]; ring
          · rw [if_neg h1, if_neg h2, if_neg (by
              rintro (e | e)
              · exact h1 e
              · exact h2 ⟨e.2, e.1⟩)]
            ring
    rw [term]
    by_cases hp : (cls a.1 = some A ∧ cls a.2 = some B) ∨ (cls a.1 = some B ∧ cls a.2 = some A)
    · rw [if_pos hp, List.filter_cons_of_pos (by simpa using hp), List.length_cons]
      push_cast; ring
    · rw [if_neg hp, List.filter_cons_of_neg (by simpa using hp)]
      ring

/-- The class-level weighted count of the pair `(A,B)` counts the edges between
the two classes, twice on the diagonal. -/
theorem class_edges_wsum (cls : Nat → Option Nat) (g : FastGraph) (hg : Simple g) (A B : Nat) :
    wsum g (clsW cls (pairW A B)) =
      (if A = B then (2 : Int) else 1) * (class_edges cls g A B : Int) := by
  rw [← write_graph_wsum g hg (clsW cls (pairW A B))]
  exact pair_sum_filter cls A B (write_graph g)

/-- A neighbour switch within the class of `w` keeps every class-level weighted
count, on a simple graph. -/
theorem neighbor_switch_wsum (cls : Nat → Option Nat) (g : FastGraph) (hg : Simple g)
    (w : Nat) (hw : w < g.total_nodes) (nl : List Nat)
    (hnl : ∀ u ∈ nl, u < g.total_nodes ∧ cls u = cls w) (avoid : Option Nat)
    (f : Option Nat → Option Nat → Int) :
    Simple (neighbor_switch g w nl avoid) ∧
    wsum (neighbor_switch g w nl avoid) (clsW cls f) = wsum g (clsW cls f) := by
  rcases neighbor_switch_cases g w nl avoid with ⟨e, -⟩ | ⟨w', t, h1, h2, e⟩
  · rw [e]; exact ⟨hg, rfl⟩
  · rw [e]
    have ok := switch_ok_of_found g w nl avoid hw (fun u hu => (hnl u hu).1) w' t h1 h2
    have hc : cls w' = cls w := (hnl w' (switch_w_prime_some g nl avoid w' h1).1).2
    refine ⟨switch_apply_simple g hg w w' t ok, ?_⟩
    rw [switch_apply_wsum g hg w w' t ok]
    unfold clsW
    rw [hc]
    ring

/-- With `avoid = a` a stub of `a` survives the switch when `a` has one. -/
theorem neighbor_switch_avoid (g : FastGraph) (hr : ResSized g) (w : Nat)
    (hw : w < g.total_nodes) (nl : List Nat) (hnl : ∀ u ∈ nl, u < g.total_nodes) (a : Nat)
    (h : 1 ≤ res g a) : 1 ≤ res (neighbor_switch g w nl (some a)) a := by
  rcases neighbor_switch_cases g w nl (some a) with ⟨e, -⟩ | ⟨w', t, h1, h2, e⟩
  · rw [e]; exact h
  · rw [e]
    have ok := switch_ok_of_found g w nl (some a) hw hnl w' t h1 h2
    rw [switch_apply_res g w w' t hr ok.hw ok.hw' ok.hww' a]
    obtain ⟨-, -, hav⟩ := switch_w_prime_some g nl (some a) w' h1
    by_cases hwa : w' = a
    · have : ¬ res g a ≤ 1 := fun hle => hav a rfl hle hwa
      rw [if_pos hwa]
      split_ifs <;> omega
    · rw [if_neg hwa]
      split_ifs <;> omega

/-! ## One step of the mutator -/

theorem sample_cells_aux (J : Matrix) (n : Nat) :
    ∀ (N : Nat) (rs : List Nat), rs.length ≤ N → ∀ (first : Option (Nat × Nat)),
      (∀ p, first = some p → 2 ≤ J_get J p.1 p.2) →
      ∀ s rest, sample J n rs first = .got s rest →
        2 ≤ J_get J s.i1 s.j1 ∧ 2 ≤ J_get J s.i2 s.j2 := by
  intro N
  induction N with
  | zero =>
    intro rs hlen first _ s rest h
    have : rs = [] := List.eq_nil_of_length_eq_zero (by omega)
    subst this
    simp [sample] at h
  | succ N ih =>
    intro rs hlen first hf s rest h
    rcases rs with _ | ⟨r1, _ | ⟨r2, rs'⟩⟩
    · simp [sample] at h
    · simp [sample] at h
    · have hlen' : rs'.length ≤ N := by simp at hlen; omega
      cases first with
      | none =>
        simp only [sample] at h
        by_cases hn : n - 1 = 0
        · rw [if_pos hn] at h; cases h
        · rw [if_neg hn] at h
          split at h
          · exact ih rs' hlen' none (fun p hp => by cases hp) s rest h
          · rename_i hx
            exact ih rs' hlen' _ (fun p hp => by
              cases hp
              simp only
              omega) s rest h
      | some p =>
        obtain ⟨i1, j1⟩ := p
        have hp := hf (i1, j1) rfl
        simp only at hp
        simp only [sample] at h
        by_cases hn : n - 1 = 0
        · rw [if_pos hn] at h; cases h
        · rw [if_neg hn] at h
          split at h
          · exact ih rs' hlen' _ hf s rest h
          · rename_i hcond
            split at h
            · cases h
            · split at h
              · exact ih rs' hlen' none (fun p hp => by cases hp) s rest h
              · simp only [Drawn.got.injEq] at h
                obtain ⟨h1, -⟩ := h
                subst h1
                simp only [not_or] at hcond
                exact ⟨hp, by simp only; omega⟩

/-- Both cells of the swap the sampling loop returns hold at least 2. -/
theorem sample_cells (J : Matrix) (n : Nat) (rs : List Nat) (s : Swap) (rest : List Nat)
    (h : sample J n rs none = .got s rest) :
    2 ≤ J_get J s.i1 s.j1 ∧ 2 ≤ J_get J s.i2 s.j2 :=
  sample_cells_aux J n rs.length rs (le_refl _) none (fun p hp => by cases hp) s rest h

/-- The bound computed at lines 95-110 is the minimum the specification names. -/
theorem swap_bound_min (J : Matrix) (n i1 j1 i2 j2 : Nat) (h1 : i1 ≠ j2) (h2 : i2 ≠ j1) :
    swap_bound J n i1 j1 i2 j2 =
      min (min (min (J_get J i1 j1) (J_get J i2 j2))
        ((row_sum J n i1).tdiv i1 * (row_sum J n j2).tdiv j2 - J_get J i1 j2))
        ((row_sum J n i2).tdiv i2 * (row_sum J n j1).tdiv j1 - J_get J i2 j1) := by
  unfold swap_bound
  simp only [if_pos h1, if_pos h2]
  generalize (row_sum J n i1).tdiv i1 * (row_sum J n j2).tdiv j2 = c12
  generalize (row_sum J n i2).tdiv i2 * (row_sum J n j1).tdiv j1 = c21
  simp only [min_def]
  split_ifs <;> omega

theorem swap_cells_cases (D1 D2 D3 D4 : Prop) [Decidable D1] [Decidable D2] [Decidable D3]
    [Decidable D4] (x m : Int) (h12 : ¬ (D1 ∧ D2)) (h13 : ¬ (D1 ∧ D3)) (h14 : ¬ (D1 ∧ D4))
    (h23 : ¬ (D2 ∧ D3)) (h24 : ¬ (D2 ∧ D4)) (h34 : ¬ (D3 ∧ D4)) :
    x + (if D1 then -m else 0) + (if D2 then -m else 0) + (if D3 then m else 0)
      + (if D4 then m else 0) =
      if D1 ∨ D2 then x - m else if D3 ∨ D4 then x + m else x := by
  by_cases c1 : D1
  · have c2 : ¬ D2 := fun c => h12 ⟨c1, c⟩
    have c3 : ¬ D3 := fun c => h13 ⟨c1, c⟩
    have c4 : ¬ D4 := fun c => h14 ⟨c1, c⟩
    rw [if_pos c1, if_neg c2, if_neg c3, if_neg c4, if_pos (Or.inl c1)]; ring
  · by_cases c2 : D2
    · have c3 : ¬ D3 := fun c => h23 ⟨c2, c⟩
      have c4 : ¬ D4 := fun c => h24 ⟨c2, c⟩
      rw [if_neg c1, if_pos c2, if_neg c3, if_neg c4, if_pos (Or.inr c2)]; ring
    · have c12 : ¬ (D1 ∨ D2) := by rintro (c | c) <;> contradiction
      rw [if_neg c1, if_neg c2, if_neg c12]
      by_cases c3 : D3
      · have c4 : ¬ D4 := fun c => h34 ⟨c3, c⟩
        rw [if_pos c3, if_neg c4, if_pos (Or.inl c3)]; ring
      · by_cases c4 : D4
        · rw [if_neg c3, if_pos c4, if_pos (Or.inr c4)]; ring
        · have c34 : ¬ (D3 ∨ D4) := by rintro (c | c) <;> contradiction
          rw [if_neg c3, if_neg c4, if_neg c34]; ring

/-- The eight cells of a sampled swap are pairwise distinct and off the
diagonal. -/
theorem swap_cells_distinct (J : Matrix) (n : Nat) (s : Swap) (hs : s.Sampled J n) :
    [(s.i1, s.j1), (s.j1, s.i1), (s.i2, s.j2), (s.j2, s.i2),
      (s.i1, s.j2), (s.j2, s.i1), (s.i2, s.j1), (s.j1, s.i2)].Nodup ∧
    ∀ c ∈ [(s.i1, s.j1), (s.j1, s.i1), (s.i2, s.j2), (s.j2, s.i2),
      (s.i1, s.j2), (s.j2, s.i1), (s.i2, s.j1), (s.j1, s.i2)], c.1 ≠ c.2 := by
  have d1 := hs.lt1
  have d2 := hs.lt2
  have d3 := hs.ne_ii
  have d4 := hs.ne_ij
  have d5 := hs.ne_ji
  have d6 := hs.ne_jj
  constructor
  · simp only [List.nodup_cons, List.mem_cons, Prod.mk.injEq, List.mem_singleton,
      List.not_mem_nil, List.nodup_nil, or_false, and_true, true_and, not_false_eq_true]
    omega
  · intro c hc
    simp only [List.mem_cons, List.mem_singleton, List.not_mem_nil, or_false] at hc
    rcases hc with h | h | h | h | h | h | h | h <;> subst h <;> simp only <;> omega

/-- Cells after a sampled swap of magnitude `m`, by the kind of the cell. -/
theorem apply_swap_cells (J : Matrix) (n : Nat) (s : Swap) (m : Int) (h : Square J n)
    (hs : s.Sampled J n) (a b : Nat) :
    J_get (apply_swap J s m) a b =
      if (a, b) ∈ [(s.i1, s.j1), (s.j1, s.i1), (s.i2, s.j2), (s.j2, s.i2)] then
        J_get J a b - m
      else if (a, b) ∈ [(s.i1, s.j2), (s.j2, s.i1), (s.i2, s.j1), (s.j1, s.i2)] then
        J_get J a b + m
      else J_get J a b := by
  have d1 := hs.lt1
  have d2 := hs.lt2
  have d3 := hs.ne_ii
  have d4 := hs.ne_ij
  have d5 := hs.ne_ji
  have d6 := hs.ne_jj
  rw [apply_swap_get J n s m h hs a b,
    swap_cells_cases _ _ _ _ _ m (by omega) (by omega) (by omega) (by omega) (by omega)
      (by omega)]
  have e1 : (a, b) ∈ [(s.i1, s.j1), (s.j1, s.i1), (s.i2, s.j2), (s.j2, s.i2)] ↔
      (((a = s.i1 ∧ b = s.j1) ∨ (a = s.j1 ∧ b = s.i1)) ∨
        ((a = s.i2 ∧ b = s.j2) ∨ (a = s.j2 ∧ b = s.i2))) := by
    simp only [List.mem_cons, Prod.mk.injEq, List.mem_singleton, List.not_mem_nil, or_false,
      or_assoc]
  have e2 : (a, b) ∈ [(s.i1, s.j2), (s.j2, s.i1), (s.i2, s.j1), (s.j1, s.i2)] ↔
      (((a = s.i1 ∧ b = s.j2) ∨ (a = s.j2 ∧ b = s.i1)) ∨
        ((a = s.i2 ∧ b = s.j1) ∨ (a = s.j1 ∧ b = s.i2))) := by
    simp only [List.mem_cons, Prod.mk.injEq, List.mem_singleton, List.not_mem_nil, or_false,
      or_assoc]
  rw [if_congr e1 rfl (if_congr e2 rfl rfl)]

/-- A sampled swap keeps a symmetric matrix symmetric. -/
theorem apply_swap_symm (J : Matrix) (n : Nat) (s : Swap) (m : Int) (h : Square J n)
    (hs : s.Sampled J n) (hsym : MSymm J n) : MSymm (apply_swap J s m) n := by
  intro a b ha hb
  rw [apply_swap_get J n s m h hs a b, apply_swap_get J n s m h hs b a, hsym a b ha hb,
    if_congr (pair_comm a b s.i1 s.j1) rfl rfl, if_congr (pair_comm a b s.i2 s.j2) rfl rfl,
    if_congr (pair_comm a b s.i1 s.j2) rfl rfl, if_congr (pair_comm a b s.i2 s.j1) rfl rfl]

/-! ## The comparison `compare_jdms` -/

theorem compare_in_row_zero (map_in map_out : Row) :
    compare_in_row map_in map_out = 0 ↔ ∀ c ∈ map_in, c.2 = lookup_int map_out c.1 := by
  unfold compare_in_row
  rw [List.countP_eq_zero]
  constructor
  · intro h c hc
    have := h c hc
    simpa using this
  · intro h c hc
    simpa using h c hc

theorem compare_out_row_zero (map_in map_out : Row) :
    compare_out_row map_in map_out = 0 ↔ ∀ c ∈ map_out, lookup_int map_in c.1 ≠ 0 := by
  unfold compare_out_row
  rw [List.countP_eq_zero]
  constructor
  · intro h c hc
    have := h c hc
    simpa using this
  · intro h c hc
    simpa using h c hc

theorem compare_in_zero (nkk_out : JDM) (rows : List (Nat × Row)) :
    compare_in nkk_out rows = 0 ↔
      ∀ r ∈ rows, ∃ map_out, ht_lookup nkk_out r.1 = some map_out ∧
        ∀ c ∈ r.2, c.2 = lookup_int map_out c.1 := by
  induction rows with
  | nil => simp [compare_in]
  | cons p rest ih =>
    obtain ⟨k, map_in⟩ := p
    simp only [compare_in, Nat.add_eq_zero, ih, List.mem_cons, forall_eq_or_imp]
    refine and_congr ?_ Iff.rfl
    cases h : ht_lookup nkk_out k with
    | none => simp
    | some map_out => simp [compare_in_row_zero]

theorem compare_out_zero (nkk_in : JDM) (rows : List (Nat × Row)) :
    compare_out nkk_in rows = 0 ↔
      ∀ r ∈ rows, (ht_lookup nkk_in r.1 = none → r.2 = []) ∧
        ∀ map_in, ht_lookup nkk_in r.1 = some map_in →
          ∀ c ∈ r.2, lookup_int map_in c.1 ≠ 0 := by
  induction rows with
  | nil => simp [compare_out]
  | cons p rest ih =>
    obtain ⟨k, map_out⟩ := p
    simp only [compare_out, Nat.add_eq_zero, ih, List.mem_cons, forall_eq_or_imp]
    refine and_congr ?_ Iff.rfl
    cases h : ht_lookup nkk_in k with
    | none => simp
    | some map_in => simp [compare_out_row_zero]

theorem lookup_int_of_mem (t : Row) (hwf : Table.WF t) (c : Nat × Nat) (h : c ∈ t) :
    lookup_int t c.1 = c.2 := by
  unfold lookup_int
  rw [ht_lookup_of_mem t hwf c.1 c.2 h]
  rfl

theorem lookup_int_ne_zero (t : Row) (l : Nat) (h : lookup_int t l ≠ 0) :
    (l, lookup_int t l) ∈ t := by
  unfold lookup_int at h ⊢
  cases h' : ht_lookup t l with
  | none => simp [h'] at h
  | some v => exact ht_lookup_mem t l v h'

theorem jdm_cell_of_mem (nkk : JDM) (hwf : JDM.WF nkk) (r : Nat × Row) (hr : r ∈ nkk)
    (c : Nat × Nat) (hc : c ∈ r.2) : jdm_cell nkk r.1 c.1 = c.2 := by
  unfold jdm_cell
  rw [ht_lookup_of_mem nkk hwf.1 r.1 r.2 hr]
  exact lookup_int_of_mem r.2 (hwf.2 r hr) c hc

/-- A result 0 means that the two tables agree on every cell. -/
theorem compare_zero_cells (nkk_in nkk_out : JDM) (h : compare_jdms nkk_in nkk_out = 0)
    (k l : Nat) : jdm_cell nkk_in k l = jdm_cell nkk_out k l := by
  unfold compare_jdms at h
  obtain ⟨h1, h2⟩ := Nat.add_eq_zero.1 h
  rw [compare_in_zero] at h1
  rw [compare_out_zero] at h2
  unfold jdm_cell
  cases hin : ht_lookup nkk_in k with
  | none =>
    cases hout : ht_lookup nkk_out k with
    | none => rfl
    | some map_out =>
      have hm := ht_lookup_mem nkk_out k map_out hout
      have := (h2 (k, map_out) hm).1 hin
      simp only at this
      subst this
      rfl
  | some map_in =>
    have hm := ht_lookup_mem nkk_in k map_in hin
    obtain ⟨map_out, ho, hc⟩ := h1 (k, map_in) hm
    simp only at ho hc
    rw [ho]
    simp only
    cases hl : ht_lookup map_in l with
    | none =>
      have hz : lookup_int map_in l = 0 := by simp [lookup_int, hl]
      rw [hz]
      by_contra hne
      have hne' : lookup_int map_out l ≠ 0 := fun e => hne e.symm
      have hmem := lookup_int_ne_zero map_out l hne'
      have := (h2 (k, map_out) (ht_lookup_mem nkk_out k map_out ho)).2 map_in hin _ hmem
      exact this hz
    | some v =>
      have := hc (l, v) (ht_lookup_mem map_in l v hl)
      simp only at this
      simp [lookup_int, hl, this]

/-- The result is 0 exactly when the two tables agree on every cell, every row
of `nkk_in` has a row in `nkk_out`, and `nkk_out` stores no zero count. -/
theorem compare_zero_iff (nkk_in nkk_out : JDM) (hin : JDM.WF nkk_in) (hout : JDM.WF nkk_out) :
    compare_jdms nkk_in nkk_out = 0 ↔
      (∀ k l, jdm_cell nkk_in k l = jdm_cell nkk_out k l) ∧
      (∀ r ∈ nkk_in, (ht_lookup nkk_out r.1).isSome) ∧
      (∀ r ∈ nkk_out, ∀ c ∈ r.2, c.2 ≠ 0) := by
  constructor
  · intro h
    have hcells := compare_zero_cells nkk_in nkk_out h
    unfold compare_jdms at h
    obtain ⟨h1, h2⟩ := Nat.add_eq_zero.1 h
    rw [compare_in_zero] at h1
    rw [compare_out_zero] at h2
    refine ⟨hcells, ?_, ?_⟩
    · intro r hr
      obtain ⟨map_out, ho, -⟩ := h1 r hr
      rw [ho]; rfl
    · intro r hr c hc
      have e := jdm_cell_of_mem nkk_out hout r hr c hc
      rw [← hcells] at e
      cases hl : ht_lookup nkk_in r.1 with
      | none =>
        have := (h2 r hr).1 hl
        rw [this] at hc
        cases hc
      | some map_in =>
        have := (h2 r hr).2 map_in hl c hc
        simp only [jdm_cell, hl] at e
        rw [← e]
        exact this
  · rintro ⟨heq, hrows, hb⟩
    unfold compare_jdms
    rw [Nat.add_eq_zero, compare_in_zero, compare_out_zero]
    constructor
    · intro r hr
      cases ho : ht_lookup nkk_out r.1 with
      | none =>
        have := hrows r hr
        rw [ho] at this
        cases this
      | some map_out =>
        refine ⟨map_out, rfl, ?_⟩
        intro c hc
        have := heq r.1 c.1
        rw [jdm_cell_of_mem nkk_in hin r hr c hc] at this
        simpa only [jdm_cell, ho] using this
    · intro r hr
      constructor
      · intro hn
        cases hl : r.2 with
        | nil => rfl
        | cons c rest =>
          have hc : c ∈ r.2 := by rw [hl]; exact List.mem_cons_self _ _
          have := heq r.1 c.1
          rw [jdm_cell_of_mem nkk_out hout r hr c hc] at this
          simp only [jdm_cell, hn] at this
          exact absurd this.symm (hb r hr c hc)
      · intro map_in hm c hc
        have := heq r.1 c.1
        rw [jdm_cell_of_mem nkk_out hout r hr c hc] at this
        simp only [jdm_cell, hm] at this
        rw [this]
        exact hb r hr c hc

theorem ht_insert_mem {α : Type} (t : Table α) (k : Nat) (v : α) (p : Nat × α)
    (h : p ∈ ht_insert t k v) : p ∈ t ∨ p = (k, v) := by
  induction t with
  | nil =>
    simp only [ht_insert, List.mem_singleton] at h
    exact Or.inr h
  | cons q rest ih =>
    obtain ⟨k0, v0⟩ := q
    by_cases h0 : k0 = k
    · simp only [ht_insert, h0, if_true, List.mem_cons] at h
      rcases h with h | h
      · exact Or.inr h
      · exact Or.inl (List.mem_cons_of_mem _ h)
    · simp only [ht_insert, h0, if_false, List.mem_cons] at h
      rcases h with h | h
      · exact Or.inl (h ▸ List.mem_cons_self _ _)
      · rcases ih h with h | h
        · exact Or.inl (List.mem_cons_of_mem _ h)
        · exact Or.inr h

theorem ht_insert_keys {α : Type} (t : Table α) (k : Nat) (v : α) :
    (ht_insert t k v).map Prod.fst =
      if k ∈ t.map Prod.fst then t.map Prod.fst else t.map Prod.fst ++ [k] := by
  induction t with
  | nil => simp [ht_insert]
  | cons q rest ih =>
    obtain ⟨k0, v0⟩ := q
    by_cases h0 : k0 = k
    · simp [ht_insert, h0]
    · have h0' : ¬ k = k0 := fun e => h0 e.symm
      simp only [ht_insert, h0, if_false, List.map_cons, ih, List.mem_cons, h0', false_or]
      split_ifs <;> simp

theorem ht_insert_wf {α : Type} (t : Table α) (k : Nat) (v : α) (h : Table.WF t) :
    Table.WF (ht_insert t k v) := by
  unfold Table.WF at h ⊢
  rw [ht_insert_keys]
  split_ifs with hk
  · exact h
  · rw [List.nodup_append]
    refine ⟨h, List.nodup_singleton _, ?_⟩
    intro a ha hb
    simp only [List.mem_singleton] at hb
    subst hb
    exact hk ha

theorem jdm_increment_stored (J : JDM) (k l : Nat) (hwf : JDM.WF J)
    (hz : ∀ r ∈ J, ∀ c ∈ r.2, c.2 ≠ 0) :
    JDM.WF (jdm_increment J k l) ∧ ∀ r ∈ jdm_increment J k l, ∀ c ∈ r.2, c.2 ≠ 0 := by
  unfold jdm_increment
  have hrow : Table.WF ((ht_lookup J k).getD []) ∧
      ∀ c ∈ (ht_lookup J k).getD [], c.2 ≠ 0 := by
    cases hl : ht_lookup J k with
    | none => exact ⟨List.nodup_nil, by simp⟩
    | some m =>
      have hm := ht_lookup_mem J k m hl
      exact ⟨hwf.2 _ hm, hz _ hm⟩
  refine ⟨⟨ht_insert_wf _ _ _ hwf.1, ?_⟩, ?_⟩
  · intro r hr
    rcases ht_insert_mem _ _ _ _ hr with h | h
    · exact hwf.2 r h
    · subst h
      exact ht_insert_wf _ _ _ hrow.1
  · intro r hr c hc
    rcases ht_insert_mem _ _ _ _ hr with h | h
    · exact hz r h c hc
    · subst h
      rcases ht_insert_mem _ _ _ _ hc with h | h
      · exact hrow.2 c h
      · subst h
        exact Nat.succ_ne_zero _

theorem jdm_accumulate_stored (D : Nat → Nat) (es : List (Nat × Nat)) (J : JDM)
    (hwf : JDM.WF J) (hz : ∀ r ∈ J, ∀ c ∈ r.2, c.2 ≠ 0) :
    JDM.WF (jdm_accumulate D es J) ∧ ∀ r ∈ jdm_accumulate D es J, ∀ c ∈ r.2, c.2 ≠ 0 := by
  induction es generalizing J with
  | nil => exact ⟨hwf, hz⟩
  | cons e rest ih =>
    obtain ⟨u, v⟩ := e
    simp only [jdm_accumulate]
    obtain ⟨w1, z1⟩ := jdm_increment_stored J (D u) (D v) hwf hz
    obtain ⟨w2, z2⟩ := jdm_increment_stored _ (D v) (D u) w1 z1
    exact ih _ w2 z2

/-- The JDM recomputed from a graph has distinct keys and stores no zero. -/
theorem compute_jdm_stored (edges : List (Nat × Nat)) :
    JDM.WF (compute_jdm_from_igraph edges) ∧
      ∀ r ∈ compute_jdm_from_igraph edges, ∀ c ∈ r.2, c.2 ≠ 0 :=
  jdm_accumulate_stored _ edges [] ⟨List.nodup_nil, by simp⟩ (by simp)

/-! ## Edge totals and progress of the placement loop -/

/-- A starved placement loop stopped after fewer edges than it was to place. -/
theorem edge_loop_starved (cls : Nat → Option Nat) (n k l : Nat) (k_nodes l_nodes : List Nat)
    (hk : ClassList cls n k k_nodes) (hl : ClassList cls n l l_nodes) :
    ∀ (N : Nat) (rs : List Nat), rs.length ≤ N → ∀ (m : Nat) (b b' : Build),
      Inv cls b.g → b.g.total_nodes = n →
      edge_loop k l k_nodes l_nodes rs m b = .starved b' →
      ∃ j, j < m ∧ Inv cls b'.g ∧ b'.g.total_nodes = n ∧
        ∀ f, wsum b'.g (clsW cls f) = wsum b.g (clsW cls f) + cellW k l j f := by
  intro N
  induction N with
  | zero =>
    intro rs hlen m b b' hI hn h
    have : rs = [] := List.eq_nil_of_length_eq_zero (by omega)
    subst this
    cases m with
    | zero => simp [edge_loop] at h
    | succ m' =>
      simp only [edge_loop, Run.starved.injEq] at h
      subst h
      exact ⟨0, by omega, hI, hn, fun f => by simp [cellW]⟩
  | succ N ih =>
    intro rs hlen m b b' hI hn h
    cases m with
    | zero => simp [edge_loop] at h
    | succ m' =>
      rcases rs with _ | ⟨r1, _ | ⟨r2, rs'⟩⟩
      · simp only [edge_loop, Run.starved.injEq] at h
        subst h
        exact ⟨0, by omega, hI, hn, fun f => by simp [cellW]⟩
      · simp only [edge_loop, Run.starved.injEq] at h
        subst h
        exact ⟨0, by omega, hI, hn, fun f => by simp [cellW]⟩
      · have hlen' : rs'.length ≤ N := by simp at hlen; omega
        simp only [edge_loop] at h
        by_cases hz : k_nodes.length = 0 ∨ l_nodes.length = 0
        · rw [if_pos hz] at h; cases h
        · rw [if_neg hz] at h
          have hz1 : ¬ k_nodes.length = 0 := fun h => hz (Or.inl h)
          have hz2 : ¬ l_nodes.length = 0 := fun h => hz (Or.inr h)
          have hv := getD_mod_mem k_nodes r1 hz1
          have hw := getD_mod_mem l_nodes r2 hz2
          by_cases hvw : k_nodes.getD (r1 % k_nodes.length) 0
              = l_nodes.getD (r2 % l_nodes.length) 0
          · rw [if_pos hvw] at h
            exact ih rs' hlen' (m' + 1) b b' hI hn h
          · rw [if_neg hvw] at h
            by_cases hadj : fastgraph_has_edge b.g (k_nodes.getD (r1 % k_nodes.length) 0)
                (l_nodes.getD (r2 % l_nodes.length) 0) = 0
            · rw [if_pos hadj] at h
              have st := place_edge_step cls k l k_nodes l_nodes _ _ b hI
                (by rw [hn]; exact hk) (by rw [hn]; exact hl) hv hw hvw hadj
              obtain ⟨j, hj, a1, a2, a3⟩ :=
                ih rs' hlen' m' _ b' st.inv (by rw [st.total, hn]) h
              refine ⟨j + 1, by omega, a1, a2, fun f => ?_⟩
              rw [a3 f, st.wsum_eq f, ← cellW_succ k l j f]
              ring
            · rw [if_neg hadj] at h
              obtain ⟨j, hj, a⟩ := ih rs' hlen' (m' + 1) b b' hI hn h
              exact ⟨j, hj, a⟩

/-- When every pair of distinct vertices between the classes `k` and `l` is
adjacent, the ordered adjacent pairs between them number `n_k * n_l`, or
`n_k * (n_k - 1)` for `k = l`. -/
theorem full_pair_count (nkk : JDM) (hwf : Table.WF nkk) (g : FastGraph) (hg : Simple g)
    (hn : g.total_nodes = node_total nkk) (k l : Nat)
    (hfull : ∀ x y, x < g.total_nodes → y < g.total_nodes → jdm_class nkk x = some k →
      jdm_class nkk y = some l → x ≠ y → fastgraph_has_edge g x y ≠ 0) :
    wsum g (clsW (jdm_class nkk) (pairW k l)) =
      (class_size nkk k : Int) * ((class_size nkk l : Int) - if k = l then 1 else 0) := by
  unfold wsum clsW pairW
  have inner : ∀ x ∈ Finset.range g.total_nodes,
      (∑ y ∈ Finset.range g.total_nodes,
        ind g x y * (if jdm_class nkk x = some k ∧ jdm_class nkk y = some l then 1 else 0))
      = if jdm_class nkk x = some k then
          ((class_size nkk l : Int) - if k = l then 1 else 0) else 0 := by
    intro x hx
    have hx' := Finset.mem_range.1 hx
    by_cases hxk : jdm_class nkk x = some k
    · rw [if_pos hxk]
      have term : ∀ y ∈ Finset.range g.total_nodes,
          ind g x y * (if jdm_class nkk x = some k ∧ jdm_class nkk y = some l then 1 else 0)
          = (if jdm_class nkk y = some l then (1 : Int) else 0)
            - (if x = y then (if k = l then (1 : Int) else 0) else 0) := by
        intro y hy
        have hy' := Finset.mem_range.1 hy
        by_cases hyl : jdm_class nkk y = some l
        · by_cases hxy : x = y
          · subst hxy
            have hkl : k = l := by
              rw [hxk] at hyl; exact Option.some.inj hyl
            have : ind g x x = 0 := by
              unfold ind; rw [if_pos (hg.irrefl x hx')]
            rw [this]
            simp [hyl, hkl]
          · have : ind g x y = 1 := by
              unfold ind; rw [if_neg (hfull x y hx' hy' hxk hyl hxy)]
            rw [this]
            simp [hxk, hyl, hxy]
        · have hkl : x = y → ¬ k = l := by
            intro e1 e2
            subst e1
            subst e2
            exact hyl hxk
          by_cases hxy : x = y
          · simp [hyl, hxy, hkl hxy]
          · simp [hyl, hxy]
      rw [Finset.sum_congr rfl term, Finset.sum_sub_distrib, hn,
        class_count nkk hwf l 1, sum_point_left (node_total nkk) x (by rw [← hn]; exact hx')]
      ring
    · rw [if_neg hxk]
      apply Finset.sum_eq_zero
      intro y _
      simp [hxk]
  rw [Finset.sum_congr rfl inner, hn, class_count nkk hwf k]
  ring

theorem cellW_pair (k l j : Nat) :
    cellW k l j (pairW k l) = (j : Int) * (if k = l then 2 else 1) := by
  unfold cellW pairW
  by_cases h : k = l
  · subst h
    simp only [and_self, if_true]
    norm_num
  · have h' : ¬ l = k := fun e => h e.symm
    simp [h, h']

/-- Cells other than `(k,l)` add no edge between the classes `k` and `l`. -/
theorem rowW_other (k' : Nat) (cells : List (Nat × Nat)) (k l : Nat) (hkl : k ≥ l)
    (h : ∀ c ∈ cells, ¬ (k' = k ∧ c.1 = l)) : rowW k' cells (pairW k l) = 0 := by
  induction cells with
  | nil => simp [rowW]
  | cons c rest ih =>
    obtain ⟨l', v'⟩ := c
    simp only [rowW]
    rw [ih (fun c hc => h c (List.mem_cons_of_mem _ hc))]
    have hne := h (l', v') (List.mem_cons_self _ _)
    simp only at hne
    by_cases hc : v' > 0 ∧ k' ≥ l'
    · unfold cellW pairW
      simp only [Option.some.injEq]
      have n1 : ¬ (k' = k ∧ l' = l) := hne
      have n2 : ¬ (l' = k ∧ k' = l) := by
        intro e
        apply hne
        have := hc.2
        omega
      rw [if_neg n1, if_neg n2]
      simp
    · rw [cell_edges_pos k' l' v' hc]
      simp [cellW]

theorem tableW_other (rows : List (Nat × Row)) (k l : Nat) (hkl : k ≥ l)
    (h : ∀ r ∈ rows, ∀ c ∈ r.2, ¬ (r.1 = k ∧ c.1 = l)) : tableW rows (pairW k l) = 0 := by
  induction rows with
  | nil => simp [tableW]
  | cons r rest ih =>
    obtain ⟨k', inner⟩ := r
    simp only [tableW]
    rw [ih (fun r hr => h r (List.mem_cons_of_mem _ hr)),
      rowW_other k' inner k l hkl (h (k', inner) (List.mem_cons_self _ _))]
    rfl

/-! ## The sampling loop on a matrix whose row 0 holds no count of 2 or more -/

/-- A drawn pair whose cell holds 2 or more does not start in row 0. -/
theorem draw_pair_pos (J : Matrix) (n : Nat) (h0 : RowZeroLow J n) (r1 r2 : Nat)
    (hn : ¬ n - 1 = 0)
    (h : ¬ J_get J (r1 % (n - 1)) (r1 % (n - 1) + 1 + r2 % (n - r1 % (n - 1) - 1)) < 2) :
    r1 % (n - 1) ≠ 0 := by
  intro e
  have hb := (draw_pair_lt n r1 r2 hn).2
  rw [e] at h hb
  exact h (h0 _ hb)

theorem sample_no_fault_aux (J : Matrix) (n : Nat) (hn : 2 ≤ n) (h0 : RowZeroLow J n) :
    ∀ (N : Nat) (rs : List Nat), rs.length ≤ N → ∀ (first : Option (Nat × Nat)),
      (∀ p, first = some p → p.1 ≠ 0 ∧ p.1 < p.2) →
      sample J n rs first ≠ .fault := by
  intro N
  induction N with
  | zero =>
    intro rs hlen first _
    have : rs = [] := List.eq_nil_of_length_eq_zero (by omega)
    subst this
    cases first <;> simp [sample]
  | succ N ih =>
    intro rs hlen first hf
    rcases rs with _ | ⟨r1, _ | ⟨r2, rs'⟩⟩
    · cases first <;> simp [sample]
    · cases first <;> simp [sample]
    · have hlen' : rs'.length ≤ N := by simp at hlen; omega
      have hn' : ¬ n - 1 = 0 := by omega
      cases first with
      | none =>
        simp only [sample]
        rw [if_neg hn']
        split
        · exact ih rs' hlen' none (fun p hp => by cases hp)
        · rename_i hx
          exact ih rs' hlen' _ (fun p hp => by
            cases hp
            exact ⟨draw_pair_pos J n h0 r1 r2 hn' hx, by simp only; omega⟩)
      | some p =>
        obtain ⟨i1, j1⟩ := p
        have hp := hf (i1, j1) rfl
        simp only at hp
        simp only [sample]
        rw [if_neg hn']
        split
        · exact ih rs' hlen' _ hf
        · rename_i hcond
          simp only [not_or] at hcond
          have hi2 := draw_pair_pos J n h0 r1 r2 hn' hcond.1
          split
          · rename_i hzero
            exfalso
            omega
          · split
            · exact ih rs' hlen' none (fun p hp => by cases hp)
            · intro h; cases h

/-- With `n ≥ 2` and no count of 2 or more in row 0, the sampling loop takes no
remainder by zero and divides by no zero degree. -/
theorem sample_no_fault (J : Matrix) (n : Nat) (hn : 2 ≤ n) (h0 : RowZeroLow J n)
    (rs : List Nat) : sample J n rs none ≠ .fault :=
  sample_no_fault_aux J n hn h0 rs.length rs (le_refl _) none (fun p hp => by cases hp)

/-- A swap leaves row 0 as it was. -/
theorem apply_swap_row_zero (J : Matrix) (n : Nat) (s : Swap) (k : Int) (hsq : Square J n)
    (hs : s.Sampled J n) (c : Nat) : J_get (apply_swap J s k) 0 c = J_get J 0 c := by
  have d1 := hs.lt1
  have d2 := hs.lt2
  have d3 := hs.pos1
  have d4 := hs.pos2
  have m1 : (0, c) ∉ [(s.i1, s.j1), (s.j1, s.i1), (s.i2, s.j2), (s.j2, s.i2)] := by
    simp only [List.mem_cons, Prod.mk.injEq, List.mem_singleton, List.not_mem_nil, or_false]
    omega
  have m2 : (0, c) ∉ [(s.i1, s.j2), (s.j2, s.i1), (s.i2, s.j1), (s.j1, s.i2)] := by
    simp only [List.mem_cons, Prod.mk.injEq, List.mem_singleton, List.not_mem_nil, or_false]
    omega
  rw [apply_swap_cells J n s k hsq hs 0 c, if_neg m1, if_neg m2]

theorem apply_swap_low (J : Matrix) (n : Nat) (s : Swap) (k : Int) (hsq : Square J n)
    (hs : s.Sampled J n) (h0 : RowZeroLow J n) : RowZeroLow (apply_swap J s k) n := by
  intro c hc
  rw [apply_swap_row_zero J n s k hsq hs c]
  exact h0 c hc

/-- The mutation loop never faults from such a matrix, and every matrix it
reaches is again square with no count of 2 or more in row 0. -/
theorem mutate_safe (n : Nat) (hn : 2 ≤ n) :
    ∀ (num_steps : Nat) (J0 : Matrix) (rs : List Nat), Square J0 n → RowZeroLow J0 n →
      mutate n num_steps J0 rs ≠ .fault ∧
      ∀ J, (mutate n num_steps J0 rs = .starved J ∨
          ∃ rest, mutate n num_steps J0 rs = .done J rest) →
        Square J n ∧ RowZeroLow J n := by
  intro num_steps
  induction num_steps with
  | zero =>
    intro J0 rs hsq h0
    have e : mutate n 0 J0 rs = .done J0 rs := by simp only [mutate]
    rw [e]
    refine ⟨(fun h => by cases h), ?_⟩
    intro J h
    rcases h with h | ⟨rest, h⟩
    · cases h
    · simp only [Run.done.injEq] at h
      rw [← h.1]
      exact ⟨hsq, h0⟩
  | succ m ih =>
    intro J0 rs hsq h0
    have stop : mutate n (m + 1) J0 rs = .starved J0 →
        mutate n (m + 1) J0 rs ≠ .fault ∧
        ∀ J, (mutate n (m + 1) J0 rs = .starved J ∨
            ∃ rest, mutate n (m + 1) J0 rs = .done J rest) →
          Square J n ∧ RowZeroLow J n := by
      intro e
      rw [e]
      refine ⟨(fun h => by cases h), ?_⟩
      intro J h
      rcases h with h | ⟨rest, h⟩
      · simp only [Run.starved.injEq] at h
        rw [← h]; exact ⟨hsq, h0⟩
      · cases h
    cases hs : sample J0 n rs none with
    | got s rest =>
      cases rest with
      | nil => exact stop (by simp only [mutate, hs])
      | cons r rest' =>
        have e : mutate n (m + 1) J0 rs =
            mutate n m (apply_swap J0 s (swap_size r s.max_k)) rest' := by
          simp only [mutate, hs]
        rw [e]
        have hS := sample_sampled J0 n rs s _ hs
        exact ih _ rest' (apply_swap_square J0 n s _ hsq) (apply_swap_low J0 n s _ hsq hS h0)
    | out => exact stop (by simp only [mutate, hs])
    | fault => exact absurd hs (sample_no_fault J0 n hn h0 rs)

/-! ## Rows and cells of the JDM recomputed from an edge list -/

theorem row_total_insert (t : Row) (b v : Nat) :
    row_total (ht_insert t b v) + lookup_int t b = row_total t + v := by
  induction t with
  | nil => simp [ht_insert, row_total_eq_sum, lookup_int, ht_lookup]
  | cons p rest ih =>
    obtain ⟨k0, v0⟩ := p
    by_cases h : k0 = b
    · simp only [ht_insert, h, if_true, row_total_eq_sum, lookup_int, ht_lookup,
        List.map_cons, List.sum_cons, Option.getD_some]
      omega
    · have e : lookup_int ((k0, v0) :: rest) b = lookup_int rest b := by
        simp only [lookup_int, ht_lookup, h, if_false]
      rw [e]
      simp only [ht_insert, h, if_false]
      rw [row_total_eq_sum] at ih ⊢
      rw [row_total_eq_sum] at ih ⊢
      simp only [List.map_cons, List.sum_cons] at ih ⊢
      omega

theorem row_of_increment (J : JDM) (a b k : Nat) :
    row_of (jdm_increment J a b) k =
      if a = k then ht_insert (row_of J a) b (lookup_int (row_of J a) b + 1)
      else row_of J k := by
  unfold jdm_increment row_of
  simp only [ht_lookup_insert]
  by_cases h : a = k
  · simp [h]
  · simp [h]

theorem row_total_increment (J : JDM) (a b k : Nat) :
    row_total (row_of (jdm_increment J a b) k) =
      row_total (row_of J k) + (if a = k then 1 else 0) := by
  rw [row_of_increment]
  by_cases h : a = k
  · subst h
    simp only [if_true]
    have := row_total_insert (row_of J a) b (lookup_int (row_of J a) b + 1)
    omega
  · simp [h]

/-- The sum of row `k` after the edge loop: one for every end of an edge whose
degree is `k`. -/
theorem row_total_accumulate (D : Nat → Nat) (es : List (Nat × Nat)) (J : JDM) (k : Nat) :
    row_total (row_of (jdm_accumulate D es J) k) =
      row_total (row_of J k) +
        (es.map (fun e => (if D e.1 = k then 1 else 0) + (if D e.2 = k then 1 else 0))).sum := by
  induction es generalizing J with
  | nil => simp [jdm_accumulate]
  | cons p rest ih =>
    obtain ⟨u, v⟩ := p
    simp only [jdm_accumulate, List.map_cons, List.sum_cons]
    rw [ih, row_total_increment, row_total_increment]
    omega

/-- Without loops the igraph degree of `u` counts the edges that start at `u`
and the edges that end at `u`. -/
theorem igraph_degree_split (es : List (Nat × Nat)) (hl : ∀ e ∈ es, e.1 ≠ e.2) (u : Nat) :
    igraph_degree es u =
      es.countP (fun e => decide (e.1 = u)) + es.countP (fun e => decide (e.2 = u)) := by
  unfold igraph_degree
  induction es with
  | nil => simp
  | cons e rest ih =>
    have hne := hl e (List.mem_cons_self _ _)
    have ih' := ih (fun e he => hl e (List.mem_cons_of_mem _ he))
    simp only [List.countP_cons, ih', decide_eq_true_eq]
    by_cases h1 : e.1 = u
    · have h2 : ¬ e.2 = u := fun h => hne (h1.trans h.symm)
      rw [if_pos (⟨hne, Or.inl h1⟩ : e.1 ≠ e.2 ∧ (e.1 = u ∨ e.2 = u)), if_pos h1, if_neg h2]
      omega
    · by_cases h2 : e.2 = u
      · rw [if_pos (⟨hne, Or.inr h2⟩ : e.1 ≠ e.2 ∧ (e.1 = u ∨ e.2 = u)), if_neg h1, if_pos h2]
        omega
      · have h3 : ¬ (e.1 ≠ e.2 ∧ (e.1 = u ∨ e.2 = u)) := by
          rintro ⟨-, h | h⟩
          · exact h1 h
          · exact h2 h
        rw [if_neg h3, if_neg h1, if_neg h2]
        omega

theorem ends_count (D : Nat → Nat) (k n : Nat) (es : List (Nat × Nat))
    (hv : ∀ e ∈ es, e.1 < n ∧ e.2 < n) :
    (es.map (fun e => (if D e.1 = k then 1 else 0) + (if D e.2 = k then 1 else 0))).sum =
      ∑ u ∈ Finset.range n,
        if D u = k then
          es.countP (fun e => decide (e.1 = u)) + es.countP (fun e => decide (e.2 = u))
        else 0 := by
  induction es with
  | nil => simp
  | cons e rest ih =>
    have hb := hv e (List.mem_cons_self _ _)
    have ih' := ih (fun e he => hv e (List.mem_cons_of_mem _ he))
    have term : ∀ u ∈ Finset.range n,
        (if D u = k then
          (e :: rest).countP (fun e => decide (e.1 = u)) +
            (e :: rest).countP (fun e => decide (e.2 = u))
        else 0) =
        (if D u = k then
          rest.countP (fun e => decide (e.1 = u)) + rest.countP (fun e => decide (e.2 = u))
        else 0) + (if e.1 = u then (if D u = k then 1 else 0) else 0)
          + (if e.2 = u then (if D u = k then 1 else 0) else 0) := by
      intro u _
      simp only [List.countP_cons, decide_eq_true_eq]
      by_cases hd : D u = k
      · simp only [hd, if_true]
        omega
      · simp [hd]
    rw [Finset.sum_congr rfl term, Finset.sum_add_distrib, Finset.sum_add_distrib,
      Finset.sum_ite_eq, Finset.sum_ite_eq, ← ih']
    simp only [Finset.mem_range, hb.1, hb.2, if_true, List.map_cons, List.sum_cons]
    omega

theorem sum_range_countP (n k : Nat) (p : Nat → Prop) [DecidablePred p] :
    (∑ u ∈ Finset.range n, if p u then k else 0) =
      k * (List.range n).countP (fun u => decide (p u)) := by
  induction n with
  | zero => simp
  | succ m ih =>
    rw [Finset.sum_range_succ, ih, List.range_succ, List.countP_append]
    by_cases h : p m
    · simp [h, Nat.mul_add]
    · simp [h]

/-- The sum of row `k` of the JDM recomputed from a graph without loops on `n`
vertices is `k` times the number of vertices of degree `k`. -/
theorem recomputed_row_total (n : Nat) (edges : List (Nat × Nat))
    (hv : ∀ e ∈ edges, e.1 < n ∧ e.2 < n) (hl : ∀ e ∈ edges, e.1 ≠ e.2) (k : Nat) :
    row_total (row_of (compute_jdm_from_igraph edges) k) =
      k * (List.range n).countP (fun u => decide (igraph_degree edges u = k)) := by
  unfold compute_jdm_from_igraph
  rw [row_total_accumulate, ends_count (igraph_degree edges) k n edges hv,
    ← sum_range_countP n k (fun u => igraph_degree edges u = k)]
  have z : row_total (row_of ([] : JDM) k) = 0 := rfl
  rw [z, Nat.zero_add]
  apply Finset.sum_congr rfl
  intro u _
  by_cases h : igraph_degree edges u = k
  · rw [if_pos h, if_pos h, ← igraph_degree_split edges hl u, h]
  · rw [if_neg h, if_neg h]

theorem sum_ite_countP (es : List (Nat × Nat)) (p : Nat × Nat → Prop) [DecidablePred p] :
    (es.map (fun e => if p e then 1 else 0)).sum = es.countP (fun e => decide (p e)) := by
  induction es with
  | nil => simp
  | cons e rest ih =>
    simp only [List.map_cons, List.sum_cons, List.countP_cons, ih, decide_eq_true_eq]
    omega

/-- Cell `(a,b)` of the recomputed JDM as a sum over the edges. -/
theorem recomputed_cell_sum (edges : List (Nat × Nat)) (a b : Nat) :
    jdm_cell (compute_jdm_from_igraph edges) a b =
      (edges.map (fun e =>
        (if igraph_degree edges e.1 = a ∧ igraph_degree edges e.2 = b then 1 else 0)
          + (if igraph_degree edges e.2 = a ∧ igraph_degree edges e.1 = b then 1 else 0))).sum
    := by
  unfold compute_jdm_from_igraph
  rw [jdm_cell_accumulate]
  have z : jdm_cell ([] : JDM) a b = 0 := rfl
  rw [z, Nat.zero_add]

theorem recomputed_symm (edges : List (Nat × Nat)) (a b : Nat) :
    jdm_cell (compute_jdm_from_igraph edges) a b =
      jdm_cell (compute_jdm_from_igraph edges) b a := by
  rw [recomputed_cell_sum, recomputed_cell_sum]
  apply congrArg
  apply List.map_congr_left
  intro e _
  have c1 : (igraph_degree edges e.1 = b ∧ igraph_degree edges e.2 = a) ↔
      (igraph_degree edges e.2 = a ∧ igraph_degree edges e.1 = b) := And.comm
  have c2 : (igraph_degree edges e.2 = b ∧ igraph_degree edges e.1 = a) ↔
      (igraph_degree edges e.1 = a ∧ igraph_degree edges e.2 = b) := And.comm
  simp only [c1, c2]
  omega

theorem recomputed_diag (edges : List (Nat × Nat)) (k : Nat) :
    jdm_cell (compute_jdm_from_igraph edges) k k =
      2 * edges.countP (fun e =>
        decide (igraph_degree edges e.1 = k ∧ igraph_degree edges e.2 = k)) := by
  rw [recomputed_cell_sum,
    ← sum_ite_countP edges (fun e => igraph_degree edges e.1 = k ∧ igraph_degree edges e.2 = k),
    ← List.sum_map_mul_left]
  apply congrArg
  apply List.map_congr_left
  intro e _
  have c1 : (igraph_degree edges e.2 = k ∧ igraph_degree edges e.1 = k) ↔
      (igraph_degree edges e.1 = k ∧ igraph_degree edges e.2 = k) := And.comm
  simp only [c1]
  split_ifs <;> rfl

theorem recomputed_off_diag (edges : List (Nat × Nat)) (k l : Nat) (hkl : k ≠ l) :
    jdm_cell (compute_jdm_from_igraph edges) k l =
      edges.countP (fun e => decide
        ((igraph_degree edges e.1 = k ∧ igraph_degree edges e.2 = l) ∨
          (igraph_degree edges e.1 = l ∧ igraph_degree edges e.2 = k))) := by
  rw [recomputed_cell_sum,
    ← sum_ite_countP edges (fun e =>
      (igraph_degree edges e.1 = k ∧ igraph_degree edges e.2 = l) ∨
        (igraph_degree edges e.1 = l ∧ igraph_degree edges e.2 = k))]
  apply congrArg
  apply List.map_congr_left
  intro e _
  by_cases h1 : igraph_degree edges e.1 = k ∧ igraph_degree edges e.2 = l
  · have h2 : ¬ (igraph_degree edges e.2 = k ∧ igraph_degree edges e.1 = l) := by
      intro h
      exact hkl (h1.1.symm.trans h.2)
    rw [if_pos h1, if_neg h2, if_pos (Or.inl h1)]
  · by_cases h2 : igraph_degree edges e.2 = k ∧ igraph_degree edges e.1 = l
    · rw [if_neg h1, if_pos h2, if_pos (Or.inr ⟨h2.2, h2.1⟩)]
    · have h3 : ¬ ((igraph_degree edges e.1 = k ∧ igraph_degree edges e.2 = l) ∨
          (igraph_degree edges e.1 = l ∧ igraph_degree edges e.2 = k)) := by
        rintro (h | h)
        · exact h1 h
        · exact h2 ⟨h.2, h.1⟩
      rw [if_neg h1, if_neg h2, if_neg h3]

theorem row_of_mem (nkk : JDM) (hwf : Table.WF nkk) (r : Nat × Row) (h : r ∈ nkk) :
    row_of nkk r.1 = r.2 := by
  unfold row_of
  rw [ht_lookup_of_mem nkk hwf r.1 r.2 h]
  rfl

/-! ## The run without an adjacency matrix -/

/-- Step 1 or step 2 of `neighbor_switch` finding nothing leaves the graph as it
was, and the body of the realizer's loop places, records and counts the edge
`(v,w)` whether or not a repair was requested and failed. -/
theorem failed_repair_is_ignored (k l : Nat) (k_nodes l_nodes : List Nat) (v w : Nat)
    (b : Build) (hs : Sized b.g) (hv : v < b.g.total_nodes) (hw : w < b.g.total_nodes) :
    (∀ (g : FastGraph) (u : Nat) (nl : List Nat) (avoid : Option Nat),
      SwitchFails g u nl avoid → neighbor_switch g u nl avoid = g) ∧
    (b.g.node_residual.getD v 0 = 0 → SwitchFails b.g v k_nodes none →
      (repair_v k_nodes v b).g = b.g) ∧
    ((repair_v k_nodes v b).g.node_residual.getD w 0 = 0 →
      SwitchFails (repair_v k_nodes v b).g w (if k ≠ l then l_nodes else k_nodes)
        (if k ≠ l then none else some v) →
      (repair_w k l k_nodes l_nodes v w (repair_v k_nodes v b)).g = (repair_v k_nodes v b).g) ∧
    fastgraph_has_edge (place_edge k l k_nodes l_nodes v w b).g v w = 1 ∧
    (place_edge k l k_nodes l_nodes v w b).edge_list = b.edge_list ++ [v, w] ∧
    (place_edge k l k_nodes l_nodes v w b).E = b.E + 1 := by
  refine ⟨fun g u nl avoid hf => neighbor_switch_fail g u nl avoid hf, ?_, ?_,
    place_edge_commits k l k_nodes l_nodes v w b hs hv hw⟩
  · intro h0 hf
    rw [repair_v_g]
    unfold res
    rw [if_pos h0]
    exact neighbor_switch_fail b.g v k_nodes none hf
  · intro h0 hf
    rw [repair_w_g]
    unfold res
    rw [if_pos h0]
    by_cases hkl : k ≠ l
    · rw [if_pos hkl] at hf ⊢
      rw [if_pos hkl] at hf
      exact neighbor_switch_fail _ w l_nodes none hf
    · rw [if_neg hkl] at hf ⊢
      rw [if_neg hkl] at hf
      exact neighbor_switch_fail _ w k_nodes (some v) hf

/-- C6: a rejection under condition 2 always comes from a row of non-zero degree
whose sum the degree does not divide; the first pass records the raw row sum as
the size of class 0, whatever that sum is; and the JDM `0,1,2 / 1,1,0 / 1,0,2`
is accepted in each of its four iteration orders. -/
theorem C6_degree_zero_row :
    (∀ nkk : JDM, (is_valid_joint_degree nkk).printed = some 2 →
      ∃ r ∈ nkk, r.1 ≠ 0 ∧ row_total r.2 % r.1 ≠ 0) ∧
    (∀ (nkk : JDM) (nk : Table Nat) (inner : Row), Table.WF nkk →
      check_rows nkk [] = some nk → ht_lookup nkk 0 = some inner →
      ht_lookup nk 0 = some (row_total inner)) ∧
    (∀ inner : Row, check_rows [(0, inner)] [] = some [(0, row_total inner)]) ∧
    is_valid_joint_degree [(0, [(1, 2)]), (1, [(1, 0), (0, 2)])] = { ret := 1, printed := none } ∧
    is_valid_joint_degree [(0, [(1, 2)]), (1, [(0, 2), (1, 0)])] = { ret := 1, printed := none } ∧
    is_valid_joint_degree [(1, [(1, 0), (0, 2)]), (0, [(1, 2)])] = { ret := 1, printed := none } ∧
    is_valid_joint_degree [(1, [(0, 2), (1, 0)]), (0, [(1, 2)])] = { ret := 1, printed := none } := by
  refine ⟨?_, ?_, ?_, by decide, by decide, by decide, by decide⟩
  · intro nkk h
    cases h1 : check_rows nkk [] with
    | none =>
      have hn := (check_rows_none_iff nkk).1 h1
      unfold Cond2 at hn
      push_neg at hn
      exact hn
    | some nk =>
      exfalso
      cases h2 : check_table nk nkk with
      | none => rw [is_valid_of_table_none nkk nk h1 h2] at h; cases h
      | some c =>
        rw [is_valid_of_table_some nkk nk c h1 h2] at h
        simp only [Option.some.injEq] at h
        subst h
        obtain ⟨r, -, hr⟩ := check_table_some nk nkk 2 h2
        obtain ⟨x, -, hx⟩ := check_cells_some nk r.1 r.2 2 hr
        rcases hx with ⟨e, -⟩ | ⟨e, -⟩ | ⟨e, -⟩ <;> cases e
  · intro nkk nk inner hwf h1 h0
    rw [check_rows_lookup nkk [] nk hwf h1 0, h0]
    simp [row_size]
  · intro inner
    simp [check_rows, ht_insert]

/-- C7: every terminating run on the single line `1,1,2` ends with two vertices,
the one edge between vertex 0 and vertex 1, one edge counted and appended to the
edge list, no neighbour switch, and both residuals 0; `joint_degree_model` hands
back that graph. -/
theorem C7_single_edge (g0 : FastGraph) (el0 rs : List Nat) (b : Build) (rest : List Nat)
    (hrun : realize jdm_single_edge el0 rs = .done b rest) :
    b.g = { total_nodes := 2, adj_matrix := [0, 1, 1, 0], node_residual := [0, 0] } ∧
    b.E = 1 ∧ b.n_switches = 0 ∧
    (b.edge_list = el0 ++ [0, 1] ∨ b.edge_list = el0 ++ [1, 0]) ∧
    write_graph b.g = [(0, 1)] ∧
    joint_degree_model jdm_single_edge g0 el0 rs =
      .done ({ total_nodes := 2, adj_matrix := [0, 1, 1, 0], node_residual := [] },
        b.edge_list) rest := by
  rw [single_realize] at hrun
  obtain ⟨a1, a2, a3, a4⟩ := single_loop el0 rs.length rs (le_refl _) b rest hrun
  refine ⟨a1, a2, a3, a4, by rw [a1]; rfl, ?_⟩
  unfold joint_degree_model
  rw [if_neg (by decide),
    if_neg (by rw [fastgraph_init_fit g0 (node_total jdm_single_edge) (by decide)]; decide),
    single_realize, hrun]
  simp only [a1]

/-- C7 on the draws 0,1: the run terminates with the edge between 0 and 1. -/
theorem C7_witness :
    realize jdm_single_edge [] [0, 1] =
      .done { g := { total_nodes := 2, adj_matrix := [0, 1, 1, 0], node_residual := [0, 0] },
              edge_list := [0, 1], E := 1, n_switches := 0 } [] ∧
    joint_degree_model jdm_single_edge fresh_graph [] [0, 1] =
      .done ({ total_nodes := 2, adj_matrix := [0, 1, 1, 0], node_residual := [] }, [0, 1]) [] :=
  ⟨by decide,
    (C7_single_edge fresh_graph [] [0, 1]
      { g := { total_nodes := 2, adj_matrix := [0, 1, 1, 0], node_residual := [0, 0] },
        edge_list := [0, 1], E := 1, n_switches := 0 } [] (by decide)).2.2.2.2.2⟩

/-- C8: when `is_valid_joint_degree` rejects the JDM, `joint_degree_model`
returns with the FastGraph and the edge list exactly as passed in, and without
having drawn a random number. -/
theorem C8_rejected_builds_nothing (nkk : JDM) (g : FastGraph) (edge_list rs : List Nat)
    (hreject : (is_valid_joint_degree nkk).ret = 0) :
    joint_degree_model nkk g edge_list rs = .done (g, edge_list) rs := by
  unfold joint_degree_model
  rw [if_pos hreject]

/-- C8 on the single line `2,2,2`, which the checker rejects. -/
theorem C8_witness :
    (is_valid_joint_degree jdm_two_two).ret = 0 ∧
    joint_degree_model jdm_two_two fresh_graph [] [3, 1, 4] = .done (fresh_graph, []) [3, 1, 4] :=
  ⟨by decide, C8_rejected_builds_nothing jdm_two_two fresh_graph [] [3, 1, 4] (by decide)⟩

/-- C9 does not hold of the code: repair exhaustion is not fatal.  On the
accepted JDM `0,1,2 / 1,1,0 / 1,0,2`, in the state before the first edge, vertex
0 of class 0 is saturated and step 1 of `neighbor_switch` finds no `w'` for it;
the body of the loop run on the draw `v = 2`, `w = 0` still puts the edge
`(2,0)` into the matrix, and the run on the draws 0,0,0,1 goes on to place a
second edge and ends with a graph whose recomputed JDM differs from the target
in cell (1,1).  In general a call of `neighbor_switch` that finds no `w'` or no
`t` returns the graph as it was, and the body of the loop places, records and
counts the edge `(v,w)` all the same. -/
theorem C9_repair_failure_not_fatal :
    ((is_valid_joint_degree jdm_zero_row).ret = 1 ∧
      (initial_build jdm_zero_row []).g.node_residual.getD 0 0 = 0 ∧
      switch_w_prime (initial_build jdm_zero_row []).g [0, 1] none = none ∧
      fastgraph_has_edge (place_edge 1 0 [2, 3] [0, 1] 2 0 (initial_build jdm_zero_row [])).g 2 0
        = 1 ∧
      realize jdm_zero_row [] [0, 0, 0, 1] =
        .done { g := { total_nodes := 4,
                       adj_matrix := [0, 0, 0, 1, 0, 0, 1, 0, 0, 1, 0, 0, 1, 0, 0, 0],
                       node_residual := [-1, -1, 0, 0] },
                edge_list := [2, 0, 2, 1], E := 2, n_switches := 3 } [] ∧
      jdm_cell (compute_jdm_from_igraph (write_graph
        { total_nodes := 4,
          adj_matrix := [0, 0, 0, 1, 0, 0, 1, 0, 0, 1, 0, 0, 1, 0, 0, 0],
          node_residual := [-1, -1, 0, 0] })) 1 1 ≠ jdm_cell jdm_zero_row 1 1) ∧
    (∀ (g : FastGraph) (u : Nat) (nl : List Nat) (avoid : Option Nat),
      SwitchFails g u nl avoid → neighbor_switch g u nl avoid = g) ∧
    (∀ (k l : Nat) (k_nodes l_nodes : List Nat) (v w : Nat) (b : Build),
      Sized b.g → v < b.g.total_nodes → w < b.g.total_nodes →
      fastgraph_has_edge (place_edge k l k_nodes l_nodes v w b).g v w = 1 ∧
      (place_edge k l k_nodes l_nodes v w b).edge_list = b.edge_list ++ [v, w] ∧
      (place_edge k l k_nodes l_nodes v w b).E = b.E + 1) :=
  ⟨by decide, fun g u nl avoid hf => neighbor_switch_fail g u nl avoid hf,
    fun k l k_nodes l_nodes v w b hs hv hw =>
      place_edge_commits k l k_nodes l_nodes v w b hs hv hw⟩

/-- C10: for every square starting matrix, every step count and every sequence of
draws on which the mutation loop completes its steps, each row of the result has
the row sum of the same row of the start; symmetry and non-negativity of the
start are not needed. -/
theorem C10_row_sums_preserved (n num_steps : Nat) (J0 : Matrix) (rs : List Nat)
    (J : Matrix) (rest : List Nat) (hsq : Square J0 n)
    (hrun : mutate n num_steps J0 rs = .done J rest) (r : Nat) :
    row_sum J n r = row_sum J0 n r :=
  (mutate_row_sums n num_steps J0 rs hsq J (Or.inr ⟨rest, hrun⟩)).2 r

/-- C10 on a step that moves two units between four cells of a 5 x 5 matrix. -/
theorem C10_witness :
    Square (load_matrix mutator_entries) 5 ∧
    mutate 5 1 (load_matrix mutator_entries) [1, 0, 3, 0, 5] =
      .done [[0, 0, 0, 0, 0], [0, 4, 2, 0, 2], [0, 2, 8, 2, 0], [0, 0, 2, 8, 2],
        [0, 2, 0, 2, 12]] [] ∧
    row_sum [[0, 0, 0, 0, 0], [0, 4, 2, 0, 2], [0, 2, 8, 2, 0], [0, 0, 2, 8, 2],
        [0, 2, 0, 2, 12]] 5 1 = row_sum (load_matrix mutator_entries) 5 1 :=
  ⟨by decide, by decide,
    C10_row_sums_preserved 5 1 (load_matrix mutator_entries) [1, 0, 3, 0, 5] _ []
      (by decide) (by decide) 1⟩

/-- C11: for every square, symmetric, non-negative starting matrix whose table
of cells satisfies the conditions 2 to 5 (row sums divisible by the degree,
off-diagonal cells at most `n_k * n_l`, diagonal cells at most
`n_k * (n_k - 1)` and even), every step count and every sequence of draws on
which the mutation loop completes its steps, the resulting matrix is symmetric
and non-negative and its table of cells satisfies the conditions 2 to 5 again;
the checker `is_valid_joint_degree` then accepts that table whenever its caps
fit an `int`. -/
theorem C11_mutator_keeps_valid (n num_steps : Nat) (J0 : Matrix) (rs : List Nat)
    (J : Matrix) (rest : List Nat) (hsq : Square J0 n) (hsym : MSymm J0 n)
    (hnn : MNonneg J0 n)
    (hvalid : Cond2 (matrix_jdm J0 n) ∧ Cond3 (matrix_jdm J0 n) ∧ Cond4 (matrix_jdm J0 n) ∧
      Cond5 (matrix_jdm J0 n))
    (hrun : mutate n num_steps J0 rs = .done J rest) :
    MSymm J n ∧ MNonneg J n ∧
    (Cond2 (matrix_jdm J n) ∧ Cond3 (matrix_jdm J n) ∧ Cond4 (matrix_jdm J n) ∧
      Cond5 (matrix_jdm J n)) ∧
    (ProductsFit (matrix_jdm J n) → (is_valid_joint_degree (matrix_jdm J n)).ret = 1) := by
  obtain ⟨-, a1, a2, a3⟩ := mutate_valid n num_steps J0 rs hsq hsym hnn
    ((matrix_valid_iff J0 n hnn).1 hvalid) J (Or.inr ⟨rest, hrun⟩)
  exact ⟨a1, a2, (matrix_valid_iff J n a2).2 a3,
    fun hfit => (is_valid_iff_conds _ (matrix_jdm_wf J n) hfit).2 ((matrix_valid_iff J n a2).2 a3)⟩

/-- C11 on a step that moves two units between four cells of a 5 x 5 matrix: the
table of the matrix satisfies the conditions 2 to 5 before and after, and the
checker accepts it before and after. -/
theorem C11_witness :
    Square (load_matrix mutator_entries) 5 ∧
    (Cond2 (matrix_jdm (load_matrix mutator_entries) 5) ∧
      Cond3 (matrix_jdm (load_matrix mutator_entries) 5) ∧
      Cond4 (matrix_jdm (load_matrix mutator_entries) 5) ∧
      Cond5 (matrix_jdm (load_matrix mutator_entries) 5)) ∧
    (is_valid_joint_degree (matrix_jdm (load_matrix mutator_entries) 5)).ret = 1 ∧
    mutate 5 1 (load_matrix mutator_entries) [1, 0, 3, 0, 5] =
      .done [[0, 0, 0, 0, 0], [0, 4, 2, 0, 2], [0, 2, 8, 2, 0], [0, 0, 2, 8, 2],
        [0, 2, 0, 2, 12]] [] ∧
    (Cond2 (matrix_jdm [[0, 0, 0, 0, 0], [0, 4, 2, 0, 2], [0, 2, 8, 2, 0],
        [0, 0, 2, 8, 2], [0, 2, 0, 2, 12]] 5) ∧
      Cond3 (matrix_jdm [[0, 0, 0, 0, 0], [0, 4, 2, 0, 2], [0, 2, 8, 2, 0],
        [0, 0, 2, 8, 2], [0, 2, 0, 2, 12]] 5) ∧
      Cond4 (matrix_jdm [[0, 0, 0, 0, 0], [0, 4, 2, 0, 2], [0, 2, 8, 2, 0],
        [0, 0, 2, 8, 2], [0, 2, 0, 2, 12]] 5) ∧
      Cond5 (matrix_jdm [[0, 0, 0, 0, 0], [0, 4, 2, 0, 2], [0, 2, 8, 2, 0],
        [0, 0, 2, 8, 2], [0, 2, 0, 2, 12]] 5)) ∧
    (is_valid_joint_degree (matrix_jdm [[0, 0, 0, 0, 0], [0, 4, 2, 0, 2], [0, 2, 8, 2, 0],
      [0, 0, 2, 8, 2], [0, 2, 0, 2, 12]] 5)).ret = 1 :=
  ⟨by decide, by decide, by decide, by decide,
    (C11_mutator_keeps_valid 5 1 (load_matrix mutator_entries) [1, 0, 3, 0, 5]
      [[0, 0, 0, 0, 0], [0, 4, 2, 0, 2], [0, 2, 8, 2, 0], [0, 0, 2, 8, 2], [0, 2, 0, 2, 12]] []
      (by decide)
      (matrix_of_cells (load_matrix mutator_entries) 5 (by decide) (by decide)).1
      (matrix_of_cells (load_matrix mutator_entries) 5 (by decide) (by decide)).2
      (by decide) (by decide)).2.2.1,
    (C11_mutator_keeps_valid 5 1 (load_matrix mutator_entries) [1, 0, 3, 0, 5]
      [[0, 0, 0, 0, 0], [0, 4, 2, 0, 2], [0, 2, 8, 2, 0], [0, 0, 2, 8, 2], [0, 2, 0, 2, 12]] []
      (by decide)
      (matrix_of_cells (load_matrix mutator_entries) 5 (by decide) (by decide)).1
      (matrix_of_cells (load_matrix mutator_entries) 5 (by decide) (by decide)).2
      (by decide) (by decide)).2.2.2 (by decide)⟩

/-- C12 does not hold of the code: on the input `mutator_sparse`, one step with
the draws 1,0,3,0,5 moves two units into the cells `(1,4)` and `(2,3)`, which
the input does not list; the output repeats the keys of the input in their
order with the current counts, so it has no line for these cells, and loading
it gives a matrix with 0 there, different from the mutated matrix `J`, with row
sums that the checker rejects although it accepts those of the input. -/
theorem C12_output_drops_new_cells :
    mutate 5 1 (load_matrix mutator_sparse) [1, 0, 3, 0, 5] =
      .done [[0, 0, 0, 0, 0], [0, 4, 2, 0, 2], [0, 2, 8, 2, 0], [0, 0, 2, 8, 2],
        [0, 2, 0, 2, 12]] [] ∧
    jdm_mutate mutator_sparse 1 [1, 0, 3, 0, 5] =
      .done [⟨1, 2, 2⟩, ⟨2, 1, 2⟩, ⟨3, 4, 2⟩, ⟨4, 3, 2⟩, ⟨1, 1, 4⟩, ⟨2, 2, 8⟩, ⟨3, 3, 8⟩,
        ⟨4, 4, 12⟩] [] ∧
    load_matrix [⟨1, 2, 2⟩, ⟨2, 1, 2⟩, ⟨3, 4, 2⟩, ⟨4, 3, 2⟩, ⟨1, 1, 4⟩, ⟨2, 2, 8⟩, ⟨3, 3, 8⟩,
        ⟨4, 4, 12⟩] =
      [[0, 0, 0, 0, 0], [0, 4, 2, 0, 0], [0, 2, 8, 0, 0], [0, 0, 0, 8, 2], [0, 0, 0, 2, 12]] ∧
    load_matrix [⟨1, 2, 2⟩, ⟨2, 1, 2⟩, ⟨3, 4, 2⟩, ⟨4, 3, 2⟩, ⟨1, 1, 4⟩, ⟨2, 2, 8⟩, ⟨3, 3, 8⟩,
        ⟨4, 4, 12⟩] ≠
      [[0, 0, 0, 0, 0], [0, 4, 2, 0, 2], [0, 2, 8, 2, 0], [0, 0, 2, 8, 2], [0, 2, 0, 2, 12]] ∧
    (is_valid_joint_degree (matrix_jdm (load_matrix mutator_sparse) 5)).ret = 1 ∧
    is_valid_joint_degree (matrix_jdm
      [[0, 0, 0, 0, 0], [0, 4, 2, 0, 0], [0, 2, 8, 0, 0], [0, 0, 0, 8, 2], [0, 0, 0, 2, 12]] 5)
      = { ret := 0, printed := some 2 } := by
  decide

/-- C14: on a FastGraph with `n` vertices and `u, v < n`, after
`fastgraph_add_edge(u,v)` both `has_edge(u,v)` and `has_edge(v,u)` are 1, after
`fastgraph_remove_edge(u,v)` both are 0, every cell of another pair is unchanged
by either, so a symmetric relation stays symmetric, and removing an edge just
added to a store that lacked it gives the original store back. -/
theorem C14_edge_cells (g : FastGraph) (u v : Nat) (hs : Sized g)
    (hu : u < g.total_nodes) (hv : v < g.total_nodes) :
    (fastgraph_has_edge (fastgraph_add_edge g u v) u v = 1 ∧
      fastgraph_has_edge (fastgraph_add_edge g u v) v u = 1) ∧
    (fastgraph_has_edge (fastgraph_remove_edge g u v) u v = 0 ∧
      fastgraph_has_edge (fastgraph_remove_edge g u v) v u = 0) ∧
    (∀ x y, x < g.total_nodes → y < g.total_nodes → ¬ ((x = u ∧ y = v) ∨ (x = v ∧ y = u)) →
      fastgraph_has_edge (fastgraph_add_edge g u v) x y = fastgraph_has_edge g x y ∧
      fastgraph_has_edge (fastgraph_remove_edge g u v) x y = fastgraph_has_edge g x y) ∧
    ((∀ x y, x < g.total_nodes → y < g.total_nodes →
        fastgraph_has_edge g x y = fastgraph_has_edge g y x) →
      ∀ x y, x < g.total_nodes → y < g.total_nodes →
        fastgraph_has_edge (fastgraph_add_edge g u v) x y =
          fastgraph_has_edge (fastgraph_add_edge g u v) y x ∧
        fastgraph_has_edge (fastgraph_remove_edge g u v) x y =
          fastgraph_has_edge (fastgraph_remove_edge g u v) y x) ∧
    (fastgraph_has_edge g u v = 0 → fastgraph_has_edge g v u = 0 →
      fastgraph_remove_edge (fastgraph_add_edge g u v) u v = g) := by
  refine ⟨⟨?_, ?_⟩, ⟨?_, ?_⟩, ?_, ?_, ?_⟩
  · rw [has_edge_add g hs hu hv hu hv, if_pos (Or.inl ⟨rfl, rfl⟩)]
  · rw [has_edge_add g hs hu hv hv hu, if_pos (Or.inr ⟨rfl, rfl⟩)]
  · rw [has_edge_remove g hs hu hv hu hv, if_pos (Or.inl ⟨rfl, rfl⟩)]
  · rw [has_edge_remove g hs hu hv hv hu, if_pos (Or.inr ⟨rfl, rfl⟩)]
  · intro x y hx hy hne
    rw [has_edge_add g hs hu hv hx hy, has_edge_remove g hs hu hv hx hy, if_neg hne, if_neg hne]
    exact ⟨rfl, rfl⟩
  · intro hsym x y hx hy
    rw [has_edge_add g hs hu hv hx hy, has_edge_add g hs hu hv hy hx,
      has_edge_remove g hs hu hv hx hy, has_edge_remove g hs hu hv hy hx, hsym x y hx hy]
    have e : ((x = u ∧ y = v) ∨ (x = v ∧ y = u)) ↔ ((y = u ∧ x = v) ∨ (y = v ∧ x = u)) := by
      constructor
      · rintro (⟨a, b⟩ | ⟨a, b⟩)
        · exact Or.inr ⟨b, a⟩
        · exact Or.inl ⟨b, a⟩
      · rintro (⟨a, b⟩ | ⟨a, b⟩)
        · exact Or.inr ⟨b, a⟩
        · exact Or.inl ⟨b, a⟩
    simp only [e]
    exact ⟨trivial, trivial⟩
  · intro h1 h2
    exact remove_add_restore g hs hu hv h1 h2

/-- C14 on the store with three vertices and the edge `{0,2}`: adding `{0,1}`
sets both cells and removing it again gives the store back. -/
theorem C14_witness :
    Sized switch_graph ∧
    fastgraph_has_edge (fastgraph_add_edge switch_graph 0 1) 1 0 = 1 ∧
    fastgraph_remove_edge (fastgraph_add_edge switch_graph 0 1) 0 1 = switch_graph :=
  ⟨by decide,
    (C14_edge_cells switch_graph 0 1 (by decide) (by decide) (by decide)).1.2,
    (C14_edge_cells switch_graph 0 1 (by decide) (by decide) (by decide)).2.2.2.2
      (by decide) (by decide)⟩

/-- C15: the array filled by `fastgraph_neighbors(g, u)` holds exactly the
vertices `v ≠ u` with `has_edge(g, u, v)`, each once and in increasing order,
and `*n_neighbors` is its length. -/
theorem C15_neighbors_listing (g : FastGraph) (u : Nat) :
    (∀ v, v ∈ (fastgraph_neighbors_call g u).1 ↔
      v < g.total_nodes ∧ fastgraph_has_edge g u v ≠ 0 ∧ v ≠ u) ∧
    (fastgraph_neighbors_call g u).1.Nodup ∧
    (fastgraph_neighbors_call g u).1.Pairwise (fun a b => a < b) ∧
    (fastgraph_neighbors_call g u).2 = (fastgraph_neighbors_call g u).1.length ∧
    (fastgraph_neighbors_call g u).1 = fastgraph_neighbors g u := by
  unfold fastgraph_neighbors_call
  simp only
  rw [neighbors_fill_eq, neighbors_count_eq]
  exact ⟨fun v => mem_neighbors g u v, neighbors_nodup g u, neighbors_sorted g u, rfl, rfl⟩

/-- C16: when `neighbor_switch(g, w, node_list, residual, avoid)` finds its pair
`(w', t)`, then `w'` is in `node_list` with `residual[w'] > 0`, `t` is a
neighbour of `w` other than `w'` with no edge `(w',t)`, and on return the cells
of `(w,t)` are 0, the cells of `(w',t)` are 1, `residual[w]` is one larger and
`residual[w']` one smaller, and every other cell and residual is as before. -/
theorem C16_switch_effect (g : FastGraph) (w : Nat) (node_list : List Nat)
    (avoid : Option Nat) (hs : Sized g) (hr : ResSized g) (hw : w < g.total_nodes)
    (hnl : ∀ u ∈ node_list, u < g.total_nodes) (w' t : Nat)
    (h1 : switch_w_prime g node_list avoid = some w') (h2 : switch_t g w w' = some t) :
    (w' ∈ node_list ∧ 0 < g.node_residual.getD w' 0) ∧
    (t ∈ fastgraph_neighbors g w ∧ t ≠ w' ∧ fastgraph_has_edge g w' t = 0) ∧
    (fastgraph_has_edge (neighbor_switch g w node_list avoid) w t = 0 ∧
      fastgraph_has_edge (neighbor_switch g w node_list avoid) t w = 0) ∧
    (fastgraph_has_edge (neighbor_switch g w node_list avoid) w' t = 1 ∧
      fastgraph_has_edge (neighbor_switch g w node_list avoid) t w' = 1) ∧
    (neighbor_switch g w node_list avoid).node_residual.getD w 0 =
      g.node_residual.getD w 0 + 1 ∧
    (neighbor_switch g w node_list avoid).node_residual.getD w' 0 =
      g.node_residual.getD w' 0 - 1 ∧
    (∀ x y, x < g.total_nodes → y < g.total_nodes →
      ¬ ((x = w ∧ y = t) ∨ (x = t ∧ y = w)) → ¬ ((x = w' ∧ y = t) ∨ (x = t ∧ y = w')) →
      fastgraph_has_edge (neighbor_switch g w node_list avoid) x y = fastgraph_has_edge g x y) ∧
    (∀ x, x ≠ w → x ≠ w' →
      (neighbor_switch g w node_list avoid).node_residual.getD x 0 =
        g.node_residual.getD x 0) ∧
    (neighbor_switch g w node_list avoid).total_nodes = g.total_nodes := by
  have ok := switch_ok_of_found g w node_list avoid hw hnl w' t h1 h2
  obtain ⟨a1, a2, -⟩ := switch_w_prime_some g node_list avoid w' h1
  have e : neighbor_switch g w node_list avoid = switch_apply g w w' t := by
    unfold neighbor_switch
    simp [h1, h2]
  have cell := switch_apply_cell g hs w w' t ok.hw ok.hw' ok.ht
  have hres := switch_apply_res g w w' t hr ok.hw ok.hw' ok.hww'
  unfold res at hres a2
  rw [e]
  refine ⟨⟨a1, a2⟩, ⟨List.mem_of_find?_eq_some h2, ok.htw', ok.hno⟩, ⟨?_, ?_⟩, ⟨?_, ?_⟩,
    ?_, ?_, ?_, ?_, rfl⟩
  · rw [cell w t ok.hw ok.ht, if_neg, if_pos (Or.inl ⟨rfl, rfl⟩)]
    rintro (⟨a, -⟩ | ⟨a, -⟩)
    · exact ok.hww' a
    · exact ok.htw a.symm
  · rw [cell t w ok.ht ok.hw, if_neg, if_pos (Or.inr ⟨rfl, rfl⟩)]
    rintro (⟨a, -⟩ | ⟨-, a⟩)
    · exact ok.htw' a
    · exact ok.hww' a
  · rw [cell w' t ok.hw' ok.ht, if_pos (Or.inl ⟨rfl, rfl⟩)]
  · rw [cell t w' ok.ht ok.hw', if_pos (Or.inr ⟨rfl, rfl⟩)]
  · rw [hres w, if_pos rfl, if_neg (Ne.symm ok.hww')]; ring
  · rw [hres w', if_neg ok.hww', if_pos rfl]; ring
  · intro x y hx hy n1 n2
    rw [cell x y hx hy, if_neg n2, if_neg n1]
  · intro x n1 n2
    rw [hres x, if_neg (Ne.symm n1), if_neg (Ne.symm n2)]; ring

/-- C16 on the graph with the edge `{0,2}`: the switch for `w = 0` picks
`w' = 1`, `t = 2`, and moves the edge and one stub. -/
theorem C16_witness :
    switch_w_prime switch_graph [0, 1] none = some 1 ∧ switch_t switch_graph 0 1 = some 2 ∧
    neighbor_switch switch_graph 0 [0, 1] none =
      { total_nodes := 3, adj_matrix := [0, 0, 0, 0, 0, 1, 0, 1, 0],
        node_residual := [1, 0, 0] } ∧
    fastgraph_has_edge (neighbor_switch switch_graph 0 [0, 1] none) 1 2 = 1 :=
  ⟨by decide, by decide, by decide,
    (C16_switch_effect switch_graph 0 [0, 1] none (by decide) rfl (by decide)
      (by decide) 1 2 (by decide) (by decide)).2.2.2.1.1⟩

/-- C17: a successful `neighbor_switch` on a simple graph gives a simple graph
with as many edges as before, in which every vertex other than `w` and `w'` has
as many neighbours as before and every vertex has the same sum of neighbours and
residual as before. -/
theorem C17_switch_keeps_degrees (g : FastGraph) (w : Nat) (node_list : List Nat)
    (avoid : Option Nat) (hg : Simple g) (hr : ResSized g) (hw : w < g.total_nodes)
    (hnl : ∀ u ∈ node_list, u < g.total_nodes) (w' t : Nat)
    (h1 : switch_w_prime g node_list avoid = some w') (h2 : switch_t g w w' = some t) :
    Simple (neighbor_switch g w node_list avoid) ∧
    (write_graph (neighbor_switch g w node_list avoid)).length = (write_graph g).length ∧
    (∀ x, x < g.total_nodes → x ≠ w → x ≠ w' →
      (fastgraph_neighbors (neighbor_switch g w node_list avoid) x).length =
        (fastgraph_neighbors g x).length) ∧
    (∀ x, x < g.total_nodes →
      ((fastgraph_neighbors (neighbor_switch g w node_list avoid) x).length : Int) +
          (neighbor_switch g w node_list avoid).node_residual.getD x 0 =
        ((fastgraph_neighbors g x).length : Int) + g.node_residual.getD x 0) := by
  have ok := switch_ok_of_found g w node_list avoid hw hnl w' t h1 h2
  have e : neighbor_switch g w node_list avoid = switch_apply g w w' t := by
    unfold neighbor_switch
    simp [h1, h2]
  have hsimple := switch_apply_simple g hg w w' t ok
  have hres := switch_apply_res g w w' t hr ok.hw ok.hw' ok.hww'
  unfold res at hres
  rw [e]
  refine ⟨hsimple, ?_, ?_, ?_⟩
  · have a := write_graph_length (switch_apply g w w' t) hsimple
    have b := write_graph_length g hg
    rw [switch_apply_wsum g hg w w' t ok] at a
    omega
  · intro x hx n1 n2
    have a := neighbors_length (switch_apply g w w' t) hsimple x hx
    have b := neighbors_length g hg x hx
    rw [switch_apply_deg g hg w w' t ok x hx, if_neg (Ne.symm n1), if_neg (Ne.symm n2)] at a
    omega
  · intro x hx
    have a := neighbors_length (switch_apply g w w' t) hsimple x hx
    have b := neighbors_length g hg x hx
    rw [switch_apply_deg g hg w w' t ok x hx] at a
    rw [hres x, a, b]
    ring

/-- C17 on the graph with the edge `{0,2}`: after the switch the graph is simple
and still has one edge. -/
theorem C17_witness :
    Simple switch_graph ∧
    switch_w_prime switch_graph [0, 1] none = some 1 ∧ switch_t switch_graph 0 1 = some 2 ∧
    (write_graph (neighbor_switch switch_graph 0 [0, 1] none)).length =
      (write_graph switch_graph).length :=
  ⟨simple_of_cells switch_graph (by decide) (by decide) (by decide), by decide, by decide,
    (C17_switch_keeps_degrees switch_graph 0 [0, 1] none
      (simple_of_cells switch_graph (by decide) (by decide) (by decide)) rfl
      (by decide) (by decide) 1 2 (by decide) (by decide)).2.1⟩

/-- C18, as stated, fails: with `avoid = 0`, `residual[0] = 2 > 1` and vertex 1 of
the list holding a free stub, step 1 of `neighbor_switch` on the list `0, 1`
picks `w' = 0`, the vertex to avoid. -/
theorem C18_counterexample :
    avoid_graph.node_residual.getD 0 0 > 1 ∧
    (1 ∈ [0, 1] ∧ 1 ≠ 0 ∧ avoid_graph.node_residual.getD 1 0 > 0) ∧
    switch_w_prime avoid_graph [0, 1] (some 0) = some 0 := by
  decide

/-- C18, amended: if `avoid` is set and `residual[avoid] > 1`, step 1 picks as
with `NO_AVOID`, the first vertex of `node_list` with a free stub, `avoid`
included; if `avoid` is set and `residual[avoid] ≤ 1`, it picks the first vertex
of `node_list` other than `avoid` with a free stub, and finds none when no such
vertex exists. -/
theorem C18_avoid_rule (g : FastGraph) (node_list : List Nat) (a : Nat) :
    (g.node_residual.getD a 0 > 1 →
      switch_w_prime g node_list (some a) = switch_w_prime g node_list none ∧
      ∀ w', switch_w_prime g node_list (some a) = some w' ↔
        0 < g.node_residual.getD w' 0 ∧
        ∃ before after, node_list = before ++ w' :: after ∧
          ∀ c ∈ before, g.node_residual.getD c 0 ≤ 0) ∧
    (g.node_residual.getD a 0 ≤ 1 →
      (∀ w', switch_w_prime g node_list (some a) = some w' ↔
        (w' ≠ a ∧ 0 < g.node_residual.getD w' 0) ∧
        ∃ before after, node_list = before ++ w' :: after ∧
          ∀ c ∈ before, c = a ∨ g.node_residual.getD c 0 ≤ 0) ∧
      (switch_w_prime g node_list (some a) = none ↔
        ∀ c ∈ node_list, c = a ∨ g.node_residual.getD c 0 ≤ 0)) := by
  constructor
  · intro h
    have e : switch_w_prime g node_list (some a) = switch_w_prime g node_list none := by
      unfold switch_w_prime
      simp only [if_pos h]
    refine ⟨e, fun w' => ?_⟩
    rw [e]
    unfold switch_w_prime
    simp only [List.find?_eq_some, decide_eq_true_eq, gt_iff_lt, Bool.not_eq_true',
      decide_eq_false_iff_not, not_lt]
  · intro h
    have e : switch_w_prime g node_list (some a) = node_list.find?
        (fun cand => decide (cand ≠ a ∧ g.node_residual.getD cand 0 > 0)) := by
      unfold switch_w_prime
      simp only [if_neg (not_lt.2 h)]
    rw [e]
    constructor
    · intro w'
      simp only [List.find?_eq_some, decide_eq_true_eq, gt_iff_lt, Bool.not_eq_true',
        decide_eq_false_iff_not, not_and, not_lt]
      constructor
      · rintro ⟨p, before, after, q, r⟩
        exact ⟨p, before, after, q, fun c hc => by
          by_cases hca : c = a
          · exact Or.inl hca
          · exact Or.inr (r c hc hca)⟩
      · rintro ⟨p, before, after, q, r⟩
        exact ⟨p, before, after, q, fun c hc hca => by
          rcases r c hc with h' | h'
          · exact absurd h' hca
          · exact h'⟩
    · simp only [List.find?_eq_none, decide_eq_true_eq, gt_iff_lt, not_and, not_lt]
      constructor
      · intro r c hc
        by_cases hca : c = a
        · exact Or.inl hca
        · exact Or.inr (r c hc hca)
      · intro r c hc hca
        rcases r c hc with h' | h'
        · exact absurd h' hca
        · exact h'

/-- C18, amended, on the two-vertex example: with two free stubs at vertex 0 the
choice for `avoid = 0` is the choice without avoidance. -/
theorem C18_witness :
    avoid_graph.node_residual.getD 0 0 > 1 ∧
    switch_w_prime avoid_graph [0, 1] (some 0) = switch_w_prime avoid_graph [0, 1] none :=
  ⟨by decide, ((C18_avoid_rule avoid_graph [0, 1] 0).1 (by decide)).1⟩

/-- C19, as stated, fails: on the accepted JDM `0,1,2 / 1,1,0 / 1,0,2` the run on
the draws 0,0,0 stands at the head of the placement loop with
`node_residual[0] = -1` after its first edge, and the run on the draws 0,0,0,1
ends with `node_residual[0] = node_residual[1] = -1`. -/
theorem C19_counterexample :
    (is_valid_joint_degree jdm_zero_row).ret = 1 ∧
    realize jdm_zero_row [] [0, 0, 0] =
      .starved { g := { total_nodes := 4,
                        adj_matrix := [0, 0, 1, 0, 0, 0, 0, 0, 1, 0, 0, 0, 0, 0, 0, 0],
                        node_residual := [-1, 0, 0, 1] },
                 edge_list := [2, 0], E := 1, n_switches := 1 } ∧
    ([-1, 0, 0, 1] : List Int).getD 0 0 < 0 ∧
    realize jdm_zero_row [] [0, 0, 0, 1] =
      .done { g := { total_nodes := 4,
                     adj_matrix := [0, 0, 0, 1, 0, 0, 1, 0, 0, 1, 0, 0, 1, 0, 0, 0],
                     node_residual := [-1, -1, 0, 0] },
              edge_list := [2, 0, 2, 1], E := 2, n_switches := 3 } [] ∧
    ([-1, -1, 0, 0] : List Int).getD 1 0 < 0 := by
  decide

/-- C19, amended: for every JDM with well-formed tables that is symmetric, has no
count in a cell of degree 0 and is accepted by `is_valid_joint_degree`, in every
state in which a run of the placement stands at the head of its loop or ends,
`node_residual[v]` lies between 0 and the degree of the class of `v`, for every
vertex `v`; and a `neighbor_switch` in between makes no residual negative. -/
theorem C19_residual_bounds (nkk : JDM) (hwf : JDM.WF nkk)
    (hsym : ∀ k l, jdm_cell nkk k l = jdm_cell nkk l k)
    (hzero : ∀ l, jdm_cell nkk 0 l = 0)
    (hvalid : (is_valid_joint_degree nkk).ret = 1)
    (el rs : List Nat) (b : Build)
    (hrun : realize nkk el rs = .starved b ∨ ∃ rest, realize nkk el rs = .done b rest) :
    (∀ v, v < b.g.total_nodes →
      0 ≤ b.g.node_residual.getD v 0 ∧
      ∃ d, class_of (degree_nodelist nkk) v = some d ∧ b.g.node_residual.getD v 0 ≤ (d : Int)) ∧
    (∀ (w : Nat) (node_list : List Nat) (avoid : Option Nat), w < b.g.total_nodes →
      (∀ u ∈ node_list, u < b.g.total_nodes) →
      ∀ v, v < b.g.total_nodes →
        0 ≤ (neighbor_switch b.g w node_list avoid).node_residual.getD v 0) := by
  obtain ⟨hI, htot, hnn⟩ := realize_state nkk ⟨hwf, hsym, hzero⟩ hvalid el rs b hrun
  constructor
  · intro v hv
    refine ⟨hnn v hv, ?_⟩
    obtain ⟨d, hd⟩ := jdm_class_exists nkk hwf.1 v (by rw [← htot]; exact hv)
    refine ⟨d, hd, ?_⟩
    have h1 := hI.target v hv d hd
    have h2 := deg_nonneg b.g v
    unfold res at h1
    omega
  · intro w node_list avoid hw hnl v hv
    exact neighbor_switch_nonneg b.g hI.res_sized hnn w hw node_list hnl avoid v
      (by rw [(neighbor_switch_sized b.g w node_list avoid hI.simple.sized).2]; exact hv)

/-- C19, amended, on the JDM of the path on four vertices: at the end of the run
with a neighbour switch the residual of vertex 0 is 0, within `[0, 2]`. -/
theorem C19_witness :
    Realizable jdm_path ∧ (is_valid_joint_degree jdm_path).ret = 1 ∧
    realize jdm_path [] [0, 1, 0, 0, 1, 1, 0, 1] =
      .done { g := { total_nodes := 4,
                     adj_matrix := [0, 1, 0, 1, 1, 0, 1, 0, 0, 1, 0, 0, 1, 0, 0, 0],
                     node_residual := [0, 0, 0, 0] },
              edge_list := [0, 3, 0, 2, 0, 1], E := 3, n_switches := 1 } [] ∧
    (0 ≤ ([0, 0, 0, 0] : List Int).getD 0 0 ∧
      ∃ d, class_of (degree_nodelist jdm_path) 0 = some d ∧
        ([0, 0, 0, 0] : List Int).getD 0 0 ≤ (d : Int)) :=
  ⟨realizable_of_bounded jdm_path (by decide) (by decide) (by decide), by decide, by decide,
    (C19_residual_bounds jdm_path (by decide)
      (realizable_of_bounded jdm_path (by decide) (by decide) (by decide)).symm
      (realizable_of_bounded jdm_path (by decide) (by decide) (by decide)).zero
      (by decide) [] [0, 1, 0, 0, 1, 1, 0, 1]
      { g := { total_nodes := 4,
               adj_matrix := [0, 1, 0, 1, 1, 0, 1, 0, 0, 1, 0, 0, 1, 0, 0, 0],
               node_residual := [0, 0, 0, 0] },
        edge_list := [0, 3, 0, 2, 0, 1], E := 3, n_switches := 1 }
      (Or.inr ⟨[], by decide⟩)).1 0 (by decide)⟩

/-- C20, as stated, fails: the JDM `1,1,2 / 0,1,2` is accepted, the run on the
draws 0,1 leaves a FastGraph with 4 vertices and the edge `{0,1}`, a symmetric
and loop-free adjacency, and `build_igraph_from_edgelist` makes a graph with 2
vertices of the records that `write_graph` writes for it. -/
theorem C20_counterexample :
    (is_valid_joint_degree jdm_tail).ret = 1 ∧
    joint_degree_model jdm_tail fresh_graph [] [0, 1] = .done (tail_graph, [0, 1]) [] ∧
    tail_graph.total_nodes = 4 ∧
    (∀ u ∈ List.range 4, ∀ v ∈ List.range 4,
      fastgraph_has_edge tail_graph u v = fastgraph_has_edge tail_graph v u) ∧
    (∀ u ∈ List.range 4, fastgraph_has_edge tail_graph u u = 0) ∧
    write_graph tail_graph = [(0, 1)] ∧
    build_igraph_from_edgelist (write_graph tail_graph) = { vcount := 2, edges := [(0, 1)] } := by
  decide

/-- C20, amended: for every FastGraph whose adjacency is symmetric and loop-free,
the records of `write_graph` read back by `build_igraph_from_edgelist` give a
graph over the same vertex ids whose edges are exactly the edges of the
FastGraph, each once; its vertex count is at most `total_nodes`, covers every
vertex that has a neighbour, is one more than a vertex with a neighbour unless
it is 0, and equals `total_nodes` when the last vertex has a neighbour. -/
theorem C20_roundtrip (g : FastGraph) (hg : Simple g) :
    (build_igraph_from_edgelist (write_graph g)).edges = write_graph g ∧
    (build_igraph_from_edgelist (write_graph g)).edges.Nodup ∧
    (∀ x y, (x, y) ∈ (build_igraph_from_edgelist (write_graph g)).edges ↔
      x < y ∧ y < g.total_nodes ∧ fastgraph_has_edge g x y ≠ 0) ∧
    (∀ x y, x < g.total_nodes → y < g.total_nodes →
      (fastgraph_has_edge g x y ≠ 0 ↔
        (x, y) ∈ (build_igraph_from_edgelist (write_graph g)).edges ∨
        (y, x) ∈ (build_igraph_from_edgelist (write_graph g)).edges)) ∧
    (build_igraph_from_edgelist (write_graph g)).vcount ≤ g.total_nodes ∧
    (∀ x y, x < g.total_nodes → y < g.total_nodes → fastgraph_has_edge g x y ≠ 0 →
      x < (build_igraph_from_edgelist (write_graph g)).vcount ∧
      y < (build_igraph_from_edgelist (write_graph g)).vcount) ∧
    (0 < (build_igraph_from_edgelist (write_graph g)).vcount →
      ∃ y, y < g.total_nodes ∧
        fastgraph_has_edge g ((build_igraph_from_edgelist (write_graph g)).vcount - 1) y ≠ 0) ∧
    ((∃ y, y < g.total_nodes ∧ fastgraph_has_edge g (g.total_nodes - 1) y ≠ 0) →
      (build_igraph_from_edgelist (write_graph g)).vcount = g.total_nodes) := by
  obtain ⟨v1, v2, v3⟩ := roundtrip_vcount g
  have adj : ∀ x y, x < g.total_nodes → y < g.total_nodes → fastgraph_has_edge g x y ≠ 0 →
      (x, y) ∈ write_graph g ∨ (y, x) ∈ write_graph g := by
    intro x y hx hy h
    rcases Nat.lt_trichotomy x y with c | c | c
    · exact Or.inl ((mem_write_graph_iff g x y).2 ⟨c, hy, h⟩)
    · subst c; exact absurd (hg.irrefl x hx) h
    · exact Or.inr ((mem_write_graph_iff g y x).2 ⟨c, hx, by rw [hg.symm y x hy hx]; exact h⟩)
  have cover : ∀ x y, x < g.total_nodes → y < g.total_nodes → fastgraph_has_edge g x y ≠ 0 →
      x < (build_igraph_from_edgelist (write_graph g)).vcount ∧
      y < (build_igraph_from_edgelist (write_graph g)).vcount := by
    intro x y hx hy h
    rcases adj x y hx hy h with c | c
    · exact v2 (x, y) c
    · exact (v2 (y, x) c).symm
  rw [roundtrip_edges]
  refine ⟨rfl, write_graph_nodup g, mem_write_graph_iff g, ?_, v1, cover, ?_, ?_⟩
  · intro x y hx hy
    constructor
    · exact adj x y hx hy
    · rintro (c | c)
      · exact ((mem_write_graph_iff g x y).1 c).2.2
      · rw [hg.symm x y hx hy]; exact ((mem_write_graph_iff g y x).1 c).2.2
  · intro hpos
    obtain ⟨e, he, h⟩ := v3 hpos
    obtain ⟨a, b⟩ := e
    have hm := (mem_write_graph_iff g a b).1 he
    rcases h with h | h
    · rw [h]; exact ⟨b, hm.2.1, hm.2.2⟩
    · rw [h]
      refine ⟨a, by omega, ?_⟩
      rw [hg.symm b a hm.2.1 (by omega)]
      exact hm.2.2
  · rintro ⟨y, hy, h⟩
    have := (cover (g.total_nodes - 1) y (by omega) hy h).1
    omega

/-- C20, amended, on the graph with three vertices and the edge `{0,2}`: the
graph read back has the edge `(0,2)` and three vertices. -/
theorem C20_witness :
    Simple switch_graph ∧
    (build_igraph_from_edgelist (write_graph switch_graph)).edges = [(0, 2)] ∧
    (build_igraph_from_edgelist (write_graph switch_graph)).vcount = 3 :=
  ⟨simple_of_cells switch_graph (by decide) (by decide) (by decide), by decide,
    (C20_roundtrip switch_graph
      (simple_of_cells switch_graph (by decide) (by decide) (by decide))).2.2.2.2.2.2.2
      ⟨0, by decide, by decide⟩⟩

/-- C21 fails as stated: the JDM file `1,1,2 / 2,2,0` and the JDM recomputed
from the single edge `0,1` are equal as mappings in which a missing row or entry
means zero, yet `compare_jdms` returns 1, because the row of degree 2 has no row
in the recomputed table. -/
theorem C21_stored_zero_row_counts :
    (∀ k l, jdm_cell jdm_stored_zero k l = jdm_cell (compute_jdm_from_igraph [(0, 1)]) k l) ∧
    compare_jdms jdm_stored_zero (compute_jdm_from_igraph [(0, 1)]) = 1 := by
  have e : compute_jdm_from_igraph [(0, 1)] = [(1, [(1, 2)])] := by decide
  refine ⟨?_, by decide⟩
  intro k l
  rw [e]
  by_cases h1 : k = 1
  · subst h1
    rfl
  · by_cases h2 : k = 2
    · subst h2
      have a : jdm_cell jdm_stored_zero 2 l = lookup_int [(2, 0)] l := rfl
      have b : jdm_cell [(1, [(1, 2)])] 2 l = 0 := rfl
      rw [a, b]
      unfold lookup_int ht_lookup
      split_ifs
      · rfl
      · rfl
    · have a : ht_lookup jdm_stored_zero k = none := by
        rw [ht_lookup_eq_none]
        simp [jdm_stored_zero, h1, h2]
      have b : ht_lookup ([(1, [(1, 2)])] : JDM) k = none := by
        rw [ht_lookup_eq_none]
        simp [h1]
      unfold jdm_cell
      rw [a, b]

/-- C21, amended: `compare_jdms(nkk_in, nkk_out)` returns 0 if and only if the
two JDMs are equal as mappings from `(k,l)` to counts in which a missing row or
entry is zero, every row stored in `nkk_in` has a row in `nkk_out`, and
`nkk_out` stores no count 0; otherwise it returns a non-zero number.  The JDM
recomputed from a graph stores no count 0. -/
theorem C21_compare_zero_iff (nkk_in nkk_out : JDM) (hin : JDM.WF nkk_in)
    (hout : JDM.WF nkk_out) :
    (compare_jdms nkk_in nkk_out = 0 ↔
      (∀ k l, jdm_cell nkk_in k l = jdm_cell nkk_out k l) ∧
      (∀ r ∈ nkk_in, (ht_lookup nkk_out r.1).isSome) ∧
      (∀ r ∈ nkk_out, ∀ c ∈ r.2, c.2 ≠ 0)) ∧
    (∀ edges, JDM.WF (compute_jdm_from_igraph edges) ∧
      ∀ r ∈ compute_jdm_from_igraph edges, ∀ c ∈ r.2, c.2 ≠ 0) :=
  ⟨compare_zero_iff nkk_in nkk_out hin hout, compute_jdm_stored⟩

/-- C21 on the path JDM and the JDM recomputed from the path 2 - 0 - 1 - 3: the
comparison returns 0 and the two agree on every cell. -/
theorem C21_witness :
    JDM.WF jdm_path ∧ JDM.WF (compute_jdm_from_igraph [(0, 1), (0, 2), (1, 3)]) ∧
    compare_jdms jdm_path (compute_jdm_from_igraph [(0, 1), (0, 2), (1, 3)]) = 0 ∧
    ∀ k l, jdm_cell jdm_path k l =
      jdm_cell (compute_jdm_from_igraph [(0, 1), (0, 2), (1, 3)]) k l :=
  ⟨by decide, by decide, by decide,
    ((C21_compare_zero_iff jdm_path (compute_jdm_from_igraph [(0, 1), (0, 2), (1, 3)])
      (by decide) (by decide)).1.1 (by decide)).1⟩

/-- C22 fails on the code: with the JDM file `2,1,2 / 2,2,2 / 1,2,2` and draws
with residues 0,1,0,0,1,1,0,1 the run ends with the adjacency matrix of the path
3 - 0 - 1 - 2, written out as `0,1 / 0,3 / 1,2`, while the accumulated edge list
holds the pairs `(0,3)`, `(0,2)`, `(0,1)`: the neighbour switch moved the edge
`{0,2}` to `{1,2}` in the matrix only.  The same happens for each of the four
iteration orders of the two tables. -/
theorem C22_edge_list_misses_switch :
    joint_degree_model jdm_path fresh_graph [] [0, 1, 0, 0, 1, 1, 0, 1] =
      .done (path_result, [0, 3, 0, 2, 0, 1]) [] ∧
    edge_pairs [0, 3, 0, 2, 0, 1] = [(0, 3), (0, 2), (0, 1)] ∧
    write_graph path_result = [(0, 1), (0, 3), (1, 2)] ∧
    fastgraph_has_edge path_result 0 2 = 0 ∧
    fastgraph_has_edge path_result 1 2 = 1 ∧
    ∀ nkk ∈ jdm_path_orders, ∃ rs g el rest,
      joint_degree_model nkk fresh_graph [] rs = .done (g, el) rest ∧
      ∃ e ∈ edge_pairs el, fastgraph_has_edge g e.1 e.2 = 0 := by
  refine ⟨by decide, by decide, by decide, by decide, by decide, ?_⟩
  intro nkk h
  simp only [jdm_path_orders, List.mem_cons, List.mem_singleton, List.not_mem_nil,
    or_false] at h
  rcases h with h | h | h | h
  · exact ⟨[0, 1, 0, 0, 1, 1, 0, 1], path_result, [0, 3, 0, 2, 0, 1], [],
      by rw [h]; decide, (0, 2), by decide, by decide⟩
  · exact ⟨[0, 1, 0, 0, 0, 1], path_result, [0, 1, 0, 2, 0, 3], [],
      by rw [h]; decide, (0, 2), by decide, by decide⟩
  · exact ⟨[0, 1, 0, 0, 0, 1],
      { total_nodes := 4, adj_matrix := [0, 0, 0, 1, 0, 0, 1, 0, 0, 1, 0, 1, 1, 0, 1, 0],
        node_residual := [] }, [2, 1, 2, 0, 2, 3], [],
      by rw [h]; decide, (2, 0), by decide, by decide⟩
  · exact ⟨[0, 1, 0, 0, 0, 1],
      { total_nodes := 4, adj_matrix := [0, 0, 0, 1, 0, 0, 1, 0, 0, 1, 0, 1, 1, 0, 1, 0],
        node_residual := [] }, [2, 3, 2, 0, 2, 1], [],
      by rw [h]; decide, (2, 0), by decide, by decide⟩

/-- C23: every swap the mutation loop executes uses two pairs `i1 < j1`,
`i2 < j2` of matrix indices, the four indices pairwise distinct, with
`J[i1][j1] ≥ 2` and `J[i2][j2] ≥ 2` in the matrix it is applied to, and a
magnitude between 1 and `max_k`, where `max_k` is the least of `J[i1][j1]`,
`J[i2][j2]`, `n_i1 * n_j2 - J[i1][j2]` and `n_i2 * n_j1 - J[i2][j1]` with
`n_d = rowsum(J,d) / d`, none of the four degrees being 0. -/
theorem C23_swap_choice (n num_steps : Nat) (J : Matrix) (rs : List Nat) (s : Swap)
    (r : Nat) (rest : List Nat) (h : sample J n rs none = .got s (r :: rest)) :
    mutate n (num_steps + 1) J rs =
      mutate n num_steps (apply_swap J s (swap_size r s.max_k)) rest ∧
    (s.i1 < s.j1 ∧ s.i2 < s.j2 ∧ s.j1 < n ∧ s.j2 < n) ∧
    [s.i1, s.j1, s.i2, s.j2].Nodup ∧
    (2 ≤ J_get J s.i1 s.j1 ∧ 2 ≤ J_get J s.i2 s.j2) ∧
    (s.i1 ≠ 0 ∧ s.j1 ≠ 0 ∧ s.i2 ≠ 0 ∧ s.j2 ≠ 0) ∧
    s.max_k =
      min (min (min (J_get J s.i1 s.j1) (J_get J s.i2 s.j2))
        ((row_sum J n s.i1).tdiv s.i1 * (row_sum J n s.j2).tdiv s.j2 - J_get J s.i1 s.j2))
        ((row_sum J n s.i2).tdiv s.i2 * (row_sum J n s.j1).tdiv s.j1 - J_get J s.i2 s.j1) ∧
    (1 ≤ swap_size r s.max_k ∧ swap_size r s.max_k ≤ s.max_k) := by
  have hs := sample_sampled J n rs s _ h
  have d1 := hs.lt1
  have d2 := hs.lt2
  have d3 := hs.ne_ii
  have d4 := hs.ne_ij
  have d5 := hs.ne_ji
  have d6 := hs.ne_jj
  refine ⟨?_, ⟨hs.lt1, hs.lt2, hs.j1_lt, hs.j2_lt⟩, ?_, sample_cells J n rs s _ h,
    ⟨hs.pos1, by omega, hs.pos2, by omega⟩, ?_, swap_size_bounds r s.max_k hs.max_pos⟩
  · simp only [mutate, h]
  · simp only [List.nodup_cons, List.mem_cons, List.mem_singleton, List.not_mem_nil,
      List.nodup_nil, or_false, and_true, not_false_eq_true]
    omega
  · rw [hs.bound]
    exact swap_bound_min J n s.i1 s.j1 s.i2 s.j2 (Ne.symm hs.ne_ji) hs.ne_ij

/-- C23 on the 5 x 5 example: the draws 1,0,3,0 pick the pairs `(1,2)` and
`(3,4)` with `max_k = 4`, and the draw 5 gives the magnitude 2. -/
theorem C23_witness :
    sample (load_matrix mutator_entries) 5 [1, 0, 3, 0, 5] none =
      .got { i1 := 1, j1 := 2, i2 := 3, j2 := 4, max_k := 4 } [5] ∧
    (1 ≤ swap_size 5 4 ∧ swap_size 5 4 ≤ 4) :=
  ⟨by decide,
    (C23_swap_choice 5 0 (load_matrix mutator_entries) [1, 0, 3, 0, 5]
      { i1 := 1, j1 := 2, i2 := 3, j2 := 4, max_k := 4 } 5 [] (by decide)).2.2.2.2.2.2⟩

/-- C24: a swap of magnitude `m` on the pairs the sampling loop returns
subtracts `m` from the cells `(i1,j1)`, `(j1,i1)`, `(i2,j2)`, `(j2,i2)`, adds `m`
to the cells `(i1,j2)`, `(j2,i1)`, `(i2,j1)`, `(j1,i2)` and leaves every other
cell as it was; the eight cells are pairwise distinct and off the diagonal, and
a symmetric matrix stays symmetric. -/
theorem C24_swap_cells (n : Nat) (J : Matrix) (rs : List Nat) (s : Swap) (rest : List Nat)
    (m : Int) (hsq : Square J n) (h : sample J n rs none = .got s rest) :
    (∀ a b, J_get (apply_swap J s m) a b =
      if (a, b) ∈ [(s.i1, s.j1), (s.j1, s.i1), (s.i2, s.j2), (s.j2, s.i2)] then
        J_get J a b - m
      else if (a, b) ∈ [(s.i1, s.j2), (s.j2, s.i1), (s.i2, s.j1), (s.j1, s.i2)] then
        J_get J a b + m
      else J_get J a b) ∧
    [(s.i1, s.j1), (s.j1, s.i1), (s.i2, s.j2), (s.j2, s.i2),
      (s.i1, s.j2), (s.j2, s.i1), (s.i2, s.j1), (s.j1, s.i2)].Nodup ∧
    (∀ c ∈ [(s.i1, s.j1), (s.j1, s.i1), (s.i2, s.j2), (s.j2, s.i2),
      (s.i1, s.j2), (s.j2, s.i1), (s.i2, s.j1), (s.j1, s.i2)], c.1 ≠ c.2 ∧ c.1 < n ∧ c.2 < n) ∧
    (∀ a, J_get (apply_swap J s m) a a = J_get J a a) ∧
    (MSymm J n → MSymm (apply_swap J s m) n) := by
  have hs := sample_sampled J n rs s rest h
  obtain ⟨nd, off⟩ := swap_cells_distinct J n s hs
  have cells := apply_swap_cells J n s m hsq hs
  refine ⟨cells, nd, ?_, ?_, apply_swap_symm J n s m hsq hs⟩
  · intro c hc
    refine ⟨off c hc, ?_⟩
    have d1 := hs.lt1
    have d2 := hs.lt2
    have d3 := hs.j1_lt
    have d4 := hs.j2_lt
    simp only [List.mem_cons, List.mem_singleton, List.not_mem_nil, or_false] at hc
    rcases hc with e | e | e | e | e | e | e | e <;> subst e <;> simp only <;> omega
  · intro a
    rw [cells a a, if_neg (fun hc => off (a, a) (List.mem_append_left _ hc) rfl),
      if_neg (fun hc => off (a, a) (List.mem_append_right
        [(s.i1, s.j1), (s.j1, s.i1), (s.i2, s.j2), (s.j2, s.i2)] hc) rfl)]

/-- C24 on the 5 x 5 example: the swap of magnitude 2 on the pairs `(1,2)` and
`(3,4)` gives the matrix with 2 in the four pairs of cells. -/
theorem C24_witness :
    Square (load_matrix mutator_entries) 5 ∧
    sample (load_matrix mutator_entries) 5 [1, 0, 3, 0, 5] none =
      .got { i1 := 1, j1 := 2, i2 := 3, j2 := 4, max_k := 4 } [5] ∧
    apply_swap (load_matrix mutator_entries) { i1 := 1, j1 := 2, i2 := 3, j2 := 4, max_k := 4 } 2
      = [[0, 0, 0, 0, 0], [0, 4, 2, 0, 2], [0, 2, 8, 2, 0], [0, 0, 2, 8, 2], [0, 2, 0, 2, 12]] ∧
    J_get (apply_swap (load_matrix mutator_entries)
      { i1 := 1, j1 := 2, i2 := 3, j2 := 4, max_k := 4 } 2) 0 0 =
      J_get (load_matrix mutator_entries) 0 0 :=
  ⟨by decide, by decide, by decide,
    (C24_swap_cells 5 (load_matrix mutator_entries) [1, 0, 3, 0, 5]
      { i1 := 1, j1 := 2, i2 := 3, j2 := 4, max_k := 4 } [5] 2 (by decide) (by decide)).2.2.2.1 0⟩

/-- C25: on a JDM that passed the checker, in every state in which a run of the
placement stands at the head of its loop or ends, each vertex has a class, and
its number of neighbours plus `node_residual[v]` is the degree of that class;
the same holds after a `neighbor_switch` for a vertex `w` within the class of
`w`, whether it succeeds or not. -/
theorem C25_degree_plus_residual (nkk : JDM) (hwf : Table.WF nkk)
    (hvalid : (is_valid_joint_degree nkk).ret = 1) (el rs : List Nat) (b : Build)
    (hrun : realize nkk el rs = .starved b ∨ ∃ rest, realize nkk el rs = .done b rest) :
    (∀ v, v < b.g.total_nodes →
      ∃ d, class_of (degree_nodelist nkk) v = some d ∧
        ((fastgraph_neighbors b.g v).length : Int) + b.g.node_residual.getD v 0 = (d : Int)) ∧
    (∀ (w : Nat) (node_list : List Nat) (avoid : Option Nat), w < b.g.total_nodes →
      (∀ u ∈ node_list, u < b.g.total_nodes ∧
        class_of (degree_nodelist nkk) u = class_of (degree_nodelist nkk) w) →
      ∀ v, v < b.g.total_nodes →
        ∃ d, class_of (degree_nodelist nkk) v = some d ∧
          ((fastgraph_neighbors (neighbor_switch b.g w node_list avoid) v).length : Int) +
            (neighbor_switch b.g w node_list avoid).node_residual.getD v 0 = (d : Int)) := by
  obtain ⟨-, c3, -, -⟩ := is_valid_conds nkk hwf hvalid
  have ok := realize_ok nkk hwf c3 el rs
  have hI : Inv (jdm_class nkk) b.g ∧ b.g.total_nodes = node_total nkk := by
    rcases hrun with h | ⟨rest, h⟩
    · rw [h] at ok
      have ok' : Mid (jdm_class nkk) (tableV nkk) (initial_build nkk el) b := ok
      exact ⟨ok'.inv, by rw [ok'.total, initial_total]⟩
    · rw [h] at ok
      have ok' : Step (jdm_class nkk) (tableV nkk) (tableW nkk) (initial_build nkk el) b := ok
      exact ⟨ok'.inv, by rw [ok'.total, initial_total]⟩
  obtain ⟨hI, htot⟩ := hI
  have key : ∀ g : FastGraph, Inv (jdm_class nkk) g → g.total_nodes = node_total nkk →
      ∀ v, v < g.total_nodes → ∃ d, class_of (degree_nodelist nkk) v = some d ∧
        ((fastgraph_neighbors g v).length : Int) + g.node_residual.getD v 0 = (d : Int) := by
    intro g hg ht v hv
    obtain ⟨d, hd⟩ := jdm_class_exists nkk hwf v (by rw [← ht]; exact hv)
    refine ⟨d, hd, ?_⟩
    rw [neighbors_length g hg.simple v hv]
    exact hg.target v hv d hd
  refine ⟨key b.g hI htot, ?_⟩
  intro w node_list avoid hw hnl v hv
  obtain ⟨a1, a2, -⟩ := neighbor_switch_inv (jdm_class nkk) b.g hI w hw node_list hnl avoid
  exact key _ a1 (by rw [a2, htot]) v (by rw [a2]; exact hv)

/-- C25 on the JDM `0,1,2 / 1,1,0 / 1,0,2`, where a repair fails: at the end of
the run on the draws 0,0,0,1 vertex 0 of class 0 has one neighbour and residual
-1. -/
theorem C25_witness :
    Table.WF jdm_zero_row ∧ (is_valid_joint_degree jdm_zero_row).ret = 1 ∧
    realize jdm_zero_row [] [0, 0, 0, 1] =
      .done { g := { total_nodes := 4,
                     adj_matrix := [0, 0, 0, 1, 0, 0, 1, 0, 0, 1, 0, 0, 1, 0, 0, 0],
                     node_residual := [-1, -1, 0, 0] },
              edge_list := [2, 0, 2, 1], E := 2, n_switches := 3 } [] ∧
    ∃ d, class_of (degree_nodelist jdm_zero_row) 0 = some d ∧
      ((fastgraph_neighbors
        { total_nodes := 4,
          adj_matrix := [0, 0, 0, 1, 0, 0, 1, 0, 0, 1, 0, 0, 1, 0, 0, 0],
          node_residual := [-1, -1, 0, 0] } 0).length : Int) +
        ([-1, -1, 0, 0] : List Int).getD 0 0 = (d : Int) :=
  ⟨by decide, by decide, by decide,
    (C25_degree_plus_residual jdm_zero_row (by decide) (by decide) [] [0, 0, 0, 1]
      { g := { total_nodes := 4,
               adj_matrix := [0, 0, 0, 1, 0, 0, 1, 0, 0, 1, 0, 0, 1, 0, 0, 0],
               node_residual := [-1, -1, 0, 0] },
        edge_list := [2, 0, 2, 1], E := 2, n_switches := 3 }
      (Or.inr ⟨[], by decide⟩)).1 0 (by decide)⟩

/-- C27: on a JDM accepted by the checker, whenever the placement loop of a
cell `(k,l)` stands at its head with edges still to place, after the rows before
`k` and the cells of row `k` before `(k,l)` were placed, the vertex lists of `k`
and `l` are non-empty and hold two distinct vertices, one of each list, that
are not adjacent: a draw that the loop accepts exists. -/
theorem C27_free_pair (nkk : JDM) (hwf : JDM.WF nkk)
    (hvalid : (is_valid_joint_degree nkk).ret = 1)
    (before after : List (Nat × Row)) (k : Nat) (cb ca : Row) (l v : Nat)
    (hnkk : nkk = before ++ (k, cb ++ (l, v) :: ca) :: after)
    (el rs rs1 : List Nat) (b1 b : Build)
    (h1 : place_rows (degree_nodelist nkk) (before ++ [(k, cb)]) (initial_build nkk el) rs
      = .done b1 rs1)
    (h2 : place_cell (degree_nodelist nkk) k l v b1 rs1 = .starved b) :
    ∃ k_nodes l_nodes, ht_lookup (degree_nodelist nkk) k = some k_nodes ∧
      ht_lookup (degree_nodelist nkk) l = some l_nodes ∧
      k_nodes ≠ [] ∧ l_nodes ≠ [] ∧
      ∃ x ∈ k_nodes, ∃ y ∈ l_nodes, x ≠ y ∧ fastgraph_has_edge b.g x y = 0 := by
  obtain ⟨-, c3, c4, -⟩ := is_valid_conds nkk hwf.1 hvalid
  have hL := jdm_lists nkk hwf.1
  have hrow : (k, cb ++ (l, v) :: ca) ∈ nkk := by
    rw [hnkk]; exact List.mem_append_right _ (List.mem_cons_self _ _)
  have hcell : (l, v) ∈ cb ++ (l, v) :: ca :=
    List.mem_append_right _ (List.mem_cons_self _ _)
  -- the cell is one for which edges are placed, and its lists exist
  unfold place_cell at h2
  by_cases hc : v > 0 ∧ k ≥ l
  swap
  · rw [if_neg hc] at h2; cases h2
  rw [if_pos hc] at h2
  cases hkn : ht_lookup (degree_nodelist nkk) k with
  | none => rw [hkn] at h2; cases h2
  | some k_nodes =>
    cases hln : ht_lookup (degree_nodelist nkk) l with
    | none => rw [hkn, hln] at h2; cases h2
    | some l_nodes =>
      rw [hkn, hln] at h2
      simp only at h2
      -- the state at the start of the cell
      have hex : ∀ r ∈ before ++ [(k, cb)], ∀ c ∈ r.2, 0 < cell_edges r.1 c.1 c.2 →
          (ht_lookup (degree_nodelist nkk) r.1).isSome ∧
          (ht_lookup (degree_nodelist nkk) c.1).isSome := by
        intro r hr c hcc hpos
        rcases List.mem_append.1 hr with hr | hr
        · exact lists_exist nkk hwf.1 c3 r (by rw [hnkk]; exact List.mem_append_left _ hr)
            c hcc hpos
        · simp only [List.mem_singleton] at hr
          subst hr
          exact lists_exist nkk hwf.1 c3 _ hrow c (List.mem_append_left _ hcc) hpos
      have ok := place_rows_ok (jdm_class nkk) (node_total nkk) (degree_nodelist nkk) hL
        (before ++ [(k, cb)]) hex (initial_build nkk el) rs (initial_inv nkk hwf.1 el)
        (initial_total nkk el)
      rw [h1] at ok
      have ok' : Step (jdm_class nkk) (tableV (before ++ [(k, cb)]))
          (tableW (before ++ [(k, cb)])) (initial_build nkk el) b1 := ok
      have hkeys : (nkk.map Prod.fst).Nodup := hwf.1
      rw [hnkk, List.map_append, List.map_cons, List.nodup_append] at hkeys
      have hinner : ((cb ++ (l, v) :: ca).map Prod.fst).Nodup := hwf.2 _ hrow
      rw [List.map_append, List.map_cons, List.nodup_append] at hinner
      have hother : ∀ r ∈ before ++ [(k, cb)], ∀ c ∈ r.2, ¬ (r.1 = k ∧ c.1 = l) := by
        intro r hr c hcc e
        rcases List.mem_append.1 hr with hr | hr
        · exact hkeys.2.2 (List.mem_map.2 ⟨r, hr, rfl⟩) (by rw [e.1]; exact List.mem_cons_self _ _)
        · simp only [List.mem_singleton] at hr
          subst hr
          exact hinner.2.2 (List.mem_map.2 ⟨c, hcc, rfl⟩)
            (by rw [e.2]; exact List.mem_cons_self _ _)
      have hzero : wsum b1.g (clsW (jdm_class nkk) (pairW k l)) = 0 := by
        rw [ok'.wsum_eq, initial_wsum, tableW_other _ k l hc.2 hother]
        rfl
      have hn1 : b1.g.total_nodes = node_total nkk := by rw [ok'.total, initial_total]
      obtain ⟨j, hj, hI, hn, hw⟩ := edge_loop_starved (jdm_class nkk) (node_total nkk) k l
        k_nodes l_nodes (hL k k_nodes hkn) (hL l l_nodes hln) rs1.length rs1 (le_refl _) _
        b1 b ok'.inv hn1 h2
      have hcount := hw (pairW k l)
      rw [hzero] at hcount
      -- a pair that can be accepted
      have hfree : ∃ x ∈ k_nodes, ∃ y ∈ l_nodes, x ≠ y ∧ fastgraph_has_edge b.g x y = 0 := by
        by_contra hno
        have hfull : ∀ x y, x < b.g.total_nodes → y < b.g.total_nodes →
            jdm_class nkk x = some k → jdm_class nkk y = some l → x ≠ y →
            fastgraph_has_edge b.g x y ≠ 0 := by
          intro x y hx hy hxk hyl hxy he
          exact hno ⟨x, (hL k k_nodes hkn x).2 ⟨by rw [← hn]; exact hx, hxk⟩,
            y, (hL l l_nodes hln y).2 ⟨by rw [← hn]; exact hy, hyl⟩, hxy, he⟩
        have hfc := full_pair_count nkk hwf.1 b.g hI.simple hn k l hfull
        rw [hfc, cellW_pair] at hcount
        by_cases hkl : k = l
        · subst hkl
          simp only [if_true] at hj hcount
          have h4 := c4 _ hrow _ hcell rfl
          simp only at h4
          have hj' : 2 * (j : Int) + 2 ≤ (v : Int) := by
            have : 2 * j + 2 ≤ v := by omega
            exact_mod_cast this
          linarith
        · simp only [if_neg hkl] at hj hcount
          have h3 := c3 _ hrow _ hcell hkl
          simp only at h3
          have h3' : (v : Int) ≤ (class_size nkk k : Int) * (class_size nkk l : Int) := by
            exact_mod_cast h3
          have hj' : (j : Int) + 1 ≤ (v : Int) := by exact_mod_cast hj
          simp only [sub_zero, zero_add, mul_one] at hcount
          linarith
      obtain ⟨x, hx, y, hy, hxy, he⟩ := hfree
      exact ⟨k_nodes, l_nodes, rfl, rfl, List.ne_nil_of_mem hx, List.ne_nil_of_mem hy,
        x, hx, y, hy, hxy, he⟩

/-- C27 on the path JDM: after the two edges of the cell `(2,1)` the loop of the
cell `(2,2)` rejects the draw 1,1 and stands at its head with one edge to place;
the vertices 0 and 1 of the list of degree 2 are not adjacent. -/
theorem C27_witness :
    place_rows (degree_nodelist jdm_path) [(2, [(1, 2)])] (initial_build jdm_path [])
      [0, 1, 0, 0, 1, 1] = .done path_mid [1, 1] ∧
    place_cell (degree_nodelist jdm_path) 2 2 2 path_mid [1, 1] = .starved path_mid ∧
    ∃ k_nodes l_nodes, ht_lookup (degree_nodelist jdm_path) 2 = some k_nodes ∧
      ht_lookup (degree_nodelist jdm_path) 2 = some l_nodes ∧
      k_nodes ≠ [] ∧ l_nodes ≠ [] ∧
      ∃ x ∈ k_nodes, ∃ y ∈ l_nodes, x ≠ y ∧ fastgraph_has_edge path_mid.g x y = 0 :=
  ⟨by decide, by decide,
    C27_free_pair jdm_path (by decide) (by decide) [] [(1, [(2, 2)])] 2 [(1, 2)] [] 2 2 rfl
      [] [0, 1, 0, 0, 1, 1] [1, 1] path_mid path_mid (by decide) (by decide)⟩

/-- C28: if the vertices of `node_list` and `w` belong to one degree class, a
call of `neighbor_switch(g, w, node_list, ...)` on a simple graph, successful or
not, leaves the number of edges between the classes `A` and `B` unchanged, for
every pair `(A, B)`. -/
theorem C28_switch_keeps_class_edges (cls : Nat → Option Nat) (g : FastGraph) (hg : Simple g)
    (w : Nat) (hw : w < g.total_nodes) (node_list : List Nat)
    (hnl : ∀ u ∈ node_list, u < g.total_nodes ∧ cls u = cls w) (avoid : Option Nat)
    (A B : Nat) :
    class_edges cls (neighbor_switch g w node_list avoid) A B = class_edges cls g A B := by
  obtain ⟨hs, he⟩ := neighbor_switch_wsum cls g hg w hw node_list hnl avoid (pairW A B)
  rw [class_edges_wsum cls _ hs A B, class_edges_wsum cls g hg A B] at he
  by_cases hAB : A = B
  · rw [if_pos hAB] at he; omega
  · rw [if_neg hAB] at he; omega

/-- C28 on the graph with the edge `{0,2}`, vertices 0 and 1 in class 1 and
vertex 2 in class 2: the switch moves the edge within the class pair. -/
theorem C28_witness :
    Simple switch_graph ∧
    neighbor_switch switch_graph 0 [0, 1] none =
      { total_nodes := 3, adj_matrix := [0, 0, 0, 0, 0, 1, 0, 1, 0],
        node_residual := [1, 0, 0] } ∧
    class_edges (fun u => if u < 2 then some 1 else some 2)
      (neighbor_switch switch_graph 0 [0, 1] none) 1 2 =
    class_edges (fun u => if u < 2 then some 1 else some 2) switch_graph 1 2 :=
  ⟨simple_of_cells switch_graph (by decide) (by decide) (by decide), by decide,
    C28_switch_keeps_class_edges (fun u => if u < 2 then some 1 else some 2) switch_graph
      (simple_of_cells switch_graph (by decide) (by decide) (by decide)) 0 (by decide) [0, 1]
      (by decide) none 1 2⟩

/-- C29: if step 1 of `neighbor_switch` finds no `w'`, or step 2 finds no `t` for
the `w'` of step 1, the call returns the FastGraph, adjacency matrix and
residual array, exactly as it was; when the `w'` of step 1 is `w` itself, step 2
finds no `t`, so these calls return the FastGraph as it was too. -/
theorem C29_failed_switch_changes_nothing (g : FastGraph) (w : Nat) (node_list : List Nat)
    (avoid : Option Nat) :
    (switch_w_prime g node_list avoid = none → neighbor_switch g w node_list avoid = g) ∧
    (∀ w', switch_w_prime g node_list avoid = some w' → switch_t g w w' = none →
      neighbor_switch g w node_list avoid = g) ∧
    (switch_w_prime g node_list avoid = some w →
      switch_t g w w = none ∧ neighbor_switch g w node_list avoid = g) := by
  refine ⟨fun h => neighbor_switch_fail g w node_list avoid (Or.inl h),
    fun w' h1 h2 => neighbor_switch_fail g w node_list avoid (Or.inr ⟨w', h1, h2⟩),
    fun h => ⟨switch_t_self g w,
      neighbor_switch_fail g w node_list avoid (Or.inr ⟨w, h, switch_t_self g w⟩)⟩⟩

/-- C29 on the state before the first edge of the JDM `0,1,2 / 1,1,0 / 1,0,2`:
no vertex of class 0 has a free stub, and the switch for vertex 0 returns the
graph as it was. -/
theorem C29_witness :
    switch_w_prime (initial_build jdm_zero_row []).g [0, 1] none = none ∧
    neighbor_switch (initial_build jdm_zero_row []).g 0 [0, 1] none =
      (initial_build jdm_zero_row []).g :=
  ⟨by decide,
    (C29_failed_switch_changes_nothing (initial_build jdm_zero_row []).g 0 [0, 1] none).1
      (by decide)⟩

/-- C30: if `neighbor_switch` is called with `avoid_node_id = a` and
`node_residual[a] ≥ 1`, then `node_residual[a] ≥ 1` on return, and `a` is chosen
as `w'` only when `node_residual[a] > 1`; so in the case `k = l` of the realizer
the second repair leaves `v` a stub when `v` had one. -/
theorem C30_avoid_keeps_stub (b : Build) (k : Nat) (k_nodes l_nodes : List Nat) (v w : Nat)
    (hr : ResSized b.g) (hw : w < b.g.total_nodes)
    (hk : ∀ u ∈ k_nodes, u < b.g.total_nodes) (h : 1 ≤ b.g.node_residual.getD v 0) :
    1 ≤ (neighbor_switch b.g w k_nodes (some v)).node_residual.getD v 0 ∧
    (switch_w_prime b.g k_nodes (some v) = some v → 1 < b.g.node_residual.getD v 0) ∧
    1 ≤ (repair_w k k k_nodes l_nodes v w b).g.node_residual.getD v 0 := by
  have h1 := neighbor_switch_avoid b.g hr w hw k_nodes hk v h
  unfold res at h1
  refine ⟨h1, ?_, ?_⟩
  · intro hsel
    obtain ⟨-, -, hav⟩ := switch_w_prime_some b.g k_nodes (some v) v hsel
    by_contra hle
    exact hav v rfl (by unfold res; omega) rfl
  · rw [repair_w_g]
    split
    · rw [if_neg (by simp)]
      exact h1
    · exact h

/-- C30 on the graph with the edge `{0,2}` and two free stubs at vertex 1: the
switch for vertex 0 with `avoid = 1` takes one stub of vertex 1 and leaves it
one. -/
theorem C30_witness :
    1 ≤ avoid_switch_graph.node_residual.getD 1 0 ∧
    neighbor_switch avoid_switch_graph 0 [0, 1] (some 1) =
      { total_nodes := 3, adj_matrix := [0, 0, 0, 0, 0, 1, 0, 1, 0],
        node_residual := [1, 1, 0] } ∧
    1 ≤ (neighbor_switch avoid_switch_graph 0 [0, 1] (some 1)).node_residual.getD 1 0 :=
  ⟨by decide, by decide,
    (C30_avoid_keeps_stub
      { g := avoid_switch_graph, edge_list := [], E := 0, n_switches := 0 } 1 [0, 1] [0, 1] 1 0
      rfl (by decide) (by decide) (by decide)).1⟩

/-- C31: for a square matrix of dimension `n ≥ 2` whose row 0 holds no entry of
2 or more, every pair the sampling draws has `i < j ≤ n - 1`, and `1 ≤ i` when
its cell holds 2 or more, so that the pairs with which the sampling ends satisfy
`1 ≤ i < j ≤ n - 1`; the sampling takes no remainder by zero and divides by no
zero degree; and a step leaves the matrix square with row 0 as it was, so the
same holds for every matrix the mutation loop reaches. -/
theorem C31_sampling_in_bounds (n : Nat) (J : Matrix) (hn : 2 ≤ n) (hsq : Square J n)
    (h0 : RowZeroLow J n) :
    (∀ r1 r2, r1 % (n - 1) < r1 % (n - 1) + 1 + r2 % (n - r1 % (n - 1) - 1) ∧
      r1 % (n - 1) + 1 + r2 % (n - r1 % (n - 1) - 1) ≤ n - 1 ∧
      (2 ≤ J_get J (r1 % (n - 1)) (r1 % (n - 1) + 1 + r2 % (n - r1 % (n - 1) - 1)) →
        1 ≤ r1 % (n - 1))) ∧
    (∀ rs, sample J n rs none ≠ .fault) ∧
    (∀ rs s rest, sample J n rs none = .got s rest →
      (1 ≤ s.i1 ∧ s.i1 < s.j1 ∧ s.j1 ≤ n - 1) ∧ (1 ≤ s.i2 ∧ s.i2 < s.j2 ∧ s.j2 ≤ n - 1) ∧
      ∀ k, Square (apply_swap J s k) n ∧ RowZeroLow (apply_swap J s k) n ∧
        ∀ c, J_get (apply_swap J s k) 0 c = J_get J 0 c) ∧
    (∀ num_steps rs, mutate n num_steps J rs ≠ .fault ∧
      ∀ J', (mutate n num_steps J rs = .starved J' ∨
          ∃ rest, mutate n num_steps J rs = .done J' rest) →
        Square J' n ∧ RowZeroLow J' n) := by
  have hn' : ¬ n - 1 = 0 := by omega
  refine ⟨?_, sample_no_fault J n hn h0, ?_, fun num_steps rs =>
    mutate_safe n hn num_steps J rs hsq h0⟩
  · intro r1 r2
    have hb := draw_pair_lt n r1 r2 hn'
    refine ⟨by omega, by omega, ?_⟩
    intro h2
    have := draw_pair_pos J n h0 r1 r2 hn' (by omega)
    omega
  · intro rs s rest h
    have hs := sample_sampled J n rs s rest h
    have d1 := hs.lt1
    have d2 := hs.lt2
    have d3 := hs.j1_lt
    have d4 := hs.j2_lt
    have d5 := hs.pos1
    have d6 := hs.pos2
    refine ⟨⟨by omega, d1, by omega⟩, ⟨by omega, d2, by omega⟩, fun k => ?_⟩
    exact ⟨apply_swap_square J n s k hsq, apply_swap_low J n s k hsq hs h0,
      apply_swap_row_zero J n s k hsq hs⟩

/-- C31 on the 5 x 5 example, whose row 0 is zero: one step on the draws
1,0,3,0,5 ends without a fault, with the pairs `(1,2)` and `(3,4)`. -/
theorem C31_witness :
    Square (load_matrix mutator_entries) 5 ∧ RowZeroLow (load_matrix mutator_entries) 5 ∧
    sample (load_matrix mutator_entries) 5 [1, 0, 3, 0, 5] none =
      .got { i1 := 1, j1 := 2, i2 := 3, j2 := 4, max_k := 4 } [5] ∧
    mutate 5 1 (load_matrix mutator_entries) [1, 0, 3, 0, 5] ≠ .fault :=
  ⟨by decide, by decide, by decide,
    ((C31_sampling_in_bounds 5 (load_matrix mutator_entries) (by decide) (by decide)
      (by decide)).2.2.2 1 [1, 0, 3, 0, 5]).1⟩

/-- C32: for a graph without loops on `n` vertices, in particular for a simple
undirected graph, given by its edges, the JDM of `compute_jdm_from_igraph` is
symmetric; the cell `(k,k)` is twice the number of edges joining two vertices of
degree `k`; the cell `(k,l)` with `k ≠ l` is the number of edges joining a
vertex of degree `k` and a vertex of degree `l`; the sum of row `k` is `k` times
the number of vertices of degree `k`; and the JDM satisfies the conditions 2 and
5 of the feasibility checker. -/
theorem C32_recomputed_jdm (n : Nat) (edges : List (Nat × Nat))
    (hv : ∀ e ∈ edges, e.1 < n ∧ e.2 < n) (hl : ∀ e ∈ edges, e.1 ≠ e.2) :
    (∀ k l, jdm_cell (compute_jdm_from_igraph edges) k l =
      jdm_cell (compute_jdm_from_igraph edges) l k) ∧
    (∀ k, jdm_cell (compute_jdm_from_igraph edges) k k =
      2 * edges.countP (fun e =>
        decide (igraph_degree edges e.1 = k ∧ igraph_degree edges e.2 = k))) ∧
    (∀ k l, k ≠ l → jdm_cell (compute_jdm_from_igraph edges) k l =
      edges.countP (fun e => decide
        ((igraph_degree edges e.1 = k ∧ igraph_degree edges e.2 = l) ∨
          (igraph_degree edges e.1 = l ∧ igraph_degree edges e.2 = k)))) ∧
    (∀ k, row_total (row_of (compute_jdm_from_igraph edges) k) =
      k * (List.range n).countP (fun u => decide (igraph_degree edges u = k))) ∧
    Cond2 (compute_jdm_from_igraph edges) ∧ Cond5 (compute_jdm_from_igraph edges) := by
  have hwf := (compute_jdm_stored edges).1
  refine ⟨recomputed_symm edges, recomputed_diag edges, recomputed_off_diag edges,
    recomputed_row_total n edges hv hl, ?_, ?_⟩
  · intro r hr _
    rw [← row_of_mem _ hwf.1 r hr, recomputed_row_total n edges hv hl r.1]
    exact Nat.mul_mod_right _ _
  · intro r hr c hc hkl
    rw [← jdm_cell_of_mem _ hwf r hr c hc, ← hkl, recomputed_diag edges r.1]
    exact Nat.mul_mod_right _ _

/-- C32 on the path 2 - 0 - 1 - 3: the recomputed JDM is the path JDM up to the
order of its rows, and row 2 sums to 2 times the two vertices of degree 2. -/
theorem C32_witness :
    compute_jdm_from_igraph [(0, 1), (0, 2), (1, 3)] =
      [(2, [(2, 2), (1, 2)]), (1, [(2, 2)])] ∧
    row_total (row_of (compute_jdm_from_igraph [(0, 1), (0, 2), (1, 3)]) 2) =
      2 * (List.range 4).countP (fun u =>
        decide (igraph_degree [(0, 1), (0, 2), (1, 3)] u = 2)) :=
  ⟨by decide,
    (C32_recomputed_jdm 4 [(0, 1), (0, 2), (1, 3)] (by decide) (by decide)).2.2.2.1 2⟩

end TwoK
